import Mathlib

/-! TavilyProxyManager: distributed-token lifecycle.

A shallow embedding of the Go services under `server/internal/services`
(token cipher, distributed key service, distributed key usage service, master
key, distributed rate limiter, key batch create job) together with the
properties proved about them.

Conventions of the embedding

* A Go `string` / `[]byte` is a list of bytes (`Str`).
* A `time.Time` is an integer number of nanoseconds since Go's zero instant
  (an `Int`); a `time.Duration` is a signed 64-bit number of nanoseconds, so
  arithmetic on durations wraps (`wrapInt64`).
* Go `int` / `uint` values that cannot overflow on the paths modelled are
  `Int` / `Nat`.
* Randomness, the clock and the outcome of external collaborators are explicit
  arguments.
* Library code the services call (package `strings`, `encoding/base64`,
  `crypto/cipher`, `crypto/sha256`, the relational store) is modelled by its
  documented behaviour; cryptographic primitives and the case tables of
  package `unicode` are parameters.
-/

namespace TavilyProxy

/-! ## Bytes and strings -/

/-- One byte of a Go string or byte slice. -/
abbrev Byte := Fin 256

/-- A Go string or byte slice. -/
abbrev Str := List Byte

/-- Conversion `byte(n)`: keeps the low eight bits. -/
def byte (n : Nat) : Byte := ⟨n % 256, Nat.mod_lt _ (by decide)⟩

/-- The bytes of an ASCII string literal of the source. -/
def ascii (s : String) : Str := s.toList.map (fun c => byte c.toNat)

/-- Table `asciiSpace` of package `strings`: tab, line feed, vertical tab, form
feed, carriage return and space. -/
def isASCIISpace (b : Byte) : Bool :=
  b.val == 9 || b.val == 10 || b.val == 11 || b.val == 12 || b.val == 13 || b.val == 32

/-- UTF-8 encodings of the two-byte runes for which `unicode.IsSpace` holds:
U+0085 (NEL) and U+00A0 (NBSP). -/
def spaceRunes2 : List Str := [[0xC2, 0x85], [0xC2, 0xA0]]

/-- UTF-8 encodings of the three-byte runes for which `unicode.IsSpace` holds:
U+1680, U+2000..U+200A, U+2028, U+2029, U+202F, U+205F and U+3000. -/
def spaceRunes3 : List Str :=
  [[0xE1, 0x9A, 0x80],
   [0xE2, 0x80, 0x80], [0xE2, 0x80, 0x81], [0xE2, 0x80, 0x82], [0xE2, 0x80, 0x83],
   [0xE2, 0x80, 0x84], [0xE2, 0x80, 0x85], [0xE2, 0x80, 0x86], [0xE2, 0x80, 0x87],
   [0xE2, 0x80, 0x88], [0xE2, 0x80, 0x89], [0xE2, 0x80, 0x8A],
   [0xE2, 0x80, 0xA8], [0xE2, 0x80, 0xA9], [0xE2, 0x80, 0xAF],
   [0xE2, 0x81, 0x9F], [0xE3, 0x80, 0x80]]

/-- Width in bytes of the white-space rune that `s` starts with, or 0 when the
first rune of `s` (as decoded by `utf8.DecodeRuneInString`) is not white space.
Invalid UTF-8 decodes to `RuneError`, which is not white space. -/
def leadingSpaceWidth (s : Str) : Nat :=
  match s with
  | [] => 0
  | b :: _ =>
    if isASCIISpace b then 1
    else if decide (s.take 2 ∈ spaceRunes2) then 2
    else if decide (s.take 3 ∈ spaceRunes3) then 3
    else 0

/-- Width in bytes of the white-space rune that the string ends with, given the
string reversed (`utf8.DecodeLastRuneInString`), or 0. -/
def trailingSpaceWidth (r : Str) : Nat :=
  match r with
  | [] => 0
  | b :: _ =>
    if isASCIISpace b then 1
    else if decide ((r.take 2).reverse ∈ spaceRunes2) then 2
    else if decide ((r.take 3).reverse ∈ spaceRunes3) then 3
    else 0

/-- Loop of `strings.TrimLeftFunc(s, unicode.IsSpace)`; `fuel` bounds the number
of runes removed. -/
def trimLeftLoop : Nat → Str → Str
  | 0, s => s
  | fuel + 1, s =>
    if leadingSpaceWidth s = 0 then s else trimLeftLoop fuel (s.drop (leadingSpaceWidth s))

/-- Loop of `strings.TrimRightFunc(s, unicode.IsSpace)` on the reversed string. -/
def trimRightLoop : Nat → Str → Str
  | 0, r => r
  | fuel + 1, r =>
    if trailingSpaceWidth r = 0 then r else trimRightLoop fuel (r.drop (trailingSpaceWidth r))

/-- Function `strings.TrimSpace`: removes all leading and then all trailing white-space
runes. -/
def TrimSpace (s : Str) : Str :=
  let l := trimLeftLoop s.length s
  (trimRightLoop l.length l.reverse).reverse

/-! ## `encoding/base64`, `RawURLEncoding` -/

/-- The alphabet `encodeURL`, entry `v`:
`ABCDEFGHIJKLMNOPQRSTUVWXYZabcdefghijklmnopqrstuvwxyz0123456789-_`. -/
def encodeURLChar (v : Nat) : Byte :=
  byte (if v < 26 then 65 + v else if v < 52 then 71 + v else if v < 62 then v - 4
        else if v = 62 then 45 else 95)

/-- The decode map of the URL alphabet: the index of a byte in the alphabet, or
`none` (0xFF in the source table) when the byte is not in it. -/
def decodeURLChar (b : Byte) : Option Nat :=
  if 65 ≤ b.val ∧ b.val ≤ 90 then some (b.val - 65)
  else if 97 ≤ b.val ∧ b.val ≤ 122 then some (b.val - 71)
  else if 48 ≤ b.val ∧ b.val ≤ 57 then some (b.val + 4)
  else if b.val = 45 then some 62
  else if b.val = 95 then some 63
  else none

/-- The 6-bit groups `Encoding.Encode` emits without padding: four per full
3-byte block, two for one remaining byte, three for two remaining bytes. -/
def encodeGroups : Str → List Nat
  | [] => []
  | [x] =>
    let val := x.val * 65536
    [val / 262144 % 64, val / 4096 % 64]
  | [x, y] =>
    let val := x.val * 65536 + y.val * 256
    [val / 262144 % 64, val / 4096 % 64, val / 64 % 64]
  | x :: y :: z :: rest =>
    let val := x.val * 65536 + y.val * 256 + z.val
    (val / 262144 % 64) :: (val / 4096 % 64) :: (val / 64 % 64) :: (val % 64) ::
      encodeGroups rest

/-- Method `base64.RawURLEncoding.EncodeToString`. -/
def EncodeToString (src : Str) : Str := (encodeGroups src).map encodeURLChar

/-- Alphabet look-up of the decoder: carriage returns and line feeds are
skipped, any other byte outside the alphabet is corrupt input. -/
def decodeChars : Str → Option (List Nat)
  | [] => some []
  | b :: rest =>
    if b.val = 10 ∨ b.val = 13 then decodeChars rest
    else
      match decodeURLChar b with
      | none => none
      | some v =>
        match decodeChars rest with
        | none => none
        | some vs => some (v :: vs)

/-- Quantum decoding of the unpadded, non-strict decoder: four 6-bit values
give three bytes; a final quantum of two or three values gives one or two bytes,
its unused low bits being ignored; a final quantum of one value is corrupt. -/
def decodeGroups : List Nat → Option Str
  | [] => some []
  | [_] => none
  | [a, b] =>
    let val := a * 262144 + b * 4096
    some [byte (val / 65536)]
  | [a, b, c] =>
    let val := a * 262144 + b * 4096 + c * 64
    some [byte (val / 65536), byte (val / 256)]
  | a :: b :: c :: d :: rest =>
    let val := a * 262144 + b * 4096 + c * 64 + d
    match decodeGroups rest with
    | none => none
    | some out => some (byte (val / 65536) :: byte (val / 256) :: byte val :: out)

/-- Method `base64.RawURLEncoding.DecodeString`; `none` is `CorruptInputError`. -/
def DecodeString (s : Str) : Option Str :=
  match decodeChars s with
  | none => none
  | some vs => decodeGroups vs


/-! ## Errors -/

/-- The Go `error` values the modelled code returns. Sentinel errors keep their
source names; the other constructors stand for the errors made on the spot. -/
inductive Err where
  /-- Sentinel `distributed_key_not_found`. -/
  | ErrDistributedKeyNotFound
  /-- Sentinel `distributed_key_disabled`. -/
  | ErrDistributedKeyDisabled
  /-- Sentinel `distributed_key_expired`. -/
  | ErrDistributedKeyExpired
  /-- Sentinel `invalid_rate_limit_per_minute`. -/
  | ErrInvalidRateLimit
  /-- Sentinel `no keys to create`. -/
  | ErrBatchCreateNoKeys
  /-- Sentinel `too many keys in one batch`. -/
  | ErrBatchCreateTooLarge
  /-- The error `empty plaintext` of `Encrypt`. -/
  | emptyPlaintext
  /-- The error `empty ciphertext` of `Decrypt`. -/
  | emptyCiphertext
  /-- A `base64.CorruptInputError`. -/
  | corruptInput
  /-- The error `ciphertext too short` of `Decrypt`. -/
  | ciphertextTooShort
  /-- The authentication failure returned by `AEAD.Open`. -/
  | openFailed
  /-- A failure of the system random reader. -/
  | randRead
  /-- The error `failed to create unique key` of `Create`. -/
  | failedToCreateUniqueKey
  /-- The error `failed to rotate key` of `Rotate`. -/
  | failedToRotateKey
  /-- The error `invalid secret length` of `generateSecret`. -/
  | invalidSecretLength
  /-- The error `missing USER_KEY_ENCRYPTION_KEY` of `NewTokenCipher`. -/
  | missingEncryptionKey
  /-- The error `invalid USER_KEY_ENCRYPTION_KEY length: got %d, ...` of
  `NewTokenCipher`. -/
  | invalidEncryptionKeyLength (got : Nat)
  /-- An error reported by the relational store, with its message. -/
  | store (msg : Str)
  deriving DecidableEq, Repr

/-! ## `token_cipher.go` -/

/-- The interface `cipher.AEAD`, with no additional data (the service passes
`nil`). `Open` returns `none` when authentication fails. -/
structure AEAD where
  /-- Method `NonceSize()`. -/
  NonceSize : Nat
  /-- Method `Overhead()`. -/
  Overhead : Nat
  /-- Method `Seal(nil, nonce, plaintext, nil)`. -/
  Seal : Str → Str → Str
  /-- Method `Open(nil, nonce, ciphertext, nil)`. -/
  Open : Str → Str → Option Str

/-- The contract of `cipher.AEAD`: sealing adds `Overhead()` bytes, and opening
what was sealed under the same nonce gives the plaintext back. -/
structure AEAD.Lawful (a : AEAD) : Prop where
  /-- Length of a sealed message. -/
  seal_length : ∀ nonce plaintext, (a.Seal nonce plaintext).length = plaintext.length + a.Overhead
  /-- Opening a sealed message. -/
  open_seal : ∀ nonce plaintext, nonce.length = a.NonceSize →
    a.Open nonce (a.Seal nonce plaintext) = some plaintext

/-- Struct `TokenCipher`. -/
structure TokenCipher where
  /-- Field `aead`. -/
  aead : AEAD

/-- Method `TokenCipher.Encrypt`. `nonce` is the content of the nonce buffer
after `io.ReadFull(rand.Reader, nonce)`, or `none` when the reader failed. -/
def TokenCipher.Encrypt (c : TokenCipher) (nonce : Option Str) (plaintext : Str) :
    Except Err Str :=
  if plaintext = [] then .error .emptyPlaintext
  else
    match nonce with
    | none => .error .randRead
    | some nonce =>
      let out := c.aead.Seal nonce plaintext
      let joined := nonce ++ out
      .ok (EncodeToString joined)

/-- Method `TokenCipher.Decrypt`. -/
def TokenCipher.Decrypt (c : TokenCipher) (ciphertext : Str) : Except Err Str :=
  let encoded := TrimSpace ciphertext
  if encoded = [] then .error .emptyCiphertext
  else
    match DecodeString encoded with
    | none => .error .corruptInput
    | some raw =>
      let nonceSize := c.aead.NonceSize
      if raw.length ≤ nonceSize then .error .ciphertextTooShort
      else
        match c.aead.Open (raw.take nonceSize) (raw.drop nonceSize) with
        | none => .error .openFailed
        | some plain => .ok plain

/-- A byte that is ASCII and not white space. -/
def isPlain (b : Byte) : Bool := decide (b.val < 128) && !isASCIISpace b

/-- The canonical form of a sequence of 6-bit groups: the unused low bits of a
final partial quantum (four bits after one byte, two bits after two bytes) are
cleared, as the encoder writes them. -/
def canonGroups : List Nat → List Nat
  | [] => []
  | [a] => [a]
  | [a, b] => [a, b / 16 * 16]
  | [a, b, c] => [a, b, c / 4 * 4]
  | a :: b :: c :: d :: rest => a :: b :: c :: d :: canonGroups rest

/-- The byte `b` with bit `k` (0 = least significant) inverted. -/
def flipBit (b : Byte) (k : Nat) : Byte := byte (b.val ^^^ 2 ^ k)

/-- The string `s` with bit `k` of its byte at index `i` inverted. -/
def flipBitAt : Str → Nat → Nat → Str
  | [], _, _ => []
  | b :: rest, 0, k => flipBit b k :: rest
  | b :: rest, i + 1, k => b :: flipBitAt rest i k

/-- A sample AEAD satisfying the contract `AEAD.Lawful`, with the sizes of
AES-GCM (12-byte nonce, 16-byte tag): the tag repeats the first nonce byte. -/
def sampleAEAD : AEAD where
  NonceSize := 12
  Overhead := 16
  Seal := fun nonce plaintext => plaintext ++ List.replicate 16 (nonce.headD 0)
  Open := fun nonce sealed =>
    if 16 ≤ sealed.length ∧
        sealed.drop (sealed.length - 16) = List.replicate 16 (nonce.headD 0) then
      some (sealed.take (sealed.length - 16))
    else none

/-- A sample AEAD that is ideal with respect to one sealed message: it opens
the pair (`nonce`, sealed `plaintext`) and rejects every other input. -/
def idealAEAD (nonce plaintext : Str) : AEAD where
  NonceSize := 12
  Overhead := 16
  Seal := fun _ p => p ++ List.replicate 16 0
  Open := fun n s =>
    if n = nonce ∧ s = plaintext ++ List.replicate 16 0 then some plaintext else none

/-! ## Time -/

/-! A `time.Time` is an `Int`: nanoseconds since Go's zero instant (January 1,
year 1, 00:00:00 UTC). The finite range of `time.Time` is not modelled. -/

/-- Conversion to `int64`, as Go's wrapping arithmetic on `time.Duration`
does. -/
def wrapInt64 (x : Int) : Int := (x + 2 ^ 63) % 2 ^ 64 - 2 ^ 63

/-- Constant `time.Minute`, in nanoseconds. -/
def Minute : Int := 60000000000

/-- Method `Time.Truncate(d)`: rounds down to a multiple of `d` since the zero
instant; for `d <= 0` the instant is returned unchanged. -/
def Truncate (t : Int) (d : Int) : Int := if d ≤ 0 then t else t - t % d

/-! ## `models.DistributedKey` and its table -/

/-- Struct `models.DistributedKey`. -/
structure DistributedKey where
  /-- Primary key. -/
  ID : Nat
  /-- Column `name`. -/
  Name : Str
  /-- Column `note`. -/
  Note : Str
  /-- Column `token_hash`, under a unique index. -/
  TokenHash : Str
  /-- Column `ciphertext`. -/
  Ciphertext : Str
  /-- Column `key_prefix`. -/
  KeyPrefix : Str
  /-- Column `is_active`. -/
  IsActive : Bool
  /-- Column `expires_at`. -/
  ExpiresAt : Option Int
  /-- Column `rate_limit_per_minute`. -/
  RateLimitPerMinute : Int
  /-- Column `last_used_at`. -/
  LastUsedAt : Option Int
  /-- Column `created_at`. -/
  CreatedAt : Int
  /-- Column `updated_at`. -/
  UpdatedAt : Int
  deriving DecidableEq, Repr

/-- The table `distributed_keys` behind `*gorm.DB`: its rows in primary-key
order and the next key the store hands out. -/
structure DB where
  /-- The rows. -/
  rows : List DistributedKey
  /-- The next auto-increment primary key. -/
  nextID : Nat
  deriving DecidableEq, Repr

/-- The message with which the store rejects a row that violates the unique
index on `token_hash`. -/
def uniqueConstraintFailed : Str := ascii "UNIQUE constraint failed: distributed_keys.token_hash"

/-- The column defaults of the table, declared by the tags `default:true` of
`IsActive` and `default:60` of `RateLimitPerMinute`: at an insertion the
store's mapper replaces a field that holds the zero value of its type by the
default of its column, in the statement and in the record. -/
def columnDefaults (record : DistributedKey) : DistributedKey :=
  { record with
    IsActive := if record.IsActive = false then true else record.IsActive
    RateLimitPerMinute :=
      if record.RateLimitPerMinute = 0 then 60 else record.RateLimitPerMinute }

/-- Call `db.Create(&record)`: fills in the column defaults, assigns the primary
key and the timestamps and appends the row, unless the unique index on
`token_hash` is violated. `fault` is a failure of the store unrelated to the
data (its message), when one occurs. -/
def DB.Create (db : DB) (record : DistributedKey) (now : Int) (fault : Option Str) :
    Except Str (DistributedKey × DB) :=
  match fault with
  | some msg => .error msg
  | none =>
    if db.rows.any (fun r => decide (r.TokenHash = record.TokenHash)) then
      .error uniqueConstraintFailed
    else
      let stored :=
        { columnDefaults record with ID := db.nextID, CreatedAt := now, UpdatedAt := now }
      .ok (stored, { rows := db.rows ++ [stored], nextID := db.nextID + 1 })

/-- Call `db.First(&key, "token_hash = ?", hash)`: the first row, in primary-key
order, with that digest; `none` is `gorm.ErrRecordNotFound`. -/
def DB.First (db : DB) (hash : Str) : Option DistributedKey :=
  db.rows.find? (fun r => decide (r.TokenHash = hash))

/-! ## `distributed_key_service.go` -/

/-- Constant `distributedKeyPrefixDefault`. -/
def distributedKeyPrefixDefault : Str := ascii "uk_live_"

/-- Constant `distributedKeyNameDefault`. -/
def distributedKeyNameDefault : Str := ascii "User Key"

/-- Struct `DistributedKeyService`, without its logger and with the store
passed to each method. `sha256Hex` stands for `hex.EncodeToString` of
`sha256.Sum256` and `mapToLower` for `strings.Map(unicode.ToLower, ·)`, two
library functions that are parameters of the model. -/
structure DistributedKeyService where
  /-- Field `cipher`. -/
  cipher : TokenCipher
  /-- Field `defaultRateLimit`. -/
  defaultRateLimit : Int
  /-- The digest function behind `hashToken`. -/
  sha256Hex : Str → Str
  /-- The rune-by-rune lowering behind `strings.ToLower`, which rests on the
  case tables of the library. -/
  mapToLower : Str → Str

/-- Struct `DistributedKeyCreateInput`. -/
structure DistributedKeyCreateInput where
  /-- Field `Name`. -/
  Name : Str
  /-- Field `Note`. -/
  Note : Str
  /-- Field `ExpiresAt`. -/
  ExpiresAt : Option Int
  /-- Field `RateLimitPerMinute`. -/
  RateLimitPerMinute : Option Int

/-- Function `NewDistributedKeyService`. -/
def NewDistributedKeyService (sha256Hex mapToLower : Str → Str) (cipher : TokenCipher)
    (defaultRateLimit : Int) : DistributedKeyService :=
  { cipher := cipher
    defaultRateLimit := if defaultRateLimit < 0 then 0 else defaultRateLimit
    sha256Hex := sha256Hex
    mapToLower := mapToLower }

/-- Function `hashToken`. -/
def hashToken (sha256Hex : Str → Str) (token : Str) : Str := sha256Hex token

/-- Function `tokenPrefix`. -/
def tokenPrefix (token : Str) : Str :=
  if token.length ≤ 14 then token else token.take 14

/-- Function `generateDistributedKeyToken`. `raw` is the content of the 24-byte
buffer after `rand.Read`, or `none` when `rand.Read` returned an error (from
Go 1.24 on it never returns an error: a failing random source ends the
program). -/
def generateDistributedKeyToken (raw : Option Str) : Except Err Str :=
  match raw with
  | none => .error .randRead
  | some raw => .ok (distributedKeyPrefixDefault ++ EncodeToString raw)

/-- Function `strings.ToLower`. A string whose bytes are all below
`utf8.RuneSelf` = 0x80 takes the ASCII path of the function: the letters `A`..`Z`
are lowered and every other byte is kept. A string with a byte from 0x80 on is
handed to `strings.Map(unicode.ToLower, s)`, the parameter `mapToLower`; among
others that function turns the Kelvin sign U+212A into `k` and the dotted capital
U+0130 into `i`. -/
def ToLower (mapToLower : Str → Str) (s : Str) : Str :=
  if s.all (fun b => decide (b.val < 128)) then
    s.map (fun b => if 65 ≤ b.val ∧ b.val ≤ 90 then byte (b.val + 32) else b)
  else mapToLower s

/-- Function `strings.Contains`. -/
def Contains (s substr : Str) : Bool := s.tails.any (fun t => substr.isPrefixOf t)

/-- Function `isUniqueConstraintError`, on the message of a non-nil error. -/
def isUniqueConstraintError (mapToLower : Str → Str) (msg : Str) : Bool :=
  let m := ToLower mapToLower msg
  Contains m (ascii "unique constraint") || Contains m (ascii "duplicate key")

/-- What the environment supplies to one iteration of the generation loop of
`Create` and `Rotate`. -/
structure Attempt where
  /-- The 24 bytes read by `rand.Read`, or `none` when `rand.Read` returned an
  error (from Go 1.24 on it never returns an error: a failing random source
  ends the program). -/
  raw : Option Str
  /-- The nonce read by `Encrypt`, or `none` when the reader returned an
  error. -/
  nonce : Option Str
  /-- A failure of the store unrelated to the data, when one occurs. -/
  fault : Option Str
  /-- The store's clock at the write. -/
  now : Int

/-- The loop `for i := 0; i < 3; i++` of `Create`, with `fuel = 3 - i`
iterations left. -/
def createLoop (s : DistributedKeyService) (input : DistributedKeyCreateInput) (name : Str)
    (rateLimit : Int) (env : Nat → Attempt) :
    Nat → Nat → DB → Except Err (DistributedKey × Str) × DB
  | 0, _, db => (.error .failedToCreateUniqueKey, db)
  | fuel + 1, i, db =>
    match generateDistributedKeyToken (env i).raw with
    | .error e => (.error e, db)
    | .ok token =>
      match s.cipher.Encrypt (env i).nonce token with
      | .error e => (.error e, db)
      | .ok ciphertext =>
        let record : DistributedKey :=
          { ID := 0
            Name := name
            Note := TrimSpace input.Note
            TokenHash := hashToken s.sha256Hex token
            Ciphertext := ciphertext
            KeyPrefix := tokenPrefix token
            IsActive := true
            ExpiresAt := input.ExpiresAt
            RateLimitPerMinute := rateLimit
            LastUsedAt := none
            CreatedAt := 0
            UpdatedAt := 0 }
        match db.Create record (env i).now (env i).fault with
        | .error msg =>
          if isUniqueConstraintError s.mapToLower msg then
            createLoop s input name rateLimit env fuel (i + 1) db
          else (.error (.store msg), db)
        | .ok (stored, db') => (.ok (stored, token), db')

/-- Method `DistributedKeyService.Create`: the result and the store
afterwards. -/
def DistributedKeyService.Create (s : DistributedKeyService) (db : DB)
    (input : DistributedKeyCreateInput) (env : Nat → Attempt) :
    Except Err (DistributedKey × Str) × DB :=
  let rateLimit := match input.RateLimitPerMinute with
    | some v => v
    | none => s.defaultRateLimit
  if rateLimit < 0 then (.error .ErrInvalidRateLimit, db)
  else
    let name := if TrimSpace input.Name = [] then distributedKeyNameDefault
      else TrimSpace input.Name
    createLoop s input name rateLimit env 3 0 db

/-- Function `subtle.ConstantTimeCompare`: 1 when the two slices are equal, else 0. -/
def ConstantTimeCompare (x y : Str) : Int := if x = y then 1 else 0

/-- Method `DistributedKeyService.AuthenticateBearer`. The look-up is taken to
reach the store, so its only failure is `gorm.ErrRecordNotFound`. -/
def DistributedKeyService.AuthenticateBearer (s : DistributedKeyService) (db : DB)
    (token : Str) (now : Int) : Except Err DistributedKey :=
  let trimmed := TrimSpace token
  if trimmed = [] then .error .ErrDistributedKeyNotFound
  else
    match db.First (hashToken s.sha256Hex trimmed) with
    | none => .error .ErrDistributedKeyNotFound
    | some key =>
      match s.cipher.Decrypt key.Ciphertext with
      | .error e => .error e
      | .ok plain =>
        if ConstantTimeCompare plain trimmed ≠ 1 then .error .ErrDistributedKeyNotFound
        else if !key.IsActive then .error .ErrDistributedKeyDisabled
        else
          match key.ExpiresAt with
          | some expiresAt =>
            if ¬ (expiresAt > now) then .error .ErrDistributedKeyExpired else .ok key
          | none => .ok key

/-! ## `distributed_rate_limiter.go` -/

/-- Struct `rateBucket`. -/
structure rateBucket where
  /-- Field `windowStart`. -/
  windowStart : Int
  /-- Field `count`. -/
  count : Int
  deriving DecidableEq, Repr

/-- Struct `DistributedRateLimiter`, without its mutex: every method below is
one critical section. The map `buckets` is a partial function on identities. -/
structure DistributedRateLimiter where
  /-- Field `window`, a `time.Duration` in nanoseconds. -/
  window : Int
  /-- Field `buckets`. -/
  buckets : Nat → Option rateBucket

/-- Function `NewDistributedRateLimiter`. -/
def NewDistributedRateLimiter (window : Int) : DistributedRateLimiter :=
  { window := if window ≤ 0 then Minute else window
    buckets := fun _ => none }

/-- Method `gcLocked`: deletes every bucket whose window started before
`now.Add(-2 * l.window)`. The product is a `time.Duration` and wraps. -/
def DistributedRateLimiter.gcLocked (l : DistributedRateLimiter) (now : Int) :
    DistributedRateLimiter :=
  let cutoff := now + wrapInt64 (-2 * l.window)
  { l with
    buckets := fun keyID =>
      match l.buckets keyID with
      | some bucket => if bucket.windowStart < cutoff then none else some bucket
      | none => none }

/-- Assignment `l.buckets[keyID] = bucket`. -/
def DistributedRateLimiter.setBucket (l : DistributedRateLimiter) (keyID : Nat)
    (bucket : rateBucket) : DistributedRateLimiter :=
  { l with buckets := fun k => if k = keyID then some bucket else l.buckets k }

/-- Method `Allow`: the decision and the limiter afterwards. -/
def DistributedRateLimiter.Allow (l : DistributedRateLimiter) (keyID : Nat) (limit : Int)
    (now : Int) : Bool × DistributedRateLimiter :=
  if keyID = 0 ∨ limit = 0 then (true, l)
  else if limit < 0 then (false, l)
  else
    let windowStart := Truncate now l.window
    let l := l.gcLocked now
    match l.buckets keyID with
    | none => (true, l.setBucket keyID { windowStart := windowStart, count := 1 })
    | some current =>
      if ¬ (current.windowStart = windowStart) then
        (true, l.setBucket keyID { windowStart := windowStart, count := 1 })
      else if current.count ≥ limit then (false, l)
      else (true, l.setBucket keyID { current with count := current.count + 1 })

/-- One call of `Allow`, as it appears in a trace. -/
structure AllowCall where
  /-- Argument `keyID`. -/
  keyID : Nat
  /-- Argument `limit`. -/
  limit : Int
  /-- Argument `now`. -/
  now : Int
  deriving DecidableEq, Repr

/-- The decisions of a sequence of `Allow` calls made one after the other, and
the limiter at the end. -/
def runAllow (l : DistributedRateLimiter) : List AllowCall → List Bool × DistributedRateLimiter
  | [] => ([], l)
  | c :: rest =>
    let r := l.Allow c.keyID c.limit c.now
    let rs := runAllow r.2 rest
    (r.1 :: rs.1, rs.2)

/-- How many calls of a trace are for identity `keyID` and fall in the aligned
window starting at `windowStart`. -/
def countInWindow (window : Int) (keyID : Nat) (windowStart : Int) (calls : List AllowCall) : Nat :=
  (calls.filter (fun c => decide (c.keyID = keyID ∧ Truncate c.now window = windowStart))).length

/-! ## `key_batch_create_job_service.go` -/

/-- Constant `maxBatchCreateKeys`. -/
def maxBatchCreateKeys : Nat := 5000

/-- Struct `KeyBatchCreateFailure`. -/
structure KeyBatchCreateFailure where
  /-- Field `Key`. -/
  Key : Str
  /-- Field `Error`. -/
  Error : Str
  deriving DecidableEq, Repr

/-- Struct `KeyBatchCreateJobStatus`. -/
structure KeyBatchCreateJobStatus where
  /-- Field `ID`. -/
  ID : Str
  /-- Field `Status`: idle, running, completed or error. -/
  Status : Str
  /-- Field `Error`. -/
  Error : Str
  /-- Field `Total`. -/
  Total : Int
  /-- Field `Completed`. -/
  Completed : Int
  /-- Field `Succeeded`. -/
  Succeeded : Int
  /-- Field `Failed`. -/
  Failed : Int
  /-- Field `Failures`. -/
  Failures : List KeyBatchCreateFailure
  /-- Field `StartedAt`. -/
  StartedAt : Option Int
  /-- Field `EndedAt`. -/
  EndedAt : Option Int
  deriving DecidableEq, Repr

/-- The zero value `KeyBatchCreateJobStatus{}`. -/
def KeyBatchCreateJobStatus.zero : KeyBatchCreateJobStatus :=
  { ID := [], Status := [], Error := [], Total := 0, Completed := 0, Succeeded := 0,
    Failed := 0, Failures := [], StartedAt := none, EndedAt := none }

/-- A goroutine executing `runJob`: its arguments, `keys` being the items the
loop has not processed yet. -/
structure runJobWorker where
  /-- Argument `jobID`. -/
  jobID : Str
  /-- The rest of the range over `keys`. -/
  keys : List Str
  /-- Argument `alias`. -/
  alias_ : Str
  /-- Argument `totalQuota`. -/
  totalQuota : Int
  deriving DecidableEq, Repr

/-- Struct `KeyBatchCreateJobService` together with the goroutines it has
launched that have not returned. Every function below is one critical section
of the mutex `mu`. -/
structure KeyBatchCreateJobService where
  /-- Field `job`. -/
  job : Option KeyBatchCreateJobStatus
  /-- The live `runJob` goroutines. -/
  workers : List runJobWorker
  deriving DecidableEq, Repr

/-- Function `NewKeyBatchCreateJobService`. -/
def NewKeyBatchCreateJobService : KeyBatchCreateJobService := { job := none, workers := [] }

/-- Function `cloneKeyBatchCreateJobStatus`: a deep copy, so the same value. -/
def cloneKeyBatchCreateJobStatus (job : KeyBatchCreateJobStatus) : KeyBatchCreateJobStatus :=
  { job with Failures := job.Failures, StartedAt := job.StartedAt, EndedAt := job.EndedAt }

/-- Method `Get`. -/
def KeyBatchCreateJobService.Get (s : KeyBatchCreateJobService) : KeyBatchCreateJobStatus :=
  match s.job with
  | none => { KeyBatchCreateJobStatus.zero with Status := ascii "idle" }
  | some job => cloneKeyBatchCreateJobStatus job

/-- One iteration of the loop of `normalizeBatchKeys`, on the pair
(`out`, `seen`). -/
def normalizeStep (acc : List Str × List Str) (raw : Str) : List Str × List Str :=
  let key := TrimSpace raw
  if key = [] then acc
  else if key ∈ acc.2 then acc
  else (acc.1 ++ [key], key :: acc.2)

/-- Function `normalizeBatchKeys`. -/
def normalizeBatchKeys (rawKeys : List Str) : List Str :=
  (rawKeys.foldl normalizeStep ([], [])).1

/-- Method `Start`: the three results and the service afterwards. `newID` is
the value of `uuid.NewString()` and `now` that of `time.Now()`. -/
def KeyBatchCreateJobService.Start (s : KeyBatchCreateJobService) (rawKeys : List Str)
    (alias_ : Str) (totalQuota : Int) (newID : Str) (now : Int) :
    (KeyBatchCreateJobStatus × Bool × Option Err) × KeyBatchCreateJobService :=
  let keys := normalizeBatchKeys rawKeys
  if keys.length = 0 then ((KeyBatchCreateJobStatus.zero, false, some .ErrBatchCreateNoKeys), s)
  else if keys.length > maxBatchCreateKeys then
    ((KeyBatchCreateJobStatus.zero, false, some .ErrBatchCreateTooLarge), s)
  else
    let alias_ := if TrimSpace alias_ = [] then ascii "Default" else alias_
    match s.job with
    | some current =>
      if current.Status = ascii "running" then
        ((cloneKeyBatchCreateJobStatus current, true, none), s)
      else
        let job : KeyBatchCreateJobStatus :=
          { KeyBatchCreateJobStatus.zero with
            ID := newID, Status := ascii "running", Total := keys.length, StartedAt := some now }
        ((cloneKeyBatchCreateJobStatus job, false, none),
          { job := some job
            workers := s.workers ++
              [{ jobID := job.ID, keys := keys, alias_ := alias_, totalQuota := totalQuota }] })
    | none =>
      let job : KeyBatchCreateJobStatus :=
        { KeyBatchCreateJobStatus.zero with
          ID := newID, Status := ascii "running", Total := keys.length, StartedAt := some now }
      ((cloneKeyBatchCreateJobStatus job, false, none),
        { job := some job
          workers := s.workers ++
            [{ jobID := job.ID, keys := keys, alias_ := alias_, totalQuota := totalQuota }] })

/-- One iteration of the loop of `runJob` for the item `key`: `err` is the
message of the error returned by `s.keys.Create`, `none` for success. The
result is the job record afterwards and whether the goroutine goes on. -/
def runJobItem (job : Option KeyBatchCreateJobStatus) (jobID key : Str) (err : Option Str) :
    Option KeyBatchCreateJobStatus × Bool :=
  match job with
  | none => (none, false)
  | some j =>
    if j.ID ≠ jobID then (some j, false)
    else
      let j := { j with Completed := j.Completed + 1 }
      match err with
      | some msg =>
        (some { j with Failed := j.Failed + 1,
                       Failures := j.Failures ++ [{ Key := key, Error := msg }] }, true)
      | none => (some { j with Succeeded := j.Succeeded + 1 }, true)

/-- The end of `runJob`, after the loop: `endedAt` is the value of
`time.Now()`. -/
def runJobEnd (job : Option KeyBatchCreateJobStatus) (jobID : Str) (endedAt : Int) :
    Option KeyBatchCreateJobStatus :=
  match job with
  | none => none
  | some j =>
    if j.ID = jobID then some { j with Status := ascii "completed", EndedAt := some endedAt }
    else some j

/-- The transitions of the job service: a call of `Start`, one loop iteration
of a live goroutine, or the end of a goroutine whose loop is over. -/
inductive JobStep : KeyBatchCreateJobService → KeyBatchCreateJobService → Prop where
  /-- A call of `Start`. -/
  | start (s : KeyBatchCreateJobService) (rawKeys : List Str) (alias_ : Str) (totalQuota : Int)
      (newID : Str) (now : Int) :
      JobStep s (s.Start rawKeys alias_ totalQuota newID now).2
  /-- A loop iteration of the goroutine `w`, whose next item is `key`. -/
  | item (job : Option KeyBatchCreateJobStatus) (pre post : List runJobWorker)
      (w : runJobWorker) (key : Str) (rest : List Str) (err : Option Str) :
      w.keys = key :: rest →
      JobStep { job := job, workers := pre ++ w :: post }
        { job := (runJobItem job w.jobID key err).1
          workers := pre ++
            (if (runJobItem job w.jobID key err).2 then [{ w with keys := rest }] else []) ++
            post }
  /-- The end of the goroutine `w`, whose loop is over. -/
  | finish (job : Option KeyBatchCreateJobStatus) (pre post : List runJobWorker)
      (w : runJobWorker) (endedAt : Int) :
      w.keys = [] →
      JobStep { job := job, workers := pre ++ w :: post }
        { job := runJobEnd job w.jobID endedAt, workers := pre ++ post }

/-- The states of the job service reachable from a fresh service. -/
inductive JobReachable : KeyBatchCreateJobService → Prop where
  /-- The fresh service. -/
  | init : JobReachable NewKeyBatchCreateJobService
  /-- One more transition. -/
  | step (s t : KeyBatchCreateJobService) : JobReachable s → JobStep s t → JobReachable t

/-- The invariant linking the bucket of identity `id` to the calls `H` made so
far, none of them later than `T`: a bucket for a window that a later call can
fall in holds the number of calls of `id` in that window, capped at `L`; when
there is no such bucket, no call of `id` fell in that window; and no bucket is
ahead of the window of `T`. -/
structure LimiterInv (w L : Int) (id : Nat) (H : List AllowCall) (T : Int)
    (l : DistributedRateLimiter) : Prop where
  window_eq : l.window = w
  counted : ∀ t, T ≤ t → ∀ b, l.buckets id = some b → b.windowStart = Truncate t w →
    b.count = min L (countInWindow w id (Truncate t w) H)
  absent : ∀ t, T ≤ t → (∀ b, l.buckets id = some b → b.windowStart ≠ Truncate t w) →
    countInWindow w id (Truncate t w) H = 0
  not_ahead : ∀ b, l.buckets id = some b → b.windowStart ≤ Truncate T w

/-- The single-flight invariant. -/
structure JobInv (s : KeyBatchCreateJobService) : Prop where
  at_most_one : s.workers.length ≤ 1
  current : ∀ w ∈ s.workers, ∃ j, s.job = some j ∧ j.ID = w.jobID
  running_iff : (∃ j, s.job = some j ∧ j.Status = ascii "running") ↔ s.workers ≠ []

/-- Equality of results is decidable. -/
instance instDecidableEqExcept {ε α : Type} [DecidableEq ε] [DecidableEq α] :
    DecidableEq (Except ε α) := fun a b =>
  match a, b with
  | .ok x, .ok y => if h : x = y then isTrue (by rw [h]) else isFalse (fun e => h (Except.ok.inj e))
  | .error x, .error y =>
    if h : x = y then isTrue (by rw [h]) else isFalse (fun e => h (Except.error.inj e))
  | .ok _, .error _ => isFalse (fun e => by cases e)
  | .error _, .ok _ => isFalse (fun e => by cases e)

/-! ## Sample values

Concrete inputs at which the theorems below are instantiated. The digest is
the identity (which has no collisions) and the AEAD is `sampleAEAD`. -/

/-- A service over the sample AEAD, with default rate limit 60. -/
def demoService : DistributedKeyService := NewDistributedKeyService id id ⟨sampleAEAD⟩ 60

/-- An environment whose reads succeed: iteration `i` reads 24 bytes `i`, the
nonce of 12 bytes `i + 1`, and the store's clock shows 1000. -/
def demoEnv : Nat → Attempt := fun i =>
  { raw := some (List.replicate 24 (byte i))
    nonce := some (List.replicate 12 (byte (i + 1)))
    fault := none
    now := 1000 }

/-- An empty table. -/
def demoDB : DB := { rows := [], nextID := 1 }

/-- The secret generated from the 24 bytes read in iteration 0. -/
def demoSecret : Str := distributedKeyPrefixDefault ++ EncodeToString (List.replicate 24 0)

/-- The row `Create` stores for `demoEnv`, given its expiry and active flag. -/
def demoRow (expiresAt : Option Int) (isActive : Bool) : DistributedKey :=
  { ID := 1
    Name := ascii "client-a"
    Note := []
    TokenHash := demoSecret
    Ciphertext := EncodeToString
      (List.replicate 12 1 ++ sampleAEAD.Seal (List.replicate 12 1) demoSecret)
    KeyPrefix := tokenPrefix demoSecret
    IsActive := isActive
    ExpiresAt := expiresAt
    RateLimitPerMinute := 60
    LastUsedAt := none
    CreatedAt := 1000
    UpdatedAt := 1000 }

/-- A row whose stored ciphertext is not base64. -/
def corruptRow : DistributedKey :=
  { demoRow none true with Ciphertext := ascii "!!!!" }

/-- A 12-byte nonce for the examples of the ideal AEAD. -/
def idealNonce : Str := List.replicate 12 7

/-- The plaintext of the examples of the ideal AEAD. -/
def idealPlain : Str := ascii "secret"

/-- A cipher over the AEAD that opens only (`idealNonce`, sealed
`idealPlain`). -/
def idealCipher : TokenCipher := ⟨idealAEAD idealNonce idealPlain⟩

/-- The ciphertext token of `idealPlain` under `idealNonce`: 46 characters for
34 bytes, so its last character carries four unused bits. -/
def idealToken : Str := ascii "BwcHBwcHBwcHBwcHc2VjcmV0AAAAAAAAAAAAAAAAAAAAAA"

/-- A job service with a job running and its goroutine live. -/
def runningService : KeyBatchCreateJobService :=
  (NewKeyBatchCreateJobService.Start [ascii "tvly-test-1", ascii "tvly-test-2"] [] 1000
    (ascii "job-1") 99).2

/-- The list with only the first occurrence of each value kept, in the
original relative order. -/
def keepFirstOccurrences : List Str → List Str
  | [] => []
  | k :: rest => k :: (keepFirstOccurrences rest).filter (fun x => decide (x ≠ k))

/-- Normalisation in the words of the specification: trim white space from
each entry, drop the entries that are empty after trimming, and keep only the
first occurrence of each remaining value. -/
def normalizeBatchKeysSpec (rawKeys : List Str) : List Str :=
  keepFirstOccurrences ((rawKeys.map TrimSpace).filter (fun k => decide (k ≠ [])))

/-! ## `runJob`, run to its end -/

/-- One invocation `s.keys.Create(ctx, key, alias, totalQuota)` of the pool-key
collaborator. -/
structure PoolCreateCall where
  /-- Argument `key`. -/
  key : Str
  /-- Argument `alias`. -/
  alias_ : Str
  /-- Argument `totalQuota`. -/
  totalQuota : Int
  deriving DecidableEq, Repr

/-- The loop of `runJob` over the items `keys`, its iterations taken one after
the other. `create n call` is the outcome of the collaborator's invocation
number `n` (counted from 0): the message of its error, or `none` for success.
The result is the job record after the loop, the invocations made, in order,
and whether the loop ran to its end (it returns early when the record is no
longer the goroutine's own). -/
def runJobLoop (create : Nat → PoolCreateCall → Option Str) (jobID alias_ : Str)
    (totalQuota : Int) :
    List Str → Nat → Option KeyBatchCreateJobStatus →
      Option KeyBatchCreateJobStatus × List PoolCreateCall × Bool
  | [], _, job => (job, [], true)
  | key :: rest, n, job =>
    let call : PoolCreateCall := { key := key, alias_ := alias_, totalQuota := totalQuota }
    let r := runJobItem job jobID key (create n call)
    if r.2 then
      let out := runJobLoop create jobID alias_ totalQuota rest (n + 1) r.1
      (out.1, call :: out.2.1, out.2.2)
    else (r.1, [call], false)

/-- Method `runJob`, executed by the goroutine `w` from the job record `job`:
the job record when the goroutine returns and the invocations it made.
`endedAt` is the value of `time.Now()` after the loop. -/
def runJob (create : Nat → PoolCreateCall → Option Str) (w : runJobWorker)
    (job : Option KeyBatchCreateJobStatus) (endedAt : Int) :
    Option KeyBatchCreateJobStatus × List PoolCreateCall :=
  let out := runJobLoop create w.jobID w.alias_ w.totalQuota w.keys 0 job
  if out.2.2 then (runJobEnd out.1 w.jobID endedAt, out.2.1) else (out.1, out.2.1)

/-- The items paired with the outcome of their invocation, the first item
being invocation number `n`. -/
def poolOutcomes (create : Nat → PoolCreateCall → Option Str) (alias_ : Str) (totalQuota : Int) :
    List Str → Nat → List (Str × Option Str)
  | [], _ => []
  | key :: rest, n =>
    (key, create n { key := key, alias_ := alias_, totalQuota := totalQuota }) ::
      poolOutcomes create alias_ totalQuota rest (n + 1)

/-- The failures among outcomes: each failing item with its error text. -/
def failuresOf (outcomes : List (Str × Option Str)) : List KeyBatchCreateFailure :=
  outcomes.filterMap (fun o => o.2.map (fun msg => { Key := o.1, Error := msg }))

/-- A collaborator that rejects the item `tvly-exists` and accepts the rest. -/
def demoCreate : Nat → PoolCreateCall → Option Str := fun _ call =>
  if call.key = ascii "tvly-exists" then some (ascii "key already exists") else none

/-! ## models.DistributedKeyUsageDaily and distributed_key_usage_service.go -/

/-- The nanoseconds of a day. -/
def nanosPerDay : Int := 86400000000000

/-- The UTC calendar date of the instant `t`, the value that
`t.UTC().Format("2006-01-02")` writes, held as the number of the day counted
from the day of the zero instant (flooring division). The ten-character texts
of two dates of the years 0001 to 9999 compare, as SQL compares them, the way
their day numbers do. -/
def utcDate (t : Int) : Int := t / nanosPerDay

/-- A row of the table of `models.DistributedKeyUsageDaily`; the pair
(`DistributedKeyID`, `Date`) carries a unique index. The counters are exact:
they stay below 2^63 in every run of fewer than 2^63 calls. -/
structure DistributedKeyUsageDaily where
  /-- Column `id`. -/
  ID : Nat
  /-- Column `distributed_key_id`. -/
  DistributedKeyID : Nat
  /-- Column `date`. -/
  Date : Int
  /-- Column `total_count`. -/
  TotalCount : Int
  /-- Column `status_2xx`. -/
  Status2xx : Int
  /-- Column `status_4xx`. -/
  Status4xx : Int
  /-- Column `status_5xx`. -/
  Status5xx : Int
  /-- Column `updated_at`. -/
  UpdatedAt : Int
  deriving DecidableEq, Repr

/-- The table of usage rows and the next automatic id. -/
structure UsageDB where
  /-- The rows, in insertion order. -/
  rows : List DistributedKeyUsageDaily
  /-- The id given to the next inserted row. -/
  nextID : Nat
  deriving DecidableEq, Repr

/-- The table with no row. -/
def UsageDB.empty : UsageDB := { rows := [], nextID := 1 }

/-- The conflict target of the upsert: same `distributed_key_id` and `date`. -/
def sameUsageKey (a b : DistributedKeyUsageDaily) : Bool :=
  decide (a.DistributedKeyID = b.DistributedKeyID ∧ a.Date = b.Date)

/-- The statement `INSERT ... ON CONFLICT (distributed_key_id, date) DO UPDATE`
of `Record`: a row in conflict gets the counters of the proposed row added and
`updated_at = when`; with no conflict the proposed row is inserted under a new
id, stamped by the store with `now`. -/
def UsageDB.Upsert (db : UsageDB) (row : DistributedKeyUsageDaily) (when_ now : Int) : UsageDB :=
  if db.rows.any (fun r => sameUsageKey r row) then
    { db with
      rows := db.rows.map (fun r =>
        if sameUsageKey r row then
          { r with
            TotalCount := r.TotalCount + row.TotalCount
            Status2xx := r.Status2xx + row.Status2xx
            Status4xx := r.Status4xx + row.Status4xx
            Status5xx := r.Status5xx + row.Status5xx
            UpdatedAt := when_ }
        else r) }
  else
    { rows := db.rows ++ [{ row with ID := db.nextID, UpdatedAt := now }]
      nextID := db.nextID + 1 }

/-- The row that `Record` proposes: total 1 and the `switch` over the status
code, whose cases are tried in order. -/
def recordRow (distributedKeyID : Nat) (statusCode : Int) (when_ : Int) : DistributedKeyUsageDaily :=
  let row : DistributedKeyUsageDaily :=
    { ID := 0, DistributedKeyID := distributedKeyID, Date := utcDate when_, TotalCount := 1,
      Status2xx := 0, Status4xx := 0, Status5xx := 0, UpdatedAt := 0 }
  if statusCode ≥ 200 ∧ statusCode < 300 then { row with Status2xx := 1 }
  else if statusCode ≥ 400 ∧ statusCode < 500 then { row with Status4xx := 1 }
  else if statusCode ≥ 500 then { row with Status5xx := 1 }
  else row

/-- Method `Record`: the error it returns and the table after it. `fault` is
the error of the store, if it refuses the statement; `now` is the clock of the
store at an insertion. -/
def Record (db : UsageDB) (distributedKeyID : Nat) (statusCode : Int) (when_ now : Int)
    (fault : Option Str) : Option Str × UsageDB :=
  if distributedKeyID = 0 then (none, db)
  else
    match fault with
    | some e => (some e, db)
    | none => (none, db.Upsert (recordRow distributedKeyID statusCode when_) when_ now)

/-- One call of `Record` with its environment. -/
structure RecordCall where
  /-- Argument `distributedKeyID`. -/
  distributedKeyID : Nat
  /-- Argument `statusCode`. -/
  statusCode : Int
  /-- Argument `when`. -/
  when_ : Int
  /-- The clock of the store. -/
  now : Int
  /-- The error of the store, if any. -/
  fault : Option Str
  deriving DecidableEq, Repr

/-- The table after a sequence of `Record` calls. -/
def runRecord (db : UsageDB) (calls : List RecordCall) : UsageDB :=
  calls.foldl
    (fun db c => (Record db c.distributedKeyID c.statusCode c.when_ c.now c.fault).2) db

/-- The row of identity `id` and date `d`, if the table has one. -/
def usageRow (db : UsageDB) (id : Nat) (d : Int) : Option DistributedKeyUsageDaily :=
  db.rows.find? (fun r => decide (r.DistributedKeyID = id ∧ r.Date = d))

/-- The number of the calls of identity `id` on date `d` that the store
accepted and whose status code satisfies `p`. -/
def callsOn (calls : List RecordCall) (id : Nat) (d : Int) (p : Int → Bool) : Nat :=
  (calls.filter (fun c =>
    decide (c.fault = none ∧ c.distributedKeyID = id ∧ utcDate c.when_ = d) && p c.statusCode)).length

/-- What the row of a key holds after a sequence of calls from the empty
table. -/
def UsageCounted (calls : List RecordCall) (id : Nat) (d : Int)
    (o : Option DistributedKeyUsageDaily) : Prop :=
  match o with
  | some r =>
    0 < callsOn calls id d (fun _ => true) ∧
    r.TotalCount = callsOn calls id d (fun _ => true) ∧
    r.Status2xx = callsOn calls id d (fun sc => decide (200 ≤ sc ∧ sc < 300)) ∧
    r.Status4xx = callsOn calls id d (fun sc => decide (400 ≤ sc ∧ sc < 500)) ∧
    r.Status5xx = callsOn calls id d (fun sc => decide (500 ≤ sc)) ∧
    r.Status2xx + r.Status4xx + r.Status5xx ≤ r.TotalCount
  | none => callsOn calls id d (fun _ => true) = 0

/-- A point of the series returned by `Series`. -/
structure DistributedKeyUsagePoint where
  /-- Column `date`. -/
  Date : Int
  /-- Column `total_count`. -/
  TotalCount : Int
  /-- Column `status_2xx`. -/
  Status2xx : Int
  /-- Column `status_4xx`. -/
  Status4xx : Int
  /-- Column `status_5xx`. -/
  Status5xx : Int
  deriving DecidableEq, Repr

/-- The columns that `Series` selects from a row. -/
def usagePoint (r : DistributedKeyUsageDaily) : DistributedKeyUsagePoint :=
  { Date := r.Date, TotalCount := r.TotalCount, Status2xx := r.Status2xx,
    Status4xx := r.Status4xx, Status5xx := r.Status5xx }

/-- The day number of 9999-12-31, the day 0 being 0001-01-01: the years 0001 to
9999 have 9999 * 365 + 2424 = 3652059 days. -/
def lastFourDigitDay : Int := 3652058

/-- Whether the day `d` lies in the years 0001 to 9999. For these days, and for
no later one, `Format("2006-01-02")` writes ten characters, four of them for the
year, and the texts of two such days compare byte by byte, as SQL compares
them, the way the day numbers do. -/
def fourDigitYear (d : Int) : Bool := decide (0 ≤ d ∧ d ≤ lastFourDigitDay)

/-- The condition `distributed_key_id = ? AND date >= ?` of `Series`, for a
start date and a stored date of the years 0001 to 9999, where the comparison of
the two texts is the comparison of the day numbers. -/
def seriesWhere (distributedKeyID : Nat) (start : Int) (r : DistributedKeyUsageDaily) : Bool :=
  decide (r.DistributedKeyID = distributedKeyID ∧ r.Date ≥ start)

/-- The runs of `Series` that the model covers: today, the start date
today - (days - 1) and the date of every stored row of the identity lie in the
years 0001 to 9999. This bounds `days` by 3652059, far from the values at which
the date arithmetic of the library wraps around, and keeps every date text at
ten characters. -/
def seriesCovered (db : UsageDB) (distributedKeyID : Nat) (days : Int) (now : Int) : Bool :=
  fourDigitYear (utcDate now + (-days + 1)) && fourDigitYear (utcDate now) &&
    db.rows.all (fun r => decide (r.DistributedKeyID ≠ distributedKeyID) || fourDigitYear r.Date)

/-- Method `Series` at the instant `now` of the clock: the rows that satisfy the
condition, ordered by date ascending (rows of one date keep their stored
order). `fault` is the error of the store, if the query fails. In the runs that
`seriesCovered` admits, `AddDate(0, 0, -days+1)` moves the calendar date by
whole days, and the comparison and the order of the date texts are those of the
day numbers. Of any other run the model says nothing, `none`: for a huge `days`
the date arithmetic of the library wraps around, and the text of a date after
the year 9999 has a longer year and compares differently. -/
def Series (db : UsageDB) (distributedKeyID : Nat) (days : Int) (now : Int)
    (fault : Option Str) : Option (Except Str (List DistributedKeyUsagePoint)) :=
  let days := if days ≤ 0 then 30 else days
  let start := utcDate now + (-days + 1)
  if seriesCovered db distributedKeyID days now then
    match fault with
    | some e => some (.error e)
    | none =>
      some (.ok (((db.rows.filter (seriesWhere distributedKeyID start)).insertionSort
        (fun a b => a.Date ≤ b.Date)).map usagePoint))
  else none

/-- The unique index on (`distributed_key_id`, `date`). -/
def UsageDB.Unique (db : UsageDB) : Prop :=
  (db.rows.map (fun r => (r.DistributedKeyID, r.Date))).Nodup

/-- A day of traffic of identity 7 and a call without identity. -/
def demoCalls : List RecordCall :=
  [ { distributedKeyID := 7, statusCode := 200, when_ := 5, now := 5, fault := none },
    { distributedKeyID := 7, statusCode := 404, when_ := 6, now := 6, fault := none },
    { distributedKeyID := 0, statusCode := 200, when_ := 7, now := 7, fault := none },
    { distributedKeyID := 7, statusCode := 503, when_ := 8, now := 8, fault := none },
    { distributedKeyID := 7, statusCode := 302, when_ := 9, now := 9, fault := none } ]

/-- Two calls of identity 7 on day 0 with the status codes 600 and 999. -/
def beyond5xxCalls : List RecordCall :=
  [ { distributedKeyID := 7, statusCode := 600, when_ := 1, now := 1, fault := none },
    { distributedKeyID := 7, statusCode := 999, when_ := 2, now := 2, fault := none } ]

/-- A table that holds a row of identity 7 dated one day after day 10. -/
def futureDB : UsageDB :=
  { rows :=
      [ { ID := 1, DistributedKeyID := 7, Date := 11, TotalCount := 1, Status2xx := 1,
          Status4xx := 0, Status5xx := 0, UpdatedAt := 0 },
        { ID := 2, DistributedKeyID := 7, Date := 10, TotalCount := 2, Status2xx := 2,
          Status4xx := 0, Status5xx := 0, UpdatedAt := 0 } ]
    nextID := 3 }

/-! ## models.Setting and master_key.go -/

/-- A row of the table of `models.Setting`; `Key` is the primary key. -/
structure Setting where
  /-- Column `key`. -/
  Key : Str
  /-- Column `value`. -/
  Value : Str
  /-- Column `updated_at`. -/
  UpdatedAt : Int
  deriving DecidableEq, Repr

/-- The table of settings. -/
structure SettingsDB where
  /-- The rows, in insertion order. -/
  rows : List Setting
  deriving DecidableEq, Repr

/-- Constant `masterKeySettingKey`. -/
def masterKeySettingKey : Str := ascii "master_key"

/-- The message with which the store rejects a second row of one primary
key. -/
def settingsKeyConflict : Str := ascii "UNIQUE constraint failed: settings.key"

/-- Call `db.First(&setting, "key = ?", key)`: the row of the key, or `none`
for `gorm.ErrRecordNotFound`. -/
def SettingsDB.First (db : SettingsDB) (key : Str) : Option Setting :=
  db.rows.find? (fun r => decide (r.Key = key))

/-- Call `db.Create(&setting)`: stamps `updated_at` and appends the row, unless
the primary key is taken. `fault` is a failure of the store unrelated to the
data, when one occurs. -/
def SettingsDB.Create (db : SettingsDB) (setting : Setting) (now : Int) (fault : Option Str) :
    Except Str (Setting × SettingsDB) :=
  match fault with
  | some e => .error e
  | none =>
    if db.rows.any (fun r => decide (r.Key = setting.Key)) then .error settingsKeyConflict
    else
      let stored := { setting with UpdatedAt := now }
      .ok (stored, { rows := db.rows ++ [stored] })

/-- Function `generateSecret`. `buf` is the content of the buffer of `bytes`
bytes after `rand.Read`, or `none` when the read failed. -/
def generateSecret (bytes : Int) (buf : Option Str) : Except Err Str :=
  if bytes ≤ 0 then .error .invalidSecretLength
  else
    match buf with
    | none => .error .randRead
    | some buf => .ok (EncodeToString buf)

/-- Type `MasterKeyService`: the cached key. -/
structure MasterKeyService where
  /-- Field `key`. -/
  key : Str
  deriving DecidableEq, Repr

/-- Function `NewMasterKeyService`: no key is cached yet. -/
def NewMasterKeyService : MasterKeyService := { key := [] }

/-- What the environment supplies to `LoadOrCreateWithDefault`. -/
structure MasterKeyEnv where
  /-- An error of the look-up other than `gorm.ErrRecordNotFound`, when one
  occurs. -/
  readFault : Option Str
  /-- The 32 bytes read by `rand.Read`, or `none` when the read failed. -/
  buf : Option Str
  /-- A failure of the store at the write, when one occurs. -/
  writeFault : Option Str
  /-- The store's clock at the write. -/
  now : Int

/-- Method `MasterKeyService.LoadOrCreateWithDefault`: the error returned, the
service and the table afterwards. -/
def MasterKeyService.LoadOrCreateWithDefault (s : MasterKeyService) (db : SettingsDB)
    (preferred : Str) (env : MasterKeyEnv) : Option Err × MasterKeyService × SettingsDB :=
  match env.readFault with
  | some e => (some (.store e), s, db)
  | none =>
    let preferred := TrimSpace preferred
    match db.First masterKeySettingKey with
    | none =>
      let generated : Except Err Str :=
        if preferred = [] then generateSecret 32 env.buf else .ok preferred
      match generated with
      | .error e => (some e, s, db)
      | .ok masterKey =>
        match db.Create { Key := masterKeySettingKey, Value := masterKey, UpdatedAt := 0 }
            env.now env.writeFault with
        | .error e => (some (.store e), s, db)
        | .ok (setting, db') => (none, { s with key := setting.Value }, db')
    | some setting => (none, { s with key := setting.Value }, db)

/-- Method `MasterKeyService.LoadOrCreate`. -/
def MasterKeyService.LoadOrCreate (s : MasterKeyService) (db : SettingsDB) (env : MasterKeyEnv) :
    Option Err × MasterKeyService × SettingsDB :=
  s.LoadOrCreateWithDefault db [] env

/-- Method `MasterKeyService.Get`. -/
def MasterKeyService.Get (s : MasterKeyService) : Str := s.key

/-- Method `MasterKeyService.Authenticate`. -/
def MasterKeyService.Authenticate (s : MasterKeyService) (token : Str) : Bool :=
  let current := s.Get
  if current = [] ∨ token = [] then false
  else decide (ConstantTimeCompare current token = 1)

/-- An environment without faults whose random bytes are 0, 1, .., 31. -/
def demoMasterEnv : MasterKeyEnv :=
  { readFault := none, buf := some ((List.range 32).map byte), writeFault := none, now := 50 }

/-! ## `Update` and `Rotate` of distributed_key_service.go -/

/-- Call `db.First(&key, id)`: the row with that primary key; `none` is
`gorm.ErrRecordNotFound`. -/
def DB.FirstByID (db : DB) (id : Nat) : Option DistributedKey :=
  db.rows.find? (fun r => decide (r.ID = id))

/-- Call `db.Save(key)` for a record read from the table: writes every column
of the row with the record's primary key, with `updated_at` set to the store's
clock, in the table and in the record, unless another row holds the same
`token_hash`. When no row has the primary key the statement updates nothing and
`Save` turns into an insertion of the record. `fault` is a failure of the
store unrelated to the data (its message), when one occurs. -/
def DB.Save (db : DB) (key : DistributedKey) (now : Int) (fault : Option Str) :
    Except Str (DistributedKey × DB) :=
  match fault with
  | some msg => .error msg
  | none =>
    if db.rows.any (fun r => decide (r.ID ≠ key.ID ∧ r.TokenHash = key.TokenHash)) then
      .error uniqueConstraintFailed
    else
      let stored := { key with UpdatedAt := now }
      if db.rows.any (fun r => decide (r.ID = key.ID)) then
        .ok (stored, { db with rows := db.rows.map (fun r => if r.ID = key.ID then stored else r) })
      else
        let inserted :=
          { columnDefaults stored with
            ID := if key.ID = 0 then db.nextID else key.ID
            CreatedAt := if key.CreatedAt = 0 then now else key.CreatedAt }
        .ok (inserted, { rows := db.rows ++ [inserted], nextID := max db.nextID (inserted.ID + 1) })

/-- Type `DistributedKeyUpdateInput`; a nil pointer is `none`. -/
structure DistributedKeyUpdateInput where
  /-- Field `Name`. -/
  Name : Option Str
  /-- Field `Note`. -/
  Note : Option Str
  /-- Field `IsActive`. -/
  IsActive : Option Bool
  /-- Field `ExpiresAt`. -/
  ExpiresAt : Option Int
  /-- Field `ClearExpiresAt`. -/
  ClearExpiresAt : Bool
  /-- Field `RateLimitPerMinute`. -/
  RateLimitPerMinute : Option Int

/-- Method `DistributedKeyService.FindByID`. `readFault` is an error of the
look-up other than `gorm.ErrRecordNotFound`, when one occurs. -/
def DistributedKeyService.FindByID (_s : DistributedKeyService) (db : DB) (id : Nat)
    (readFault : Option Str) : Except Err (Option DistributedKey) :=
  match readFault with
  | some msg => .error (.store msg)
  | none => .ok (db.FirstByID id)

/-- The assignments that `Update` makes to the record it has read, in the order
of the source; a negative rate limit returns before anything is saved. -/
def updateFields (key : DistributedKey) (input : DistributedKeyUpdateInput) :
    Except Err DistributedKey :=
  let key :=
    match input.Name with
    | some n =>
      { key with Name := if TrimSpace n = [] then distributedKeyNameDefault else TrimSpace n }
    | none => key
  let key :=
    match input.Note with
    | some n => { key with Note := TrimSpace n }
    | none => key
  let key :=
    match input.IsActive with
    | some a => { key with IsActive := a }
    | none => key
  let key :=
    if input.ClearExpiresAt then { key with ExpiresAt := none }
    else
      match input.ExpiresAt with
      | some e => { key with ExpiresAt := some e }
      | none => key
  match input.RateLimitPerMinute with
  | some v => if v < 0 then .error .ErrInvalidRateLimit else .ok { key with RateLimitPerMinute := v }
  | none => .ok key

/-- Method `DistributedKeyService.Update`: the result and the store
afterwards. `readFault` and `writeFault` are failures of the store, `now` is
its clock at the write. -/
def DistributedKeyService.Update (s : DistributedKeyService) (db : DB) (id : Nat)
    (input : DistributedKeyUpdateInput) (readFault writeFault : Option Str) (now : Int) :
    Except Err DistributedKey × DB :=
  match s.FindByID db id readFault with
  | .error e => (.error e, db)
  | .ok none => (.error .ErrDistributedKeyNotFound, db)
  | .ok (some key) =>
    match updateFields key input with
    | .error e => (.error e, db)
    | .ok key =>
      match db.Save key now writeFault with
      | .error msg => (.error (.store msg), db)
      | .ok (stored, db') => (.ok stored, db')

/-- The loop `for i := 0; i < 3; i++` of `Rotate` on the record `key`, with
`fuel = 3 - i` iterations left. -/
def rotateLoop (s : DistributedKeyService) (env : Nat → Attempt) :
    Nat → Nat → DistributedKey → DB → Except Err (DistributedKey × Str) × DB
  | 0, _, _, db => (.error .failedToRotateKey, db)
  | fuel + 1, i, key, db =>
    match generateDistributedKeyToken (env i).raw with
    | .error e => (.error e, db)
    | .ok token =>
      match s.cipher.Encrypt (env i).nonce token with
      | .error e => (.error e, db)
      | .ok ciphertext =>
        let key : DistributedKey :=
          { key with
            TokenHash := hashToken s.sha256Hex token
            Ciphertext := ciphertext
            KeyPrefix := tokenPrefix token
            IsActive := true
            LastUsedAt := none }
        match db.Save key (env i).now (env i).fault with
        | .error msg =>
          if isUniqueConstraintError s.mapToLower msg then rotateLoop s env fuel (i + 1) key db
          else (.error (.store msg), db)
        | .ok (stored, db') => (.ok (stored, token), db')

/-- Method `DistributedKeyService.Rotate`: the result and the store
afterwards. -/
def DistributedKeyService.Rotate (s : DistributedKeyService) (db : DB) (id : Nat)
    (readFault : Option Str) (env : Nat → Attempt) : Except Err (DistributedKey × Str) × DB :=
  match s.FindByID db id readFault with
  | .error e => (.error e, db)
  | .ok none => (.error .ErrDistributedKeyNotFound, db)
  | .ok (some key) => rotateLoop s env 3 0 key db

/-- A table that holds the row of `demoRow` with an expiry, and a second
row. -/
def demoTable : DB :=
  { rows :=
      [ demoRow (some 5000) true,
        { demoRow none false with ID := 2, TokenHash := ascii "other", Name := ascii "client-b" } ]
    nextID := 3 }

/-- An update that disables the key, renames it to blanks and asks both to
clear and to set the expiry. -/
def demoUpdate : DistributedKeyUpdateInput :=
  { Name := some (ascii "  "), Note := some (ascii " moved "), IsActive := some false,
    ExpiresAt := some 9000, ClearExpiresAt := true, RateLimitPerMinute := some 0 }

/-! ## The limiter with garbage collection removed -/

/-- Method `Allow` with the call `l.gcLocked(now.UTC())` removed, every other
line as in the source. -/
def DistributedRateLimiter.AllowWithoutGC (l : DistributedRateLimiter) (keyID : Nat)
    (limit : Int) (now : Int) : Bool × DistributedRateLimiter :=
  if keyID = 0 ∨ limit = 0 then (true, l)
  else if limit < 0 then (false, l)
  else
    let windowStart := Truncate now l.window
    match l.buckets keyID with
    | none => (true, l.setBucket keyID { windowStart := windowStart, count := 1 })
    | some current =>
      if ¬ (current.windowStart = windowStart) then
        (true, l.setBucket keyID { windowStart := windowStart, count := 1 })
      else if current.count ≥ limit then (false, l)
      else (true, l.setBucket keyID { current with count := current.count + 1 })

/-- The decisions of a sequence of calls on the limiter without garbage
collection, and the limiter at the end. -/
def runAllowWithoutGC (l : DistributedRateLimiter) :
    List AllowCall → List Bool × DistributedRateLimiter
  | [] => ([], l)
  | c :: rest =>
    let r := l.AllowWithoutGC c.keyID c.limit c.now
    let rs := runAllowWithoutGC r.2 rest
    (r.1 :: rs.1, rs.2)

/-- The relation between the limiter `g` and the limiter `n` that ran the same
calls without garbage collection, none of them later than `T`: a bucket is the
same in both, or it is missing in `g` and older than two windows in `n`. -/
structure GcSim (w T : Int) (g n : DistributedRateLimiter) : Prop where
  window_g : g.window = w
  window_n : n.window = w
  rel : ∀ k, g.buckets k = n.buckets k ∨
    (g.buckets k = none ∧ ∃ b, n.buckets k = some b ∧ b.windowStart < T - 2 * w)

/-- How many calls of a trace were allowed and fall in the aligned window
starting at `windowStart`; `decisions` are the values returned, call by
call. -/
def allowedInWindow (window : Int) (windowStart : Int) (calls : List AllowCall)
    (decisions : List Bool) : Nat :=
  ((calls.zip decisions).filter
    (fun p => p.2 && decide (Truncate p.1.now window = windowStart))).length

/-! ## The counters of the job record -/

/-- The invariant of the counters: the record is consistent, a live goroutine
has as many items left as the record has not completed, and with no goroutine
live every item is completed. -/
structure JobCounts (s : KeyBatchCreateJobService) : Prop where
  record : ∀ j, s.job = some j →
    j.Completed = j.Succeeded + j.Failed ∧ j.Failed = j.Failures.length ∧ 0 ≤ j.Succeeded ∧
    1 ≤ j.Total ∧ j.Total ≤ 5000 ∧
    (j.Status = ascii "running" ∨ j.Status = ascii "completed") ∧
    j.StartedAt.isSome = true ∧ (j.EndedAt.isSome = true ↔ j.Status = ascii "completed")
  progress : ∀ j w, s.job = some j → w ∈ s.workers → j.Completed + w.keys.length = j.Total
  finished : ∀ j, s.job = some j → s.workers = [] → j.Completed = j.Total

/-! ## The retry policy of `Create` and `Rotate`, as the specification words it -/

/-- How one generate-encrypt-persist attempt ends. -/
inductive AttemptEnd where
  /-- The store accepted the write. -/
  | accepted
  /-- The store reported a uniqueness violation. -/
  | collision
  /-- Another error, of the random source, of the cipher or of the store. -/
  | failed (e : Err)
  deriving DecidableEq, Repr

/-- The end of the attempt that the environment `a` describes: an error
returned by the read of the random bytes or of the nonce is an error, a fault
of the store is a collision when `isUniqueConstraintError` recognises its
message as that of a uniqueness violation and an error otherwise, and with no
fault the write collides exactly when the digest of the generated secret is
`taken`. -/
def attemptEnd (s : DistributedKeyService) (taken : Str → Bool) (a : Attempt) : AttemptEnd :=
  match a.raw with
  | none => .failed .randRead
  | some raw =>
    match a.nonce with
    | none => .failed .randRead
    | some _ =>
      match a.fault with
      | some msg =>
        if isUniqueConstraintError s.mapToLower msg then .collision else .failed (.store msg)
      | none =>
        if taken (hashToken s.sha256Hex (distributedKeyPrefixDefault ++ EncodeToString raw)) then
          .collision
        else .accepted

/-- The digests that a new row would collide with. -/
def takenByAny (db : DB) (hash : Str) : Bool :=
  db.rows.any (fun r => decide (r.TokenHash = hash))

/-- The digests that the row of the primary key `id` would collide with when it
is saved. -/
def takenByOther (db : DB) (id : Nat) (hash : Str) : Bool :=
  db.rows.any (fun r => decide (r.ID ≠ id ∧ r.TokenHash = hash))

/-! ## `encoding/base64`, `StdEncoding` and `RawStdEncoding`, and `NewTokenCipher` -/

/-- The alphabet `encodeStd`, entry `v`:
`ABCDEFGHIJKLMNOPQRSTUVWXYZabcdefghijklmnopqrstuvwxyz0123456789+/`. -/
def encodeStdChar (v : Nat) : Byte :=
  byte (if v < 26 then 65 + v else if v < 52 then 71 + v else if v < 62 then v - 4
        else if v = 62 then 43 else 47)

/-- The decode map of the standard alphabet. -/
def decodeStdChar (b : Byte) : Option Nat :=
  if 65 ≤ b.val ∧ b.val ≤ 90 then some (b.val - 65)
  else if 97 ≤ b.val ∧ b.val ≤ 122 then some (b.val - 71)
  else if 48 ≤ b.val ∧ b.val ≤ 57 then some (b.val + 4)
  else if b.val = 43 then some 62
  else if b.val = 47 then some 63
  else none

/-- Method `base64.RawStdEncoding.EncodeToString`. -/
def RawStdEncodeToString (src : Str) : Str := (encodeGroups src).map encodeStdChar

/-- Method `base64.StdEncoding.EncodeToString`: the unpadded text followed by
`=` signs up to a multiple of four characters. -/
def StdEncodeToString (src : Str) : Str :=
  RawStdEncodeToString src ++ List.replicate ((3 - src.length % 3) % 3) (byte 61)

/-- Alphabet look-up of the unpadded standard decoder: carriage returns and
line feeds are skipped, any other byte outside the alphabet is corrupt
input. -/
def decodeCharsStd : Str → Option (List Nat)
  | [] => some []
  | b :: rest =>
    if b.val = 10 ∨ b.val = 13 then decodeCharsStd rest
    else
      match decodeStdChar b with
      | none => none
      | some v =>
        match decodeCharsStd rest with
        | none => none
        | some vs => some (v :: vs)

/-- Method `base64.RawStdEncoding.DecodeString`; `none` is
`CorruptInputError`. -/
def RawStdDecodeString (s : Str) : Option Str :=
  match decodeCharsStd s with
  | none => none
  | some vs => decodeGroups vs

/-- Alphabet look-up of the padded standard decoder, up to the first `=`: the
values read and, when a `=` was met, the input after it. -/
def decodeCharsPadded : Str → Option (List Nat × Option Str)
  | [] => some ([], none)
  | b :: rest =>
    if b.val = 10 ∨ b.val = 13 then decodeCharsPadded rest
    else if b.val = 61 then some ([], some rest)
    else
      match decodeStdChar b with
      | none => none
      | some v =>
        match decodeCharsPadded rest with
        | none => none
        | some r => some (v :: r.1, r.2)

/-- Method `base64.StdEncoding.DecodeString`; `none` is `CorruptInputError`.
The input must end on a full quantum; a final quantum of two values is followed
by `==` and one of three values by `=`, and after the padding only carriage
returns and line feeds may follow. -/
def StdDecodeString (s : Str) : Option Str :=
  match decodeCharsPadded s with
  | none => none
  | some (vs, none) => if vs.length % 4 = 0 then decodeGroups vs else none
  | some (vs, some tail) =>
    let tail := tail.filter (fun b => !(decide (b.val = 10 ∨ b.val = 13)))
    if vs.length % 4 = 2 then (if tail = [byte 61] then decodeGroups vs else none)
    else if vs.length % 4 = 3 then (if tail = [] then decodeGroups vs else none)
    else none

/-- The key that `NewTokenCipher` selects: the trimmed secret as it is when it
has 16, 24 or 32 bytes, and otherwise what the first successful decoding among
`StdEncoding`, `RawStdEncoding` and `RawURLEncoding` gives, the trimmed secret
again if none succeeds; then the check of the length. -/
def tokenCipherKey (secret : Str) : Except Err Str :=
  let secret := TrimSpace secret
  if secret = [] then .error .missingEncryptionKey
  else
    let key :=
      if secret.length ≠ 16 ∧ secret.length ≠ 24 ∧ secret.length ≠ 32 then
        match StdDecodeString secret with
        | some decoded => decoded
        | none =>
          match RawStdDecodeString secret with
          | some decoded => decoded
          | none =>
            match DecodeString secret with
            | some decoded => decoded
            | none => secret
      else secret
    if key.length = 16 ∨ key.length = 24 ∨ key.length = 32 then .ok key
    else .error (.invalidEncryptionKeyLength key.length)

/-- Function `NewTokenCipher`. `newGCM key` is the AEAD that
`cipher.NewGCM(aes.NewCipher(key))` builds, which succeeds for a key of 16, 24
or 32 bytes. -/
def NewTokenCipher (newGCM : Str → AEAD) (secret : Str) : Except Err TokenCipher :=
  match tokenCipherKey secret with
  | .error e => .error e
  | .ok key => .ok { aead := newGCM key }

/-! # Theorems -/

/-! ### `encoding/base64` and `strings.TrimSpace` -/


theorem decodeURLChar_encodeURLChar (v : Nat) (hv : v < 64) :
    decodeURLChar (encodeURLChar v) = some v := by
  have h : ∀ w : Fin 64, decodeURLChar (encodeURLChar w.val) = some w.val := by decide
  exact h ⟨v, hv⟩

theorem encodeURLChar_plain (v : Nat) : isPlain (encodeURLChar v) = true := by
  by_cases hv : v < 64
  · have h : ∀ w : Fin 64, isPlain (encodeURLChar w.val) = true := by decide
    exact h ⟨v, hv⟩
  · have : encodeURLChar v = byte 95 := by
      unfold encodeURLChar
      have h1 : ¬ v < 26 := by omega
      have h2 : ¬ v < 52 := by omega
      have h3 : ¬ v < 62 := by omega
      have h4 : ¬ v = 62 := by omega
      simp [h1, h2, h3, h4]
    rw [this]; decide

theorem encodeURLChar_not_newline (v : Nat) :
    ¬ ((encodeURLChar v).val = 10 ∨ (encodeURLChar v).val = 13) := by
  have h := encodeURLChar_plain v
  unfold isPlain isASCIISpace at h
  intro hc
  rcases hc with hc | hc <;> simp [hc] at h

theorem encodeGroups_lt (src : Str) : ∀ v ∈ encodeGroups src, v < 64 := by
  induction src using encodeGroups.induct with
  | case1 => simp [encodeGroups]
  | case2 x =>
    intro v hv
    simp only [encodeGroups, List.mem_cons, List.mem_singleton, List.not_mem_nil, or_false] at hv
    rcases hv with hv | hv <;> omega
  | case3 x y =>
    intro v hv
    simp only [encodeGroups, List.mem_cons, List.mem_singleton, List.not_mem_nil, or_false] at hv
    rcases hv with hv | hv | hv <;> omega
  | case4 x y z rest ih =>
    intro v hv
    simp only [encodeGroups, List.mem_cons] at hv
    rcases hv with hv | hv | hv | hv | hv
    · omega
    · omega
    · omega
    · omega
    · exact ih v hv

theorem decodeChars_map_encodeURLChar (vs : List Nat) (h : ∀ v ∈ vs, v < 64) :
    decodeChars (vs.map encodeURLChar) = some vs := by
  induction vs with
  | nil => rfl
  | cons v vs ih =>
    have hv : v < 64 := h v (List.mem_cons_self _ _)
    have ih2 := ih (fun w hw => h w (List.mem_cons_of_mem _ hw))
    simp only [List.map_cons, decodeChars, if_neg (encodeURLChar_not_newline v),
      decodeURLChar_encodeURLChar v hv, ih2]

theorem decodeGroups_encodeGroups (src : Str) : decodeGroups (encodeGroups src) = some src := by
  induction src using encodeGroups.induct with
  | case1 => rfl
  | case2 x =>
    simp only [encodeGroups, decodeGroups, byte]
    congr 2
    apply Fin.ext
    have := x.isLt
    simp only
    omega
  | case3 x y =>
    simp only [encodeGroups, decodeGroups, byte]
    have := x.isLt
    have := y.isLt
    congr 2
    · apply Fin.ext; simp only; omega
    · congr 1; apply Fin.ext; simp only; omega
  | case4 x y z rest ih =>
    simp only [encodeGroups, decodeGroups, ih, byte]
    have := x.isLt
    have := y.isLt
    have := z.isLt
    congr 2
    · apply Fin.ext; simp only; omega
    · congr 1
      · apply Fin.ext; simp only; omega
      · congr 1; apply Fin.ext; simp only; omega

theorem DecodeString_EncodeToString (src : Str) :
    DecodeString (EncodeToString src) = some src := by
  unfold DecodeString EncodeToString
  rw [decodeChars_map_encodeURLChar _ (encodeGroups_lt src)]
  exact decodeGroups_encodeGroups src

theorem isPlain_lt (b : Byte) (h : isPlain b = true) : b.val < 128 := by
  unfold isPlain at h
  simp only [Bool.and_eq_true, decide_eq_true_eq] at h
  exact h.1

theorem isPlain_not_space (b : Byte) (h : isPlain b = true) : isASCIISpace b = false := by
  unfold isPlain at h
  simp only [Bool.and_eq_true, Bool.not_eq_true'] at h
  exact h.2

theorem spaceRunes_high : ∀ L ∈ spaceRunes2 ++ spaceRunes3, ∀ x ∈ L, 128 ≤ x.val := by
  set_option maxRecDepth 100000 in decide

theorem leadingSpaceWidth_plain (b : Byte) (rest : Str) (hb : isPlain b = true) :
    leadingSpaceWidth (b :: rest) = 0 := by
  have hlt := isPlain_lt b hb
  have hsp := isPlain_not_space b hb
  have h2 : (b :: rest).take 2 ∉ spaceRunes2 := by
    intro hmem
    have := spaceRunes_high _ (List.mem_append_left _ hmem) b (by simp)
    omega
  have h3 : (b :: rest).take 3 ∉ spaceRunes3 := by
    intro hmem
    have := spaceRunes_high _ (List.mem_append_right _ hmem) b (by simp)
    omega
  unfold leadingSpaceWidth
  simp only [hsp, Bool.false_eq_true, if_false, decide_eq_true_eq, if_neg h2, if_neg h3]

theorem trailingSpaceWidth_plain (b : Byte) (rest : Str) (hb : isPlain b = true) :
    trailingSpaceWidth (b :: rest) = 0 := by
  have hlt := isPlain_lt b hb
  have hsp := isPlain_not_space b hb
  have h2 : ((b :: rest).take 2).reverse ∉ spaceRunes2 := by
    intro hmem
    have := spaceRunes_high _ (List.mem_append_left _ hmem) b (by simp)
    omega
  have h3 : ((b :: rest).take 3).reverse ∉ spaceRunes3 := by
    intro hmem
    have := spaceRunes_high _ (List.mem_append_right _ hmem) b (by simp)
    omega
  unfold trailingSpaceWidth
  simp only [hsp, Bool.false_eq_true, if_false, decide_eq_true_eq, if_neg h2, if_neg h3]

theorem trimLeftLoop_plain (fuel : Nat) (b : Byte) (rest : Str) (hb : isPlain b = true) :
    trimLeftLoop fuel (b :: rest) = b :: rest := by
  cases fuel with
  | zero => rfl
  | succ n => simp [trimLeftLoop, leadingSpaceWidth_plain b rest hb]

theorem trimRightLoop_plain (fuel : Nat) (b : Byte) (rest : Str) (hb : isPlain b = true) :
    trimRightLoop fuel (b :: rest) = b :: rest := by
  cases fuel with
  | zero => rfl
  | succ n => simp [trimRightLoop, trailingSpaceWidth_plain b rest hb]

/-- Function `TrimSpace` leaves a string alone whose first and last bytes are ASCII and
not white space. -/
theorem TrimSpace_plain (s : Str) (hhead : ∀ b ∈ s.head?, isPlain b = true)
    (hlast : ∀ b ∈ s.getLast?, isPlain b = true) : TrimSpace s = s := by
  cases s with
  | nil => rfl
  | cons b rest =>
    have hb : isPlain b = true := hhead b (by simp)
    unfold TrimSpace
    simp only [trimLeftLoop_plain _ b rest hb]
    obtain ⟨l, r, hr⟩ : ∃ l r, (b :: rest).reverse = l :: r := by
      cases h : (b :: rest).reverse with
      | nil => simp at h
      | cons l r => exact ⟨l, r, rfl⟩
    have hl : isPlain l = true := by
      apply hlast
      have : (b :: rest).getLast? = (b :: rest).reverse.head? := by
        rw [List.head?_reverse]
      rw [this, hr]; simp
    rw [hr, trimRightLoop_plain _ l r hl, ← hr, List.reverse_reverse]

theorem TrimSpace_EncodeToString (src : Str) : TrimSpace (EncodeToString src) = EncodeToString src := by
  apply TrimSpace_plain
  · intro b hb
    have hmem : b ∈ EncodeToString src := List.mem_of_mem_head? hb
    unfold EncodeToString at hmem
    obtain ⟨v, _, rfl⟩ := List.mem_map.mp hmem
    exact encodeURLChar_plain v
  · intro b hb
    have hmem : b ∈ EncodeToString src := List.mem_of_mem_getLast? hb
    unfold EncodeToString at hmem
    obtain ⟨v, _, rfl⟩ := List.mem_map.mp hmem
    exact encodeURLChar_plain v

theorem encodeGroups_ne_nil (src : Str) (h : src ≠ []) : encodeGroups src ≠ [] := by
  match src, h with
  | [x], _ => simp [encodeGroups]
  | [x, y], _ => simp [encodeGroups]
  | x :: y :: z :: rest, _ => simp [encodeGroups]

theorem EncodeToString_ne_nil (src : Str) (h : src ≠ []) : EncodeToString src ≠ [] := by
  unfold EncodeToString
  simpa using encodeGroups_ne_nil src h

/-- Round trip of the cipher, for any nonce of the AEAD's size. -/
theorem Decrypt_Encrypt_ok (c : TokenCipher) (hc : c.aead.Lawful) (nonce plaintext : Str)
    (hn : nonce.length = c.aead.NonceSize) (hp : plaintext ≠ []) :
    ∃ ct, c.Encrypt (some nonce) plaintext = .ok ct ∧ c.Decrypt ct = .ok plaintext := by
  refine ⟨EncodeToString (nonce ++ c.aead.Seal nonce plaintext), ?_, ?_⟩
  · simp [TokenCipher.Encrypt, hp]
  · have hlen : (c.aead.Seal nonce plaintext).length ≠ 0 := by
      rw [hc.seal_length]
      have : plaintext.length ≠ 0 := by simpa using hp
      omega
    have hne : nonce ++ c.aead.Seal nonce plaintext ≠ [] := by
      intro h
      have := congrArg List.length h
      simp only [List.length_append, List.length_nil] at this
      omega
    unfold TokenCipher.Decrypt
    simp only [TrimSpace_EncodeToString, DecodeString_EncodeToString,
      if_neg (EncodeToString_ne_nil _ hne)]
    have h1 : ¬ (nonce ++ c.aead.Seal nonce plaintext).length ≤ c.aead.NonceSize := by
      simp only [List.length_append]; omega
    rw [if_neg h1]
    have h2 : (nonce ++ c.aead.Seal nonce plaintext).take c.aead.NonceSize = nonce := by
      rw [← hn]; simp
    have h3 : (nonce ++ c.aead.Seal nonce plaintext).drop c.aead.NonceSize =
        c.aead.Seal nonce plaintext := by
      rw [← hn]; simp
    rw [h2, h3, hc.open_seal nonce plaintext hn]

theorem decodeURLChar_sound (b : Byte) (v : Nat) (h : decodeURLChar b = some v) :
    v < 64 ∧ encodeURLChar v = b := by
  have key : ∀ b : Byte, (decodeURLChar b).all
      (fun w => decide (w < 64) && decide (encodeURLChar w = b)) = true := by
    set_option maxRecDepth 100000 in decide
  have := key b
  rw [h] at this
  simpa using this

theorem canonGroups_length (vs : List Nat) : (canonGroups vs).length = vs.length := by
  induction vs using canonGroups.induct with
  | case1 => rfl
  | case2 a => rfl
  | case3 a b => rfl
  | case4 a b c => rfl
  | case5 a b c d rest ih => simp [canonGroups, ih]

theorem canonGroups_getElem? (vs : List Nat) :
    ∀ i, i + 1 < vs.length → (canonGroups vs)[i]? = vs[i]? := by
  induction vs using canonGroups.induct with
  | case1 => intro i h; simp at h
  | case2 a => intro i h; simp at h
  | case3 a b =>
    intro i h
    have : i = 0 := by simp at h; omega
    subst this; simp [canonGroups]
  | case4 a b c =>
    intro i h
    simp only [List.length_cons, List.length_nil] at h
    match i, h with
    | 0, _ => simp [canonGroups]
    | 1, _ => simp [canonGroups]
  | case5 a b c d rest ih =>
    intro i h
    simp only [List.length_cons] at h
    match i, h with
    | 0, _ => simp [canonGroups]
    | 1, _ => simp [canonGroups]
    | 2, _ => simp [canonGroups]
    | 3, _ => simp [canonGroups]
    | j + 4, h =>
      simp only [canonGroups, List.getElem?_cons_succ]
      exact ih j (by omega)

theorem canonGroups_of_mod (vs : List Nat) (h : vs.length % 4 = 0) : canonGroups vs = vs := by
  induction vs using canonGroups.induct with
  | case1 => rfl
  | case2 a => rfl
  | case3 a b => simp at h
  | case4 a b c => simp at h
  | case5 a b c d rest ih =>
    simp only [List.length_cons] at h
    simp only [canonGroups]
    rw [ih (by omega)]

theorem encodeGroups_length_mod (src : Str) :
    ((encodeGroups src).length % 4 = 0 ↔ src.length % 3 = 0) := by
  induction src using encodeGroups.induct with
  | case1 => simp [encodeGroups]
  | case2 x => simp [encodeGroups]
  | case3 x y => simp [encodeGroups]
  | case4 x y z rest ih =>
    simp only [encodeGroups, List.length_cons]
    omega

/-- Re-encoding what the lenient decoder returned gives the canonical form of
its input. -/
theorem encodeGroups_of_decodeGroups (vs : List Nat) :
    ∀ out, (∀ v ∈ vs, v < 64) → decodeGroups vs = some out → encodeGroups out = canonGroups vs := by
  induction vs using decodeGroups.induct with
  | case1 =>
    intro out _ h
    simp only [decodeGroups, Option.some.injEq] at h
    subst h; rfl
  | case2 a => intro out _ h; simp [decodeGroups] at h
  | case3 a b =>
    intro out hlt h
    have ha : a < 64 := hlt a (by simp)
    have hb : b < 64 := hlt b (by simp)
    simp only [decodeGroups, Option.some.injEq] at h
    subst h
    simp only [encodeGroups, canonGroups, byte]
    congr 1
    · omega
    · congr 1; omega
  | case4 a b c =>
    intro out hlt h
    have ha : a < 64 := hlt a (by simp)
    have hb : b < 64 := hlt b (by simp)
    have hc : c < 64 := hlt c (by simp)
    simp only [decodeGroups, Option.some.injEq] at h
    subst h
    simp only [encodeGroups, canonGroups, byte]
    congr 1
    · omega
    · congr 1
      · omega
      · congr 1; omega
  | case5 a b c d rest hrest ih =>
    intro out hlt h
    simp [decodeGroups, hrest] at h
  | case6 a b c d rest o hrest ih =>
    intro out hlt h
    have ha : a < 64 := hlt a (by simp)
    have hb : b < 64 := hlt b (by simp)
    have hc : c < 64 := hlt c (by simp)
    have hd : d < 64 := hlt d (by simp)
    simp only [decodeGroups] at h
    · simp only [hrest, Option.some.injEq] at h
      subst h
      have ih2 := ih o (fun v hv => hlt v (by simp [hv])) hrest
      simp only [encodeGroups, canonGroups, byte, ih2]
      congr 1
      · omega
      · congr 1
        · omega
        · congr 1
          · omega
          · congr 1; omega

theorem decodeChars_append (P : List Nat) (hP : ∀ v ∈ P, v < 64) (rest : Str) :
    decodeChars (P.map encodeURLChar ++ rest) = (decodeChars rest).map (P ++ ·) := by
  induction P with
  | nil => cases h : decodeChars rest <;> simp [h]
  | cons v P ih =>
    have hv : v < 64 := hP v (List.mem_cons_self _ _)
    have ih2 := ih (fun w hw => hP w (List.mem_cons_of_mem _ hw))
    simp only [List.map_cons, List.cons_append, decodeChars,
      if_neg (encodeURLChar_not_newline v), decodeURLChar_encodeURLChar v hv, List.append_eq]
    rw [ih2]
    cases h : decodeChars rest <;> simp

theorem flipBit_ne (b : Byte) (k : Nat) (hk : k < 8) : flipBit b k ≠ b := by
  have key : ∀ b : Byte, ∀ j : Fin 8, flipBit b j.val ≠ b := by
    set_option maxRecDepth 100000 in decide
  exact key b ⟨k, hk⟩

theorem flipBitAt_eq (s : Str) : ∀ i k, i < s.length →
    ∃ pre b post, s = pre ++ b :: post ∧ pre.length = i ∧
      flipBitAt s i k = pre ++ flipBit b k :: post := by
  induction s with
  | nil => intro i k h; simp at h
  | cons a s ih =>
    intro i k h
    cases i with
    | zero => exact ⟨[], a, s, rfl, rfl, rfl⟩
    | succ j =>
      obtain ⟨pre, b, post, h1, h2, h3⟩ := ih j k (by simpa using h)
      refine ⟨a :: pre, b, post, by rw [h1]; rfl, by simp [h2], ?_⟩
      simp only [flipBitAt, h3, List.cons_append]

/-- With a plain second byte, the first rune is white space only as a single
ASCII byte. -/
theorem leadingSpaceWidth_subst (b h : Byte) (u : Str) (hh : isPlain h = true) :
    leadingSpaceWidth (b :: h :: u) = 0 ∨ leadingSpaceWidth (b :: h :: u) = 1 := by
  have hlt := isPlain_lt h hh
  have h2 : (b :: h :: u).take 2 ∉ spaceRunes2 := by
    intro hmem
    have := spaceRunes_high _ (List.mem_append_left _ hmem) h (by simp)
    omega
  have h3 : (b :: h :: u).take 3 ∉ spaceRunes3 := by
    intro hmem
    have := spaceRunes_high _ (List.mem_append_right _ hmem) h (by simp)
    omega
  unfold leadingSpaceWidth
  by_cases hb : isASCIISpace b = true
  · right; simp only [hb, if_true]
  · left
    simp only [hb, Bool.false_eq_true, if_false, decide_eq_true_eq, if_neg h2, if_neg h3]

theorem trailingSpaceWidth_subst (b h : Byte) (u : Str) (hh : isPlain h = true) :
    trailingSpaceWidth (b :: h :: u) = 0 ∨ trailingSpaceWidth (b :: h :: u) = 1 := by
  have hlt := isPlain_lt h hh
  have h2 : ((b :: h :: u).take 2).reverse ∉ spaceRunes2 := by
    intro hmem
    have := spaceRunes_high _ (List.mem_append_left _ hmem) h (by simp)
    omega
  have h3 : ((b :: h :: u).take 3).reverse ∉ spaceRunes3 := by
    intro hmem
    have := spaceRunes_high _ (List.mem_append_right _ hmem) h (by simp)
    omega
  unfold trailingSpaceWidth
  by_cases hb : isASCIISpace b = true
  · right; simp only [hb, if_true]
  · left
    simp only [hb, Bool.false_eq_true, if_false, decide_eq_true_eq, if_neg h2, if_neg h3]

theorem trimLeftLoop_subst (fuel : Nat) (b h : Byte) (u : Str) (hh : isPlain h = true) :
    trimLeftLoop fuel (b :: h :: u) = b :: h :: u ∨ trimLeftLoop fuel (b :: h :: u) = h :: u := by
  cases fuel with
  | zero => left; rfl
  | succ n =>
    rcases leadingSpaceWidth_subst b h u hh with hw | hw
    · left; simp [trimLeftLoop, hw]
    · right
      simp only [trimLeftLoop, hw, one_ne_zero, if_false, List.drop_succ_cons, List.drop_zero]
      exact trimLeftLoop_plain n h u hh

theorem trimRightLoop_subst (fuel : Nat) (b h : Byte) (u : Str) (hh : isPlain h = true) :
    trimRightLoop fuel (b :: h :: u) = b :: h :: u ∨ trimRightLoop fuel (b :: h :: u) = h :: u := by
  cases fuel with
  | zero => left; rfl
  | succ n =>
    rcases trailingSpaceWidth_subst b h u hh with hw | hw
    · left; simp [trimRightLoop, hw]
    · right
      simp only [trimRightLoop, hw, one_ne_zero, if_false, List.drop_succ_cons, List.drop_zero]
      exact trimRightLoop_plain n h u hh

theorem trimRight_plain (l : Str) (hlast : ∀ b ∈ l.getLast?, isPlain b = true) :
    (trimRightLoop l.length l.reverse).reverse = l := by
  cases hr : l.reverse with
  | nil =>
    have : l = [] := by simpa using hr
    subst this; rfl
  | cons x r =>
    have hx : isPlain x = true := by
      apply hlast
      rw [← List.head?_reverse, hr]; simp
    rw [trimRightLoop_plain _ x r hx, ← hr, List.reverse_reverse]

/-- What `TrimSpace` does to a string of plain bytes in which one byte was
replaced: nothing, or it removes the replaced byte. -/
theorem TrimSpace_subst (pre post : Str) (b : Byte)
    (hpre : ∀ x ∈ pre, isPlain x = true) (hpost : ∀ x ∈ post, isPlain x = true)
    (hne : pre ≠ [] ∨ post ≠ []) :
    TrimSpace (pre ++ b :: post) = pre ++ b :: post ∨ TrimSpace (pre ++ b :: post) = pre ++ post := by
  cases pre with
  | nil =>
    have hpost_ne : post ≠ [] := by
      rcases hne with h | h
      · exact absurd rfl h
      · exact h
    cases post with
    | nil => exact absurd rfl hpost_ne
    | cons h u =>
      have hh : isPlain h = true := hpost h (by simp)
      have hlast1 : ∀ x ∈ (b :: h :: u).getLast?, isPlain x = true := by
        intro x hx
        rw [List.getLast?_cons_cons] at hx
        exact hpost x (List.mem_of_mem_getLast? hx)
      have hlast2 : ∀ x ∈ (h :: u).getLast?, isPlain x = true := by
        intro x hx
        exact hpost x (List.mem_of_mem_getLast? hx)
      unfold TrimSpace
      simp only [List.nil_append]
      rcases trimLeftLoop_subst (b :: h :: u).length b h u hh with hl | hl
      · left; rw [hl]; exact trimRight_plain _ hlast1
      · right; rw [hl]; exact trimRight_plain _ hlast2
  | cons p pre =>
    have hp : isPlain p = true := hpre p (by simp)
    unfold TrimSpace
    simp only [List.cons_append, trimLeftLoop_plain _ p _ hp]
    cases post with
    | cons h u =>
      left
      apply trimRight_plain
      intro x hx
      have : (p :: (pre ++ b :: h :: u)).getLast? = (h :: u).getLast? := by
        rw [show p :: (pre ++ b :: h :: u) = (p :: pre ++ [b]) ++ (h :: u) by simp]
        rw [List.getLast?_append]
        cases hq : (h :: u).getLast? with
        | none => simp at hq
        | some y => simp
      rw [this] at hx
      exact hpost x (List.mem_of_mem_getLast? hx)
    | nil =>
      obtain ⟨h, u, hr⟩ : ∃ h u, (p :: pre).reverse = h :: u := by
        cases hq : (p :: pre).reverse with
        | nil => simp at hq
        | cons h u => exact ⟨h, u, rfl⟩
      have hh : isPlain h = true := by
        apply hpre
        have : h ∈ (p :: pre).reverse := by rw [hr]; simp
        exact List.mem_reverse.mp this
      have hrev : (p :: (pre ++ [b])).reverse = b :: h :: u := by
        rw [show p :: (pre ++ [b]) = (p :: pre) ++ [b] by simp, List.reverse_append, hr]
        rfl
      rw [hrev]
      rcases trimRightLoop_subst (p :: (pre ++ [b])).length b h u hh with hl | hl
      · left; rw [hl, ← hrev, List.reverse_reverse]
      · right
        rw [hl, ← hr, List.reverse_reverse]
        simp

theorem encodeGroups_length_ne_one (src : Str) : (encodeGroups src).length ≠ 1 := by
  match src with
  | [] => simp [encodeGroups]
  | [x] => simp [encodeGroups]
  | [x, y] => simp [encodeGroups]
  | x :: y :: z :: rest => simp [encodeGroups]

/-- Malleability of the lenient unpadded decoder, exactly: replacing one byte
of a canonical encoding can leave the decoded bytes unchanged only when the byte
is the last one and the encoded data is not a whole number of 3-byte blocks. -/
theorem DecodeString_subst (raw pre post : Str) (b b' : Byte)
    (hc : EncodeToString raw = pre ++ b :: post) (hb : b' ≠ b)
    (hdec : DecodeString (TrimSpace (pre ++ b' :: post)) = some raw) :
    post = [] ∧ raw.length % 3 ≠ 0 := by
  unfold EncodeToString at hc
  obtain ⟨P, R, hvs, hP, hR⟩ := List.map_eq_append_iff.mp hc
  obtain ⟨v, Q, hR2, hv, hQ⟩ := List.map_eq_cons_iff.mp hR
  subst hR2
  have hlt := encodeGroups_lt raw
  rw [hvs] at hlt
  have hPlt : ∀ w ∈ P, w < 64 := fun w hw => hlt w (by simp [hw])
  have hQlt : ∀ w ∈ Q, w < 64 := fun w hw => hlt w (by simp [hw])
  have hvlt : v < 64 := hlt v (by simp)
  have hpre : ∀ x ∈ pre, isPlain x = true := by
    intro x hx
    rw [← hP] at hx
    obtain ⟨w, _, rfl⟩ := List.mem_map.mp hx
    exact encodeURLChar_plain w
  have hpost : ∀ x ∈ post, isPlain x = true := by
    intro x hx
    rw [← hQ] at hx
    obtain ⟨w, _, rfl⟩ := List.mem_map.mp hx
    exact encodeURLChar_plain w
  have hlen1 := encodeGroups_length_ne_one raw
  have hne : pre ≠ [] ∨ post ≠ [] := by
    by_contra hcon
    simp only [not_or, not_not] at hcon
    obtain ⟨h1, h2⟩ := hcon
    rw [← hP] at h1
    rw [← hQ] at h2
    have hP0 : P = [] := by simpa using h1
    have hQ0 : Q = [] := by simpa using h2
    rw [hvs, hP0, hQ0] at hlen1
    simp at hlen1
  -- the deletion case is excluded by the length of the re-encoding
  have hdel : decodeGroups (P ++ Q) ≠ some raw := by
    intro h
    have henc := encodeGroups_of_decodeGroups (P ++ Q) raw
      (fun w hw => by
        rcases List.mem_append.mp hw with h1 | h1
        · exact hPlt w h1
        · exact hQlt w h1) h
    have := congrArg List.length henc
    rw [canonGroups_length, hvs] at this
    simp only [List.length_append, List.length_cons] at this
    omega
  have hdecPQ : decodeChars (pre ++ post) = some (P ++ Q) := by
    rw [← hP, ← hQ, decodeChars_append P hPlt, decodeChars_map_encodeURLChar Q hQlt]
    rfl
  rcases TrimSpace_subst pre post b' hpre hpost hne with ht | ht
  · rw [ht] at hdec
    unfold DecodeString at hdec
    rw [← hP, decodeChars_append P hPlt] at hdec
    simp only [decodeChars] at hdec
    by_cases hnl : b'.val = 10 ∨ b'.val = 13
    · rw [if_pos hnl, ← hQ, decodeChars_map_encodeURLChar Q hQlt] at hdec
      exact absurd hdec hdel
    · rw [if_neg hnl] at hdec
      cases hv' : decodeURLChar b' with
      | none => simp [hv'] at hdec
      | some v' =>
        obtain ⟨hv'lt, hv'b⟩ := decodeURLChar_sound b' v' hv'
        have hvv : v' ≠ v := by
          intro h
          apply hb
          rw [← hv'b, h, hv]
        rw [hv', ← hQ, decodeChars_map_encodeURLChar Q hQlt] at hdec
        simp only [Option.map_some'] at hdec
        have henc := encodeGroups_of_decodeGroups (P ++ v' :: Q) raw
          (fun w hw => by
            rcases List.mem_append.mp hw with h1 | h1
            · exact hPlt w h1
            · rcases List.mem_cons.mp h1 with h2 | h2
              · rw [h2]; exact hv'lt
              · exact hQlt w h2) hdec
        rw [hvs] at henc
        constructor
        · by_contra hpost_ne
          have hQne : Q ≠ [] := by
            intro hQ0
            apply hpost_ne
            rw [← hQ, hQ0]; rfl
          have hQlen : 0 < Q.length := List.length_pos.mpr hQne
          have h1 := canonGroups_getElem? (P ++ v' :: Q) P.length
            (by simp only [List.length_append, List.length_cons]; omega)
          rw [← henc] at h1
          have e1 : (P ++ v' :: Q)[P.length]? = some v' := by
            rw [List.getElem?_append_right (Nat.le_refl _)]; simp
          have e2 : (P ++ v :: Q)[P.length]? = some v := by
            rw [List.getElem?_append_right (Nat.le_refl _)]; simp
          rw [e1, e2] at h1
          exact hvv (Option.some.inj h1).symm
        · intro hmod
          have hm : (P ++ v' :: Q).length % 4 = 0 := by
            have := (encodeGroups_length_mod raw).mpr hmod
            rw [hvs] at this
            simpa using this
          rw [canonGroups_of_mod _ hm] at henc
          have := List.append_cancel_left henc
          simp only [List.cons.injEq, and_true] at this
          exact hvv this.symm
  · rw [ht] at hdec
    unfold DecodeString at hdec
    rw [hdecPQ] at hdec
    exact absurd hdec hdel

theorem Encrypt_ok_eq (c : TokenCipher) (nonce plaintext ct : Str)
    (h : c.Encrypt (some nonce) plaintext = .ok ct) :
    plaintext ≠ [] ∧ ct = EncodeToString (nonce ++ c.aead.Seal nonce plaintext) := by
  unfold TokenCipher.Encrypt at h
  by_cases hp : plaintext = []
  · simp [hp] at h
  · simp only [if_neg hp, Except.ok.injEq] at h
    exact ⟨hp, h.symm⟩

theorem Decrypt_ok_inv (c : TokenCipher) (ct q : Str) (h : c.Decrypt ct = .ok q) :
    ∃ raw, DecodeString (TrimSpace ct) = some raw ∧
      c.aead.Open (raw.take c.aead.NonceSize) (raw.drop c.aead.NonceSize) = some q := by
  unfold TokenCipher.Decrypt at h
  simp only at h
  split at h
  · simp at h
  · split at h
    · simp at h
    · rename_i raw hraw
      split at h
      · simp at h
      · split at h
        · simp at h
        · rename_i plain hplain
          simp only [Except.ok.injEq] at h
          subst h
          exact ⟨raw, hraw, hplain⟩

/-- Single-bit mutations of a ciphertext token under an AEAD that opens only
the sealed pair it produced. -/
theorem Decrypt_flipBitAt (c : TokenCipher) (nonce p ct : Str) (i k : Nat)
    (hopen : c.aead.Open nonce (c.aead.Seal nonce p) = some p)
    (hideal : ∀ n s q, c.aead.Open n s = some q → n = nonce ∧ s = c.aead.Seal nonce p)
    (hct : c.Encrypt (some nonce) p = .ok ct) (hi : i < ct.length) (hk : k < 8) :
    ∀ q, c.Decrypt (flipBitAt ct i k) = .ok q →
      q = p ∧ i + 1 = ct.length ∧ (nonce ++ c.aead.Seal nonce p).length % 3 ≠ 0 := by
  intro q hq
  obtain ⟨_, hcteq⟩ := Encrypt_ok_eq c nonce p ct hct
  obtain ⟨pre, b, post, hsplit, hprelen, hflip⟩ := flipBitAt_eq ct i k hi
  obtain ⟨raw, hraw, hop⟩ := Decrypt_ok_inv c _ q hq
  obtain ⟨hn, hs⟩ := hideal _ _ _ hop
  have hraweq : raw = nonce ++ c.aead.Seal nonce p := by
    rw [← List.take_append_drop c.aead.NonceSize raw, hn, hs]
  have hqp : q = p := by
    rw [hn, hs, hopen] at hop
    exact (Option.some.inj hop).symm
  rw [hflip, hraweq] at hraw
  have hc : EncodeToString (nonce ++ c.aead.Seal nonce p) = pre ++ b :: post := by
    rw [← hcteq, hsplit]
  obtain ⟨hpost, hmod⟩ := DecodeString_subst _ pre post b (flipBit b k) hc (flipBit_ne b k hk) hraw
  refine ⟨hqp, ?_, hmod⟩
  rw [hsplit, hpost]
  simp [hprelen]

/-! ### The sample AEADs -/

theorem sampleAEAD_lawful : sampleAEAD.Lawful where
  seal_length := by
    intro nonce plaintext
    simp [sampleAEAD]
  open_seal := by
    intro nonce plaintext _
    simp [sampleAEAD]

theorem idealAEAD_open (nonce plaintext : Str) :
    (idealAEAD nonce plaintext).Open nonce ((idealAEAD nonce plaintext).Seal nonce plaintext) =
      some plaintext := by
  simp [idealAEAD]

theorem idealAEAD_ideal (nonce plaintext : Str) : ∀ n s q,
    (idealAEAD nonce plaintext).Open n s = some q →
      n = nonce ∧ s = (idealAEAD nonce plaintext).Seal nonce plaintext := by
  intro n s q h
  simp only [idealAEAD] at h ⊢
  split at h
  · rename_i hc; exact hc
  · simp at h

/-! ### `AuthenticateBearer` -/

theorem find?_of_unique (rows : List DistributedKey) (key : DistributedKey) (hmem : key ∈ rows)
    (huniq : ∀ r ∈ rows, r.TokenHash = key.TokenHash → r = key) :
    rows.find? (fun r => decide (r.TokenHash = key.TokenHash)) = some key := by
  induction rows with
  | nil => simp at hmem
  | cons r rows ih =>
    by_cases hr : r.TokenHash = key.TokenHash
    · have : r = key := huniq r (List.mem_cons_self _ _) hr
      simp [List.find?, hr, this]
    · have hne : r ≠ key := fun h => hr (by rw [h])
      have hmem2 : key ∈ rows := by
        rcases List.mem_cons.mp hmem with h | h
        · exact absurd h.symm hne
        · exact h
      simp only [List.find?, hr, decide_False]
      exact ih hmem2 (fun r' hr' => huniq r' (List.mem_cons_of_mem _ hr'))

/-- The decisions of `AuthenticateBearer` once the look-up has returned a
row. -/
theorem AuthenticateBearer_found (s : DistributedKeyService) (db : DB) (token : Str) (now : Int)
    (key : DistributedKey) (hne : TrimSpace token ≠ [])
    (hfound : db.First (hashToken s.sha256Hex (TrimSpace token)) = some key) :
    s.AuthenticateBearer db token now =
      match s.cipher.Decrypt key.Ciphertext with
      | .error e => .error e
      | .ok plain =>
        if plain ≠ TrimSpace token then .error .ErrDistributedKeyNotFound
        else if key.IsActive = false then .error .ErrDistributedKeyDisabled
        else
          match key.ExpiresAt with
          | some expiresAt =>
            if expiresAt ≤ now then .error .ErrDistributedKeyExpired else .ok key
          | none => .ok key := by
  unfold DistributedKeyService.AuthenticateBearer
  simp only [if_neg hne, hfound]
  cases hd : s.cipher.Decrypt key.Ciphertext with
  | error e => rfl
  | ok plain =>
    simp only [ConstantTimeCompare]
    by_cases hp : plain = TrimSpace token
    · simp only [hp, if_true, ne_eq, not_true_eq_false, if_false]
      cases ha : key.IsActive with
      | false => simp
      | true =>
        simp only [Bool.not_true, Bool.false_eq_true, if_false]
        cases he : key.ExpiresAt with
        | none => rfl
        | some e =>
          simp only [gt_iff_lt, not_lt, Bool.true_eq_false, if_false]
    · simp [hp]

theorem Decrypt_error_ne_notFound (c : TokenCipher) (ct : Str) (e : Err)
    (h : c.Decrypt ct = .error e) :
    e = .emptyCiphertext ∨ e = .corruptInput ∨ e = .ciphertextTooShort ∨ e = .openFailed := by
  unfold TokenCipher.Decrypt at h
  simp only at h
  split at h
  · left; simp only [Except.error.injEq] at h; exact h.symm
  · split at h
    · right; left; simp only [Except.error.injEq] at h; exact h.symm
    · split at h
      · right; right; left; simp only [Except.error.injEq] at h; exact h.symm
      · split at h
        · right; right; right; simp only [Except.error.injEq] at h; exact h.symm
        · simp at h

/-- C3: for a stored token (a row of the table, the only one with its digest)
whose digest is that of the presented, non-empty trimmed secret and whose
ciphertext decrypts to that secret, `AuthenticateBearer` fails with disabled
when the active flag is false, whatever the expiry; otherwise fails with
expired when an expiry is set and is not strictly after `now` (an expiry equal
to `now` counts as expired); otherwise returns the token. -/
theorem C3_authenticate_decision_order (s : DistributedKeyService) (db : DB) (token : Str)
    (now : Int) (key : DistributedKey)
    (hne : TrimSpace token ≠ [])
    (hmem : key ∈ db.rows)
    (huniq : ∀ r ∈ db.rows, r.TokenHash = key.TokenHash → r = key)
    (hhash : key.TokenHash = hashToken s.sha256Hex (TrimSpace token))
    (hdec : s.cipher.Decrypt key.Ciphertext = .ok (TrimSpace token)) :
    (key.IsActive = false →
      s.AuthenticateBearer db token now = .error .ErrDistributedKeyDisabled) ∧
    (key.IsActive = true → ∀ e, key.ExpiresAt = some e → e ≤ now →
      s.AuthenticateBearer db token now = .error .ErrDistributedKeyExpired) ∧
    (key.IsActive = true → (∀ e, key.ExpiresAt = some e → now < e) →
      s.AuthenticateBearer db token now = .ok key) := by
  have hfound : db.First (hashToken s.sha256Hex (TrimSpace token)) = some key := by
    unfold DB.First
    rw [← hhash]
    exact find?_of_unique db.rows key hmem huniq
  rw [AuthenticateBearer_found s db token now key hne hfound, hdec]
  refine ⟨?_, ?_, ?_⟩
  · intro ha
    simp [ha]
  · intro ha e he hle
    simp [ha, he, hle]
  · intro ha hexp
    cases he : key.ExpiresAt with
    | none => simp [ha]
    | some e =>
      have := hexp e he
      simp [ha, not_le.mpr this]

/-- C4 (amended): when the digest look-up finds a record, a stored ciphertext
that cannot be decrypted makes `AuthenticateBearer` fail with the error of
`Decrypt` itself (empty ciphertext, corrupt input, ciphertext too short or the
authentication failure of the AEAD), which is never the not-found error; a
ciphertext that decrypts to something other than the trimmed candidate makes it
fail with the not-found error. In neither case is a token returned. -/
theorem C4_undecryptable_or_mismatch (s : DistributedKeyService) (db : DB) (token : Str)
    (now : Int) (key : DistributedKey)
    (hne : TrimSpace token ≠ [])
    (hfound : db.First (hashToken s.sha256Hex (TrimSpace token)) = some key) :
    (∀ e, s.cipher.Decrypt key.Ciphertext = .error e →
      s.AuthenticateBearer db token now = .error e ∧ e ≠ .ErrDistributedKeyNotFound) ∧
    (∀ plain, s.cipher.Decrypt key.Ciphertext = .ok plain → plain ≠ TrimSpace token →
      s.AuthenticateBearer db token now = .error .ErrDistributedKeyNotFound) := by
  rw [AuthenticateBearer_found s db token now key hne hfound]
  constructor
  · intro e he
    refine ⟨by rw [he], ?_⟩
    rcases Decrypt_error_ne_notFound _ _ _ he with h | h | h | h <;> (rw [h]; decide)
  · intro plain hp hneq
    rw [hp]
    simp [hneq]

/-! ### `Create` -/

/-- What a successful `createLoop` has done: one iteration `j` generated the
secret, sealed it and appended the row to an unchanged table that held no row
with the same digest. -/
theorem createLoop_ok (s : DistributedKeyService) (input : DistributedKeyCreateInput)
    (name : Str) (rateLimit : Int) (env : Nat → Attempt) (key : DistributedKey) (pt : Str)
    (db' : DB) :
    ∀ fuel i db, createLoop s input name rateLimit env fuel i db = (.ok (key, pt), db') →
      ∃ j raw nonce ct,
        (env j).raw = some raw ∧ (env j).nonce = some nonce ∧
        pt = distributedKeyPrefixDefault ++ EncodeToString raw ∧
        s.cipher.Encrypt (some nonce) pt = .ok ct ∧
        key =
          { ID := db.nextID
            Name := name
            Note := TrimSpace input.Note
            TokenHash := hashToken s.sha256Hex pt
            Ciphertext := ct
            KeyPrefix := tokenPrefix pt
            IsActive := true
            ExpiresAt := input.ExpiresAt
            RateLimitPerMinute := if rateLimit = 0 then 60 else rateLimit
            LastUsedAt := none
            CreatedAt := (env j).now
            UpdatedAt := (env j).now } ∧
        db'.rows = db.rows ++ [key] ∧ db'.nextID = db.nextID + 1 ∧
        (∀ r ∈ db.rows, r.TokenHash ≠ key.TokenHash) := by
  intro fuel
  induction fuel with
  | zero =>
    intro i db h
    simp [createLoop] at h
  | succ n ih =>
    intro i db h
    unfold createLoop at h
    cases hraw : (env i).raw with
    | none => simp [hraw, generateDistributedKeyToken] at h
    | some raw =>
      simp only [hraw, generateDistributedKeyToken] at h
      cases hnonce : (env i).nonce with
      | none =>
        have hfail : ∃ e, s.cipher.Encrypt none
            (distributedKeyPrefixDefault ++ EncodeToString raw) = .error e := by
          unfold TokenCipher.Encrypt
          split <;> exact ⟨_, rfl⟩
        obtain ⟨e, he⟩ := hfail
        simp [hnonce, he] at h
      | some nonce =>
        cases henc : s.cipher.Encrypt (some nonce)
            (distributedKeyPrefixDefault ++ EncodeToString raw) with
        | error e => simp [hnonce, henc] at h
        | ok ct =>
          simp only [hnonce, henc] at h
          unfold DB.Create columnDefaults at h
          cases hfault : (env i).fault with
          | some msg =>
            simp only [hfault] at h
            split at h
            · exact ih _ _ h
            · simp at h
          | none =>
            simp only [hfault] at h
            by_cases hany : db.rows.any (fun r => decide (r.TokenHash =
                hashToken s.sha256Hex (distributedKeyPrefixDefault ++ EncodeToString raw))) = true
            · simp only [hany, if_true] at h
              split at h
              · exact ih _ _ h
              · simp at h
            · simp only [hany, Bool.false_eq_true, if_false, Prod.mk.injEq, Except.ok.injEq,
                ite_self] at h
              obtain ⟨⟨hk, hpt⟩, hdb⟩ := h
              refine ⟨i, raw, nonce, ct, hraw, hnonce, hpt.symm, ?_, ?_, ?_, ?_, ?_⟩
              · rw [← hpt]; exact henc
              · rw [← hk, ← hpt]
              · rw [← hdb, ← hk]
              · rw [← hdb]
              · intro r hr hcon
                apply hany
                rw [List.any_eq_true]
                refine ⟨r, hr, ?_⟩
                rw [← hk] at hcon
                simpa using hcon

theorem Create_ok (s : DistributedKeyService) (db : DB) (input : DistributedKeyCreateInput)
    (env : Nat → Attempt) (key : DistributedKey) (pt : Str) (db' : DB)
    (h : s.Create db input env = (.ok (key, pt), db')) :
    ∃ j raw nonce ct,
      (env j).raw = some raw ∧ (env j).nonce = some nonce ∧
      pt = distributedKeyPrefixDefault ++ EncodeToString raw ∧
      s.cipher.Encrypt (some nonce) pt = .ok ct ∧
      key.TokenHash = hashToken s.sha256Hex pt ∧ key.Ciphertext = ct ∧
      key.IsActive = true ∧ key.ExpiresAt = input.ExpiresAt ∧
      db'.rows = db.rows ++ [key] ∧
      (∀ r ∈ db.rows, r.TokenHash ≠ key.TokenHash) := by
  unfold DistributedKeyService.Create at h
  simp only at h
  split at h
  · simp at h
  · obtain ⟨j, raw, nonce, ct, h1, h2, h3, h4, h5, h6, _, h8⟩ :=
      createLoop_ok s input _ _ env key pt db' 3 0 db h
    refine ⟨j, raw, nonce, ct, h1, h2, h3, h4, ?_, ?_, ?_, ?_, h6, h8⟩ <;> rw [h5]

theorem TrimSpace_generated (raw : Str) :
    TrimSpace (distributedKeyPrefixDefault ++ EncodeToString raw) =
      distributedKeyPrefixDefault ++ EncodeToString raw := by
  have hall : ∀ b ∈ distributedKeyPrefixDefault ++ EncodeToString raw, isPlain b = true := by
    intro b hb
    rcases List.mem_append.mp hb with h | h
    · have : ∀ x ∈ distributedKeyPrefixDefault, isPlain x = true := by
        set_option maxRecDepth 100000 in decide
      exact this b h
    · unfold EncodeToString at h
      obtain ⟨v, _, rfl⟩ := List.mem_map.mp h
      exact encodeURLChar_plain v
  apply TrimSpace_plain
  · intro b hb; exact hall b (List.mem_of_mem_head? hb)
  · intro b hb; exact hall b (List.mem_of_mem_getLast? hb)

theorem find?_append_new (rows : List DistributedKey) (key : DistributedKey)
    (hnew : ∀ r ∈ rows, r.TokenHash ≠ key.TokenHash) :
    (rows ++ [key]).find? (fun r => decide (r.TokenHash = key.TokenHash)) = some key := by
  induction rows with
  | nil => simp [List.find?]
  | cons r rows ih =>
    have hr : r.TokenHash ≠ key.TokenHash := hnew r (List.mem_cons_self _ _)
    simp only [List.cons_append, List.find?, hr, decide_False]
    exact ih (fun r' hr' => hnew r' (List.mem_cons_of_mem _ hr'))

/-- C1 (amended): when `Create` succeeds and returns (token, plaintext), the
returned token is the persisted record, its digest equals `hashToken` of the
plaintext and its expiry is the one supplied; `AuthenticateBearer` of that
plaintext immediately afterwards returns the same token when the expiry is
absent or strictly after `now`, and fails with expired when the supplied expiry
is not after `now`. -/
theorem C1_create_then_authenticate (s : DistributedKeyService) (db : DB)
    (input : DistributedKeyCreateInput) (env : Nat → Attempt) (key : DistributedKey)
    (plaintext : Str) (db' : DB) (now : Int)
    (hc : s.cipher.aead.Lawful)
    (hnonce : ∀ i n, (env i).nonce = some n → n.length = s.cipher.aead.NonceSize)
    (hcreate : s.Create db input env = (.ok (key, plaintext), db')) :
    key ∈ db'.rows ∧ key.TokenHash = hashToken s.sha256Hex plaintext ∧
    key.ExpiresAt = input.ExpiresAt ∧
    ((∀ e, input.ExpiresAt = some e → now < e) →
      s.AuthenticateBearer db' plaintext now = .ok key) ∧
    (∀ e, input.ExpiresAt = some e → e ≤ now →
      s.AuthenticateBearer db' plaintext now = .error .ErrDistributedKeyExpired) := by
  obtain ⟨j, raw, nonce, ct, _, hn, hpt, henc, hhash, hct, hact, hexp, hrows, hnew⟩ :=
    Create_ok s db input env key plaintext db' hcreate
  have htrim : TrimSpace plaintext = plaintext := by rw [hpt]; exact TrimSpace_generated raw
  have hpne : plaintext ≠ [] := (Encrypt_ok_eq _ _ _ _ henc).1
  have hdec : s.cipher.Decrypt key.Ciphertext = .ok plaintext := by
    obtain ⟨ct', h1, h2⟩ := Decrypt_Encrypt_ok s.cipher hc nonce plaintext (hnonce j nonce hn) hpne
    rw [henc] at h1
    rw [hct, Except.ok.inj h1]
    exact h2
  have hfound : db'.First (hashToken s.sha256Hex (TrimSpace plaintext)) = some key := by
    unfold DB.First
    rw [htrim, hrows, ← hhash]
    exact find?_append_new db.rows key hnew
  have hauth := AuthenticateBearer_found s db' plaintext now key (by rw [htrim]; exact hpne) hfound
  rw [hdec, htrim] at hauth
  simp only [ne_eq, not_true_eq_false, if_false, hact, Bool.true_eq_false] at hauth
  refine ⟨by rw [hrows]; simp, hhash, hexp, ?_, ?_⟩
  · intro hfut
    rw [hauth]
    cases he : key.ExpiresAt with
    | none => rfl
    | some e =>
      have := hfut e (by rw [← hexp, he])
      simp [not_le.mpr this]
  · intro e he hle
    rw [hauth, hexp, he]
    simp [hle]

/-- C2 (amended): for a token (stored or not) whose ciphertext decrypts to the
secret `secret` and every candidate whose white-space-trimmed form differs from
`secret`, `AuthenticateBearer` never returns that token (whatever it returns has
a ciphertext that does not decrypt to `secret`); and when the trimmed candidate
is the secret of no stored token, every ciphertext of the table decrypting to
something else, it fails with the not-found error. -/
theorem C2_wrong_secret_not_found (s : DistributedKeyService) (db : DB) (key : DistributedKey)
    (secret candidate : Str) (now : Int)
    (hsecret : s.cipher.Decrypt key.Ciphertext = .ok secret)
    (hdiff : TrimSpace candidate ≠ secret) :
    s.AuthenticateBearer db candidate now ≠ .ok key ∧
    (∀ k, s.AuthenticateBearer db candidate now = .ok k →
      s.cipher.Decrypt k.Ciphertext ≠ .ok secret) ∧
    ((∀ r ∈ db.rows, ∃ other, s.cipher.Decrypt r.Ciphertext = .ok other ∧
        other ≠ TrimSpace candidate) →
      s.AuthenticateBearer db candidate now = .error .ErrDistributedKeyNotFound) := by
  have hret : ∀ k, s.AuthenticateBearer db candidate now = .ok k →
      s.cipher.Decrypt k.Ciphertext = .ok (TrimSpace candidate) := by
    intro k hk
    by_cases hne : TrimSpace candidate = []
    · simp [DistributedKeyService.AuthenticateBearer, hne] at hk
    · cases hf : db.First (hashToken s.sha256Hex (TrimSpace candidate)) with
      | none => simp [DistributedKeyService.AuthenticateBearer, hne, hf] at hk
      | some found =>
        rw [AuthenticateBearer_found s db candidate now found hne hf] at hk
        cases hd : s.cipher.Decrypt found.Ciphertext with
        | error e => simp [hd] at hk
        | ok plain =>
          simp only [hd] at hk
          by_cases hp : plain = TrimSpace candidate
          · have hkf : k = found := by
              simp only [hp, ne_eq, not_true_eq_false, if_false] at hk
              split at hk
              · simp at hk
              · split at hk
                · split at hk
                  · simp at hk
                  · exact (Except.ok.inj hk).symm
                · exact (Except.ok.inj hk).symm
            rw [hkf, hd, hp]
          · simp [hp] at hk
  have hne_secret : ∀ k, s.AuthenticateBearer db candidate now = .ok k →
      s.cipher.Decrypt k.Ciphertext ≠ .ok secret := by
    intro k hk hcon
    rw [hret k hk] at hcon
    exact hdiff (Except.ok.inj hcon)
  refine ⟨fun h => hne_secret key h hsecret, hne_secret, ?_⟩
  intro hall
  by_cases hne : TrimSpace candidate = []
  · simp [DistributedKeyService.AuthenticateBearer, hne]
  · cases hf : db.First (hashToken s.sha256Hex (TrimSpace candidate)) with
    | none => simp [DistributedKeyService.AuthenticateBearer, hne, hf]
    | some found =>
      have hfm : found ∈ db.rows := by
        unfold DB.First at hf
        exact List.mem_of_find?_eq_some hf
      obtain ⟨other, ho, hon⟩ := hall found hfm
      rw [AuthenticateBearer_found s db candidate now found hne hf, ho]
      simp [hon]

/-- C1, counterexample: a token created with an expiry one minute in the past
(a valid input, as in the repository's own test) is stored, and authenticating
its plaintext immediately afterwards fails with expired. -/
theorem C1_counterexample :
    demoService.Create demoDB
        { Name := ascii "client-a", Note := [], ExpiresAt := some 0, RateLimitPerMinute := none }
        demoEnv =
      (.ok (demoRow (some 0) true, demoSecret), { rows := [demoRow (some 0) true], nextID := 2 }) ∧
    demoService.AuthenticateBearer { rows := [demoRow (some 0) true], nextID := 2 } demoSecret
        60000000000 = .error .ErrDistributedKeyExpired := by
  constructor
  · set_option maxRecDepth 100000 in decide
  · set_option maxRecDepth 100000 in decide

/-- Witness of C1: the sample service creates a token without expiry in the
empty table and authenticates its plaintext straight away. -/
theorem C1_witness :
    demoService.Create demoDB
        { Name := ascii "client-a", Note := [], ExpiresAt := none, RateLimitPerMinute := none }
        demoEnv =
      (.ok (demoRow none true, demoSecret), { rows := [demoRow none true], nextID := 2 }) ∧
    demoService.AuthenticateBearer { rows := [demoRow none true], nextID := 2 } demoSecret 5 =
      .ok (demoRow none true) := by
  have hcreate : demoService.Create demoDB
      { Name := ascii "client-a", Note := [], ExpiresAt := none, RateLimitPerMinute := none }
      demoEnv =
      (.ok (demoRow none true, demoSecret), { rows := [demoRow none true], nextID := 2 }) := by
    set_option maxRecDepth 100000 in decide
  have hnonce : ∀ i n, (demoEnv i).nonce = some n →
      n.length = demoService.cipher.aead.NonceSize := by
    intro i n h
    simp only [demoEnv, Option.some.injEq] at h
    rw [← h]
    rfl
  exact ⟨hcreate,
    (C1_create_then_authenticate demoService demoDB _ demoEnv _ _ _ 5 sampleAEAD_lawful hnonce
      hcreate).2.2.2.1 (by intro e h; simp at h)⟩

/-- C2, counterexample: with a digest that has no collisions, the candidate
made of the true secret followed by a space differs from the secret, yet
`AuthenticateBearer` returns the token. -/
theorem C2_counterexample :
    Function.Injective demoService.sha256Hex ∧
    demoSecret ++ ascii " " ≠ demoSecret ∧
    demoService.cipher.Decrypt (demoRow none true).Ciphertext = .ok demoSecret ∧
    demoService.AuthenticateBearer { rows := [demoRow none true], nextID := 2 }
        (demoSecret ++ ascii " ") 5 = .ok (demoRow none true) := by
  refine ⟨fun _ _ h => h, ?_, ?_, ?_⟩
  · set_option maxRecDepth 100000 in decide
  · set_option maxRecDepth 100000 in decide
  · set_option maxRecDepth 100000 in decide

/-- Witness of C2: a candidate that differs from the stored secret in its last
character is not found. -/
theorem C2_witness :
    demoService.AuthenticateBearer { rows := [demoRow none true], nextID := 2 }
        (flipBitAt demoSecret 39 0) 5 ≠ .ok (demoRow none true) ∧
    demoService.AuthenticateBearer { rows := [demoRow none true], nextID := 2 }
        (flipBitAt demoSecret 39 0) 5 = .error .ErrDistributedKeyNotFound := by
  have hsecret : demoService.cipher.Decrypt (demoRow none true).Ciphertext = .ok demoSecret := by
    set_option maxRecDepth 100000 in decide
  have hdiff : TrimSpace (flipBitAt demoSecret 39 0) ≠ demoSecret := by
    set_option maxRecDepth 100000 in decide
  have h := C2_wrong_secret_not_found demoService { rows := [demoRow none true], nextID := 2 }
    (demoRow none true) demoSecret (flipBitAt demoSecret 39 0) 5 hsecret hdiff
  refine ⟨h.1, h.2.2 ?_⟩
  intro r hr
  simp only [List.mem_singleton] at hr
  subst hr
  exact ⟨demoSecret, hsecret, fun hc => hdiff hc.symm⟩

/-- Witness of C3: the three outcomes on the sample row, and an expiry equal to
`now` counting as expired. -/
theorem C3_witness :
    demoService.AuthenticateBearer { rows := [demoRow (some 5) false], nextID := 2 } demoSecret 9 =
      .error .ErrDistributedKeyDisabled ∧
    demoService.AuthenticateBearer { rows := [demoRow (some 9) true], nextID := 2 } demoSecret 9 =
      .error .ErrDistributedKeyExpired ∧
    demoService.AuthenticateBearer { rows := [demoRow (some 10) true], nextID := 2 } demoSecret 9 =
      .ok (demoRow (some 10) true) := by
  have htrim : TrimSpace demoSecret = demoSecret := TrimSpace_generated _
  have hne : TrimSpace demoSecret ≠ [] := by
    rw [htrim]; set_option maxRecDepth 100000 in decide
  have hdec : ∀ e a, demoService.cipher.Decrypt (demoRow e a).Ciphertext =
      .ok (TrimSpace demoSecret) := by
    intro e a
    rw [htrim]
    show demoService.cipher.Decrypt (demoRow none true).Ciphertext = .ok demoSecret
    set_option maxRecDepth 100000 in decide
  have hhash : ∀ e a, (demoRow e a).TokenHash =
      hashToken demoService.sha256Hex (TrimSpace demoSecret) := by
    intro e a
    rw [htrim]
    rfl
  have huniq : ∀ e a, ∀ r ∈ ({ rows := [demoRow e a], nextID := 2 } : DB).rows,
      r.TokenHash = (demoRow e a).TokenHash → r = demoRow e a := by
    intro e a r hr _
    simpa using hr
  refine ⟨?_, ?_, ?_⟩
  · exact (C3_authenticate_decision_order demoService _ demoSecret 9 (demoRow (some 5) false) hne
      (by simp) (huniq _ _) (hhash _ _) (hdec _ _)).1 rfl
  · exact (C3_authenticate_decision_order demoService _ demoSecret 9 (demoRow (some 9) true) hne
      (by simp) (huniq _ _) (hhash _ _) (hdec _ _)).2.1 rfl 9 rfl (le_refl _)
  · exact (C3_authenticate_decision_order demoService _ demoSecret 9 (demoRow (some 10) true) hne
      (by simp) (huniq _ _) (hhash _ _) (hdec _ _)).2.2 rfl
      (by
        intro e h
        have he : (10 : Int) = e := Option.some.inj h
        rw [← he]
        decide)

/-- C4, counterexample: the digest look-up finds a record whose stored
ciphertext is not base64; `AuthenticateBearer` fails with the corrupt-input
error of `Decrypt`, not with the not-found error. -/
theorem C4_counterexample :
    DB.First { rows := [corruptRow], nextID := 2 }
        (hashToken demoService.sha256Hex (TrimSpace demoSecret)) = some corruptRow ∧
    demoService.cipher.Decrypt corruptRow.Ciphertext = .error .corruptInput ∧
    demoService.AuthenticateBearer { rows := [corruptRow], nextID := 2 } demoSecret 5 =
      .error .corruptInput ∧
    Err.corruptInput ≠ Err.ErrDistributedKeyNotFound := by
  refine ⟨?_, ?_, ?_, ?_⟩
  · set_option maxRecDepth 100000 in decide
  · set_option maxRecDepth 100000 in decide
  · set_option maxRecDepth 100000 in decide
  · decide

/-- Witness of C4: on the record with the corrupt ciphertext the error of
`Decrypt` is passed on. -/
theorem C4_witness :
    demoService.AuthenticateBearer { rows := [corruptRow], nextID := 2 } demoSecret 5 =
      .error .corruptInput ∧ Err.corruptInput ≠ Err.ErrDistributedKeyNotFound := by
  have htrim : TrimSpace demoSecret = demoSecret := TrimSpace_generated _
  have hne : TrimSpace demoSecret ≠ [] := by
    rw [htrim]; set_option maxRecDepth 100000 in decide
  have hfound : DB.First { rows := [corruptRow], nextID := 2 }
      (hashToken demoService.sha256Hex (TrimSpace demoSecret)) = some corruptRow := by
    set_option maxRecDepth 100000 in decide
  exact (C4_undecryptable_or_mismatch demoService _ demoSecret 5 corruptRow hne hfound).1
    .corruptInput (by set_option maxRecDepth 100000 in decide)

/-- C6: for every cipher whose AEAD satisfies the contract (opening what was
sealed under the same nonce gives the plaintext; sealing adds the overhead),
every nonce of the AEAD's size and every non-empty plaintext, `Encrypt`
succeeds with the unpadded URL-safe base64 of nonce followed by the sealed
bytes, and `Decrypt` of that token returns exactly the plaintext; `Encrypt` of
the empty plaintext fails, whatever the random reader does. -/
theorem C6_encrypt_decrypt_round_trip (c : TokenCipher) (nonce plaintext : Str)
    (hc : c.aead.Lawful) (hn : nonce.length = c.aead.NonceSize) :
    (plaintext ≠ [] →
      c.Encrypt (some nonce) plaintext =
          .ok (EncodeToString (nonce ++ c.aead.Seal nonce plaintext)) ∧
        c.Decrypt (EncodeToString (nonce ++ c.aead.Seal nonce plaintext)) = .ok plaintext) ∧
    (∀ rnd, c.Encrypt rnd [] = .error .emptyPlaintext) := by
  constructor
  · intro hp
    obtain ⟨ct, h1, h2⟩ := Decrypt_Encrypt_ok c hc nonce plaintext hn hp
    have := (Encrypt_ok_eq c nonce plaintext ct h1).2
    rw [this] at h1 h2
    exact ⟨h1, h2⟩
  · intro rnd
    simp [TokenCipher.Encrypt]

/-- Witness of C6: the sample AEAD satisfies the contract, and the round trip
holds for the sample secret under a 12-byte nonce. -/
theorem C6_witness :
    sampleAEAD.Lawful ∧
    (TokenCipher.mk sampleAEAD).Decrypt
        (EncodeToString (List.replicate 12 1 ++ sampleAEAD.Seal (List.replicate 12 1) demoSecret)) =
      .ok demoSecret :=
  ⟨sampleAEAD_lawful,
    ((C6_encrypt_decrypt_round_trip ⟨sampleAEAD⟩ (List.replicate 12 1) demoSecret
      sampleAEAD_lawful rfl).1 (by set_option maxRecDepth 100000 in decide)).2⟩

/-- C7, counterexample: under an AEAD that opens only the pair it sealed, the
token of a 6-byte plaintext has 46 characters; inverting bit 1 of the last one
(`A` becomes `C`) changes only bits the decoder ignores, and `Decrypt` returns
the plaintext instead of an error. -/
theorem C7_counterexample :
    idealCipher.Encrypt (some idealNonce) idealPlain = .ok idealToken ∧
    (∀ n s q, idealCipher.aead.Open n s = some q →
      n = idealNonce ∧ s = idealCipher.aead.Seal idealNonce idealPlain) ∧
    flipBitAt idealToken 45 1 ≠ idealToken ∧
    idealCipher.Decrypt (flipBitAt idealToken 45 1) = .ok idealPlain := by
  refine ⟨?_, idealAEAD_ideal idealNonce idealPlain, ?_, ?_⟩
  · set_option maxRecDepth 100000 in decide
  · set_option maxRecDepth 100000 in decide
  · set_option maxRecDepth 100000 in decide

/-- C7 (amended): for a ciphertext token `ct` produced by `Encrypt` under an
AEAD that opens only the nonce and sealed bytes it produced, and every string
obtained from `ct` by inverting one bit: `Decrypt` never returns a plaintext
other than the original; it returns an error whenever the bit lies in any
character but the last, and also in the last character when the envelope
(nonce and sealed bytes) is a whole number of 3-byte blocks. Only a bit of the
last character of an envelope that is not a multiple of 3 bytes long can be
accepted, and then the original plaintext is returned. -/
theorem C7_bit_flip (c : TokenCipher) (nonce p ct : Str) (i k : Nat)
    (hopen : c.aead.Open nonce (c.aead.Seal nonce p) = some p)
    (hideal : ∀ n s q, c.aead.Open n s = some q → n = nonce ∧ s = c.aead.Seal nonce p)
    (hct : c.Encrypt (some nonce) p = .ok ct) (hi : i < ct.length) (hk : k < 8) :
    (∀ q, c.Decrypt (flipBitAt ct i k) = .ok q → q = p) ∧
    (i + 1 < ct.length ∨ (nonce ++ c.aead.Seal nonce p).length % 3 = 0 →
      ∃ e, c.Decrypt (flipBitAt ct i k) = .error e) := by
  have key := Decrypt_flipBitAt c nonce p ct i k hopen hideal hct hi hk
  refine ⟨fun q hq => (key q hq).1, ?_⟩
  intro hcase
  cases hd : c.Decrypt (flipBitAt ct i k) with
  | error e => exact ⟨e, rfl⟩
  | ok q =>
    obtain ⟨_, h2, h3⟩ := key q hd
    rcases hcase with h | h
    · omega
    · exact absurd h h3

/-- Witness of C7: inverting bit 0 of the fourth character of the sample token
is rejected. -/
theorem C7_witness :
    ∃ e, idealCipher.Decrypt (flipBitAt idealToken 3 0) = .error e :=
  (C7_bit_flip idealCipher idealNonce idealPlain idealToken 3 0
    (idealAEAD_open idealNonce idealPlain) (idealAEAD_ideal idealNonce idealPlain)
    (by set_option maxRecDepth 100000 in decide)
    (by set_option maxRecDepth 100000 in decide) (by decide)).2
    (Or.inl (by set_option maxRecDepth 100000 in decide))

/-! ### The rate limiter -/

theorem Truncate_le (t w : Int) (hw : 0 < w) : Truncate t w ≤ t := by
  simp only [Truncate, if_neg (not_le.mpr hw)]
  have := Int.emod_nonneg t (ne_of_gt hw)
  omega

theorem Truncate_gt (t w : Int) (hw : 0 < w) : t - w < Truncate t w := by
  simp only [Truncate, if_neg (not_le.mpr hw)]
  have := Int.emod_lt_of_pos t hw
  omega

theorem Truncate_mono (t₁ t₂ w : Int) (hw : 0 < w) (h : t₁ ≤ t₂) :
    Truncate t₁ w ≤ Truncate t₂ w := by
  simp only [Truncate, if_neg (not_le.mpr hw)]
  have h1 : t₁ - t₁ % w = w * (t₁ / w) := by
    have := Int.emod_add_ediv t₁ w
    omega
  have h2 : t₂ - t₂ % w = w * (t₂ / w) := by
    have := Int.emod_add_ediv t₂ w
    omega
  rw [h1, h2]
  exact Int.mul_le_mul_of_nonneg_left (Int.ediv_le_ediv hw h) (le_of_lt hw)

theorem wrapInt64_neg_two_mul (w : Int) (hw : 0 < w) (hw2 : w ≤ 2 ^ 62) :
    wrapInt64 (-2 * w) = -2 * w := by
  unfold wrapInt64
  have h62 : (2 : Int) ^ 62 = 4611686018427387904 := by norm_num
  have h63 : (2 : Int) ^ 63 = 9223372036854775808 := by norm_num
  have h64 : (2 : Int) ^ 64 = 18446744073709551616 := by norm_num
  rw [h62] at hw2
  rw [h63, h64]
  omega

theorem countInWindow_append (w : Int) (id : Nat) (ws : Int) (H : List AllowCall)
    (c : AllowCall) :
    countInWindow w id ws (H ++ [c]) =
      countInWindow w id ws H + (if c.keyID = id ∧ Truncate c.now w = ws then 1 else 0) := by
  unfold countInWindow
  rw [List.filter_append, List.length_append]
  by_cases h : c.keyID = id ∧ Truncate c.now w = ws
  · simp [List.filter, h]
  · simp [List.filter, h]

theorem setBucket_self (l : DistributedRateLimiter) (k : Nat) (b : rateBucket) :
    (l.setBucket k b).buckets k = some b := by
  simp [DistributedRateLimiter.setBucket]


theorem LimiterInv_later {w L : Int} {id : Nat} {H : List AllowCall} {T : Int}
    {l : DistributedRateLimiter} (hw : 0 < w) (h : LimiterInv w L id H T l) (T' : Int)
    (hT : T ≤ T') : LimiterInv w L id H T' l where
  window_eq := h.window_eq
  counted := fun t ht => h.counted t (le_trans hT ht)
  absent := fun t ht => h.absent t (le_trans hT ht)
  not_ahead := fun b hb => le_trans (h.not_ahead b hb) (Truncate_mono _ _ _ hw hT)

theorem LimiterInv_gc {w L : Int} {id : Nat} {H : List AllowCall} {T : Int}
    {l : DistributedRateLimiter} (hw : 0 < w) (hw2 : w ≤ 2 ^ 62)
    (h : LimiterInv w L id H T l) (now : Int) (hT : T ≤ now) :
    LimiterInv w L id H now (l.gcLocked now) := by
  have hcut : now + wrapInt64 (-2 * l.window) = now - 2 * w := by
    rw [h.window_eq, wrapInt64_neg_two_mul w hw hw2]; ring
  have hsub : ∀ b, (l.gcLocked now).buckets id = some b → l.buckets id = some b := by
    intro b hb
    simp only [DistributedRateLimiter.gcLocked] at hb
    cases hq : l.buckets id with
    | none => simp [hq] at hb
    | some b0 =>
      simp only [hq] at hb
      split at hb
      · simp at hb
      · exact hb
  constructor
  · exact h.window_eq
  · intro t ht b hb hws
    exact h.counted t (le_trans hT ht) b (hsub b hb) hws
  · intro t ht hno
    apply h.absent t (le_trans hT ht)
    intro b hb hws
    -- a bucket for the window of `t` is not collected
    have hkeep : (l.gcLocked now).buckets id = some b := by
      simp only [DistributedRateLimiter.gcLocked, hb]
      have h1 := Truncate_gt t w hw
      have : ¬ b.windowStart < now + wrapInt64 (-2 * l.window) := by
        rw [hcut, hws]; omega
      rw [if_neg this]
    exact hno b hkeep hws
  · intro b hb
    exact le_trans (h.not_ahead b (hsub b hb)) (Truncate_mono _ _ _ hw hT)

/-- One call of `Allow` keeps the invariant, and a call for `id` is allowed
exactly when it is at most the `L`-th call of `id` in its window. -/
theorem LimiterInv_step {w L : Int} {id : Nat} {H : List AllowCall} {T : Int}
    {l : DistributedRateLimiter} (hw : 0 < w) (hw2 : w ≤ 2 ^ 62) (hid : id ≠ 0) (hL : 0 < L)
    (h : LimiterInv w L id H T l) (c : AllowCall) (hT : T ≤ c.now)
    (hlim : c.keyID = id → c.limit = L) :
    LimiterInv w L id (H ++ [c]) c.now (l.Allow c.keyID c.limit c.now).2 ∧
    (c.keyID = id → (l.Allow c.keyID c.limit c.now).1 =
      decide ((countInWindow w id (Truncate c.now w) (H ++ [c]) : Int) ≤ L)) := by
  by_cases hkey : c.keyID = id
  · -- a call for `id`
    have hlimit : c.limit = L := hlim hkey
    have hg := LimiterInv_gc hw hw2 h c.now hT
    have hwin : (l.gcLocked c.now).window = w := hg.window_eq
    have hlw : l.window = w := h.window_eq
    have hcnt : ∀ ws, countInWindow w id ws (H ++ [c]) =
        countInWindow w id ws H + (if Truncate c.now w = ws then 1 else 0) := by
      intro ws
      rw [countInWindow_append]
      simp [hkey]
    have hne0 : ¬ (c.keyID = 0 ∨ c.limit = 0) := by
      rw [hkey, hlimit]
      intro hc
      rcases hc with hc | hc
      · exact hid hc
      · omega
    have hnneg : ¬ c.limit < 0 := by rw [hlimit]; omega
    unfold DistributedRateLimiter.Allow
    simp only [if_neg hne0, if_neg hnneg, hlw]
    rw [hkey]
    cases hb : (l.gcLocked c.now).buckets id with
    | none =>
      dsimp only
      have h0 : countInWindow w id (Truncate c.now w) H = 0 :=
        hg.absent c.now (le_refl _) (by intro b hb'; rw [hb] at hb'; cases hb')
      refine ⟨?_, ?_⟩
      · constructor
        · exact hwin
        · intro t _ b hb' hws
          simp only [DistributedRateLimiter.setBucket, if_true, Option.some.injEq] at hb'
          subst hb'
          simp only at hws
          rw [hcnt, ← hws, if_pos rfl, h0]
          simp only [CharP.cast_eq_zero, zero_add, Nat.cast_one, Nat.cast_add]
          omega
        · intro t ht hno
          have hne : Truncate c.now w ≠ Truncate t w := by
            intro hc
            exact hno ⟨Truncate c.now w, 1⟩ (setBucket_self _ _ _) hc
          rw [hcnt, if_neg hne, Nat.add_zero]
          exact hg.absent t ht (by intro b hb'; rw [hb] at hb'; cases hb')
        · intro b hb'
          simp only [DistributedRateLimiter.setBucket, if_true, Option.some.injEq] at hb'
          subst hb'
          exact le_refl _
      · intro _
        rw [hcnt, if_pos rfl, h0]
        simp only [zero_add, Nat.cast_one]
        symm
        rw [decide_eq_true_eq]
        omega
    | some cur =>
      dsimp only
      by_cases hws : cur.windowStart = Truncate c.now w
      · have hc := hg.counted c.now (le_refl _) cur hb hws
        simp only [hws, not_true_eq_false, if_false]
        by_cases hfull : cur.count ≥ c.limit
        · -- denied
          rw [if_pos hfull]
          rw [hlimit] at hfull
          have hge : (L : Int) ≤ countInWindow w id (Truncate c.now w) H := by
            rw [hc] at hfull
            omega
          refine ⟨?_, ?_⟩
          · constructor
            · exact hwin
            · intro t ht b hb' hws'
              rw [hb] at hb'
              cases hb'
              have := hg.counted t ht cur hb hws'
              rw [this, hcnt]
              have e : Truncate c.now w = Truncate t w := hws.symm.trans hws'
              rw [← e, if_pos rfl]
              push_cast
              omega
            · intro t ht hno
              have hne : Truncate c.now w ≠ Truncate t w := by
                intro hcon
                exact hno cur hb (by rw [hws, hcon])
              rw [hcnt, if_neg hne, Nat.add_zero]
              exact hg.absent t ht hno
            · exact hg.not_ahead
          · intro _
            rw [hcnt, if_pos rfl]
            symm
            rw [decide_eq_false_iff_not]
            push_cast
            omega
        · -- allowed and counted
          rw [if_neg hfull]
          rw [hlimit] at hfull
          have hlt : (countInWindow w id (Truncate c.now w) H : Int) < L := by
            rw [hc] at hfull
            omega
          have hceq : cur.count = countInWindow w id (Truncate c.now w) H := by
            rw [hc]; omega
          refine ⟨?_, ?_⟩
          · constructor
            · exact hwin
            · intro t _ b hb' hws'
              simp only [DistributedRateLimiter.setBucket, if_true, Option.some.injEq] at hb'
              subst hb'
              simp only at hws'
              have e : Truncate c.now w = Truncate t w := hws'
              rw [hcnt, ← e, if_pos rfl, hceq]
              push_cast
              omega
            · intro t ht hno
              have hne : Truncate c.now w ≠ Truncate t w := by
                intro hcon
                exact hno ⟨Truncate c.now w, cur.count + 1⟩ (setBucket_self _ _ _) hcon
              rw [hcnt, if_neg hne, Nat.add_zero]
              apply hg.absent t ht
              intro b hb' hcon
              rw [hb] at hb'
              cases hb'
              exact hne (by rw [← hws, hcon])
            · intro b hb'
              simp only [DistributedRateLimiter.setBucket, if_true, Option.some.injEq] at hb'
              subst hb'
              simp only [hws]
              exact le_refl _
          · intro _
            rw [hcnt, if_pos rfl]
            symm
            rw [decide_eq_true_eq]
            push_cast
            omega
      · -- a bucket of an earlier window is replaced
        simp only [hws, not_false_eq_true, if_true]
        have h0 : countInWindow w id (Truncate c.now w) H = 0 :=
          hg.absent c.now (le_refl _) (by
            intro b hb' hcon
            rw [hb] at hb'
            cases hb'
            exact hws hcon)
        refine ⟨?_, ?_⟩
        · constructor
          · exact hwin
          · intro t _ b hb' hws'
            simp only [DistributedRateLimiter.setBucket, if_true, Option.some.injEq] at hb'
            subst hb'
            simp only at hws'
            rw [hcnt, ← hws', if_pos rfl, h0]
            simp only [CharP.cast_eq_zero, zero_add, Nat.cast_one, Nat.cast_add]
            omega
          · intro t ht hno
            have hne : Truncate c.now w ≠ Truncate t w := by
              intro hc
              exact hno ⟨Truncate c.now w, 1⟩ (setBucket_self _ _ _) hc
            rw [hcnt, if_neg hne, Nat.add_zero]
            apply hg.absent t ht
            intro b hb' hcon
            rw [hb] at hb'
            cases hb'
            -- the old bucket is not ahead of the window of this call
            have h1 := hg.not_ahead cur hb
            have h2 := Truncate_mono c.now t w hw ht
            apply hws
            rw [hcon] at h1
            rw [hcon]
            omega
          · intro b hb'
            simp only [DistributedRateLimiter.setBucket, if_true, Option.some.injEq] at hb'
            subst hb'
            exact le_refl _
        · intro _
          rw [hcnt, if_pos rfl, h0]
          simp only [zero_add, Nat.cast_one]
          symm
          rw [decide_eq_true_eq]
          omega
  · -- a call for another identity leaves the bucket of `id` to the collector
    refine ⟨?_, fun hc => absurd hc hkey⟩
    have hcnt : ∀ ws, countInWindow w id ws (H ++ [c]) = countInWindow w id ws H := by
      intro ws
      rw [countInWindow_append]
      simp [hkey]
    have hsame : ∀ l' : DistributedRateLimiter, LimiterInv w L id H c.now l' →
        LimiterInv w L id (H ++ [c]) c.now l' := by
      intro l' hl'
      constructor
      · exact hl'.window_eq
      · intro t ht b hb hws
        rw [hcnt]; exact hl'.counted t ht b hb hws
      · intro t ht hno
        rw [hcnt]; exact hl'.absent t ht hno
      · exact hl'.not_ahead
    have hset : ∀ (l' : DistributedRateLimiter) (b : rateBucket),
        LimiterInv w L id H c.now l' → LimiterInv w L id H c.now (l'.setBucket c.keyID b) := by
      intro l' b hl'
      have hb : (l'.setBucket c.keyID b).buckets id = l'.buckets id := by
        simp only [DistributedRateLimiter.setBucket]
        rw [if_neg (fun hc => hkey hc.symm)]
      constructor
      · exact hl'.window_eq
      · intro t ht b' hb'; rw [hb] at hb'; exact hl'.counted t ht b' hb'
      · intro t ht hno; exact hl'.absent t ht (by intro b' hb'; rw [← hb] at hb'; exact hno b' hb')
      · intro b' hb'; rw [hb] at hb'; exact hl'.not_ahead b' hb'
    have hg := LimiterInv_gc hw hw2 h c.now hT
    unfold DistributedRateLimiter.Allow
    split
    · exact hsame _ (LimiterInv_later hw h c.now hT)
    · split
      · exact hsame _ (LimiterInv_later hw h c.now hT)
      · simp only
        split
        · exact hsame _ (hset _ _ hg)
        · split
          · exact hsame _ (hset _ _ hg)
          · split
            · exact hsame _ hg
            · exact hsame _ (hset _ _ hg)

theorem runAllow_decisions {w L : Int} {id : Nat} (hw : 0 < w) (hw2 : w ≤ 2 ^ 62)
    (hid : id ≠ 0) (hL : 0 < L) :
    ∀ (calls : List AllowCall) (H : List AllowCall) (T : Int) (l : DistributedRateLimiter),
      LimiterInv w L id H T l →
      calls.Pairwise (fun a b => a.now ≤ b.now) →
      (∀ c ∈ calls, T ≤ c.now) →
      (∀ c ∈ calls, c.keyID = id → c.limit = L) →
      ∀ j c, calls[j]? = some c → c.keyID = id →
        (runAllow l calls).1[j]? =
          some (decide ((countInWindow w id (Truncate c.now w) (H ++ calls.take (j + 1)) : Int)
            ≤ L)) := by
  intro calls
  induction calls with
  | nil => intro H T l _ _ _ _ j c hj; simp at hj
  | cons c0 rest ih =>
    intro H T l hinv hsorted hT hlim j c hj hc
    have hstep := LimiterInv_step hw hw2 hid hL hinv c0 (hT c0 (List.mem_cons_self _ _))
      (hlim c0 (List.mem_cons_self _ _))
    cases j with
    | zero =>
      simp only [List.getElem?_cons_zero, Option.some.injEq] at hj
      subst hj
      simp only [runAllow, List.getElem?_cons_zero, List.take_succ_cons, List.take_zero]
      rw [hstep.2 hc]
    | succ j =>
      simp only [List.getElem?_cons_succ] at hj
      have hs := List.pairwise_cons.mp hsorted
      have := ih (H ++ [c0]) c0.now (l.Allow c0.keyID c0.limit c0.now).2 hstep.1 hs.2
        (fun c' hc' => hs.1 c' hc')
        (fun c' hc' => hlim c' (List.mem_cons_of_mem _ hc')) j c hj hc
      simp only [runAllow, List.getElem?_cons_succ, List.take_succ_cons]
      rw [this]
      simp

theorem LimiterInv_fresh (w L : Int) (id : Nat) (T : Int) (hw : 0 < w) :
    LimiterInv w L id [] T (NewDistributedRateLimiter w) where
  window_eq := by simp [NewDistributedRateLimiter, not_le.mpr hw]
  counted := by intro t _ b hb; simp [NewDistributedRateLimiter] at hb
  absent := by intro t _ _; rfl
  not_ahead := by intro b hb; simp [NewDistributedRateLimiter] at hb

/-- The counting rule of C5, for windows whose double fits a `time.Duration`
(at most 2^62 ns): starting from a fresh limiter, for any
identity `id != 0`, any limit `L > 0` and any sequence of calls with
non-decreasing instants in which the calls of `id` carry the limit `L` (calls
of other identities being arbitrary), the call at position `j`, when it is for
`id`, is allowed exactly when at most `L` calls of `id` up to and including it
fall in its aligned window. -/
theorem Allow_kth_call_in_window (w : Int) (hw : 0 < w) (hw2 : w ≤ 2 ^ 62) (id : Nat)
    (hid : id ≠ 0) (L : Int) (hL : 0 < L) (calls : List AllowCall)
    (hsorted : calls.Pairwise (fun a b => a.now ≤ b.now))
    (hlim : ∀ c ∈ calls, c.keyID = id → c.limit = L)
    (j : Nat) (c : AllowCall) (hj : calls[j]? = some c) (hc : c.keyID = id) :
    (runAllow (NewDistributedRateLimiter w) calls).1[j]? =
      some (decide ((countInWindow w id (Truncate c.now w) (calls.take (j + 1)) : Int) ≤ L)) := by
  cases calls with
  | nil => simp at hj
  | cons c0 rest =>
    have hs := List.pairwise_cons.mp hsorted
    have := runAllow_decisions hw hw2 hid hL (c0 :: rest) [] c0.now (NewDistributedRateLimiter w)
      (LimiterInv_fresh w L id c0.now hw) hsorted
      (by
        intro c' hc'
        rcases List.mem_cons.mp hc' with h | h
        · rw [h]
        · exact hs.1 c' h)
      hlim j c hj hc
    simpa using this

/-- With limit 1 and a one-minute window: the first call in a window is
allowed, the second in the same window is denied, and the first call in the
next window is allowed again; calls of another identity in between do not
matter. -/
theorem Allow_limit_one_example :
    (runAllow (NewDistributedRateLimiter Minute)
      [⟨7, 1, 60000000005⟩, ⟨8, 3, 60000000006⟩, ⟨7, 1, 119999999999⟩,
       ⟨7, 1, 120000000000⟩]).1 = [true, true, false, true] := by
  decide

/-- C5, the code at the failing input: with a window of 2^62 + 1 ns, a value
`time.Duration` holds and `time.ParseDuration` accepts, the product
`-2 * l.window` wraps to 2^63 - 2, the cutoff of `gcLocked` lies after `now`,
every bucket is deleted before each decision, and two calls for the same
identity with limit 1 at the same instant, hence in the same aligned window,
are both allowed. -/
theorem C5_window_overflow :
    (NewDistributedRateLimiter (2 ^ 62 + 1)).window = 2 ^ 62 + 1 ∧
    wrapInt64 (2 ^ 62 + 1) = 2 ^ 62 + 1 ∧
    wrapInt64 (-2 * (NewDistributedRateLimiter (2 ^ 62 + 1)).window) = 2 ^ 63 - 2 ∧
    (runAllow (NewDistributedRateLimiter (2 ^ 62 + 1))
      [⟨1, 1, 63900000000000000000⟩, ⟨1, 1, 63900000000000000000⟩]).1 = [true, true] := by
  refine ⟨by decide, by decide, by decide, by decide⟩

/-! ### The key batch create job -/

theorem running_ne_completed : ascii "completed" ≠ ascii "running" := by decide

theorem cloneKeyBatchCreateJobStatus_eq (job : KeyBatchCreateJobStatus) :
    cloneKeyBatchCreateJobStatus job = job := rfl


theorem JobInv_init : JobInv NewKeyBatchCreateJobService where
  at_most_one := by simp [NewKeyBatchCreateJobService]
  current := by intro w hw; simp [NewKeyBatchCreateJobService] at hw
  running_iff := by simp [NewKeyBatchCreateJobService]

/-- Method `Start` changes the service only by installing a fresh running record and
launching its goroutine, and only when no record is running. -/
theorem Start_state (s : KeyBatchCreateJobService) (rawKeys : List Str) (alias_ : Str)
    (totalQuota : Int) (newID : Str) (now : Int) :
    (s.Start rawKeys alias_ totalQuota newID now).2 = s ∨
    ((∀ j, s.job = some j → j.Status ≠ ascii "running") ∧
      ∃ job w, (s.Start rawKeys alias_ totalQuota newID now).2 =
          { job := some job, workers := s.workers ++ [w] } ∧
        job.Status = ascii "running" ∧ w.jobID = job.ID) := by
  unfold KeyBatchCreateJobService.Start
  simp only
  split
  · left; rfl
  · split
    · left; rfl
    · split
      · rename_i current hcur
        split
        · left; rfl
        · rename_i hnot
          right
          refine ⟨?_, _, _, rfl, rfl, rfl⟩
          intro j hj
          rw [hcur] at hj
          cases hj
          exact hnot
      · rename_i hnone
        right
        refine ⟨?_, _, _, rfl, rfl, rfl⟩
        intro j hj
        rw [hnone] at hj
        cases hj

theorem Start_running_state (s : KeyBatchCreateJobService) (current : KeyBatchCreateJobStatus)
    (hjob : s.job = some current) (hrun : current.Status = ascii "running")
    (rawKeys : List Str) (alias_ : Str) (totalQuota : Int) (newID : Str) (now : Int) :
    (s.Start rawKeys alias_ totalQuota newID now).2 = s := by
  rcases Start_state s rawKeys alias_ totalQuota newID now with h | ⟨h, _⟩
  · exact h
  · exact absurd hrun (h current hjob)

theorem JobInv_step {s t : KeyBatchCreateJobService} (h : JobInv s) (hst : JobStep s t) :
    JobInv t := by
  cases hst with
  | start _ rawKeys alias_ totalQuota newID now =>
    rcases Start_state s rawKeys alias_ totalQuota newID now with heq | ⟨hnot, job, w, heq, hrun, hid⟩
    · rw [heq]; exact h
    · have hnil : s.workers = [] := by
        by_contra hne
        obtain ⟨j, hj, hjr⟩ := h.running_iff.mpr hne
        exact hnot j hj hjr
      rw [heq, hnil]
      constructor
      · simp
      · intro w' hw'
        simp only [List.nil_append, List.mem_singleton] at hw'
        subst hw'
        exact ⟨job, rfl, hid.symm⟩
      · simp only [List.nil_append, ne_eq, List.cons_ne_self, not_false_eq_true, iff_true]
        exact ⟨job, rfl, hrun⟩
  | item job pre post w key rest err hkeys =>
    have hlen := h.at_most_one
    simp only [List.length_append, List.length_cons] at hlen
    have hpre : pre = [] := List.length_eq_zero.mp (by omega)
    have hpost : post = [] := List.length_eq_zero.mp (by omega)
    subst hpre hpost
    obtain ⟨j, hj, hjid⟩ := h.current w (by simp)
    obtain ⟨j', hj', hjrun⟩ := h.running_iff.mpr (by simp)
    simp only at hj hj'
    rw [hj] at hj'
    cases hj'
    subst hj
    have hid : ¬ j.ID ≠ w.jobID := by simp [hjid]
    cases err with
    | none =>
      simp only [runJobItem, if_neg hid, List.nil_append, List.append_nil, if_true]
      constructor
      · simp
      · intro w' hw'
        simp only [List.mem_singleton] at hw'
        subst hw'
        exact ⟨_, rfl, hjid⟩
      · simp only [ne_eq, List.cons_ne_self, not_false_eq_true, iff_true]
        exact ⟨_, rfl, hjrun⟩
    | some msg =>
      simp only [runJobItem, if_neg hid, List.nil_append, List.append_nil, if_true]
      constructor
      · simp
      · intro w' hw'
        simp only [List.mem_singleton] at hw'
        subst hw'
        exact ⟨_, rfl, hjid⟩
      · simp only [ne_eq, List.cons_ne_self, not_false_eq_true, iff_true]
        exact ⟨_, rfl, hjrun⟩
  | finish job pre post w endedAt hkeys =>
    have hlen := h.at_most_one
    simp only [List.length_append, List.length_cons] at hlen
    have hpre : pre = [] := List.length_eq_zero.mp (by omega)
    have hpost : post = [] := List.length_eq_zero.mp (by omega)
    subst hpre hpost
    obtain ⟨j, hj, hjid⟩ := h.current w (by simp)
    simp only at hj
    subst hj
    simp only [runJobEnd, if_pos hjid, List.append_nil]
    constructor
    · simp
    · intro w' hw'; simp at hw'
    · simp only [ne_eq, not_true_eq_false, iff_false, not_exists, not_and]
      intro j' hj'
      simp only [Option.some.injEq] at hj'
      subst hj'
      exact running_ne_completed

theorem JobInv_of_reachable {s : KeyBatchCreateJobService} (h : JobReachable s) : JobInv s := by
  induction h with
  | init => exact JobInv_init
  | step s t _ hst ih => exact JobInv_step ih hst

/-- C8: in every state reachable from a fresh service by calls of `Start`
(with any job id), loop iterations of a live goroutine and ends of goroutines,
at most one `runJob` goroutine is live, a live goroutine carries the id of the
current job record, and the record's status is running exactly when a live
goroutine exists; so a running job's record is never replaced by a later
`Start`, which leaves the service as it is. -/
theorem C8_single_flight (s : KeyBatchCreateJobService) (h : JobReachable s) :
    s.workers.length ≤ 1 ∧
    (∀ w ∈ s.workers, ∃ j, s.job = some j ∧ j.ID = w.jobID) ∧
    ((∃ j, s.job = some j ∧ j.Status = ascii "running") ↔ s.workers ≠ []) ∧
    (∀ j, s.job = some j → j.Status = ascii "running" →
      ∀ rawKeys alias_ totalQuota newID now,
        (s.Start rawKeys alias_ totalQuota newID now).2 = s) := by
  have hinv := JobInv_of_reachable h
  exact ⟨hinv.at_most_one, hinv.current, hinv.running_iff,
    fun j hj hrun rawKeys alias_ totalQuota newID now =>
      Start_running_state s j hj hrun rawKeys alias_ totalQuota newID now⟩

theorem runningService_reachable : JobReachable runningService :=
  JobReachable.step _ _ JobReachable.init (JobStep.start _ _ _ _ _ _)

/-- Witness of C8: the state after the first `Start` is reachable, has one
live goroutine and a running record. -/
theorem C8_witness :
    JobReachable runningService ∧ runningService.workers.length = 1 ∧
    runningService.workers.length ≤ 1 :=
  ⟨runningService_reachable, by decide, (C8_single_flight runningService runningService_reachable).1⟩

/-- C9, counterexample: while a job is running, `Start` with no items returns
the zero snapshot, `alreadyRunning = false` and the no-keys error, not the
running job with `alreadyRunning = true`. -/
theorem C9_counterexample :
    (∃ j, runningService.job = some j ∧ j.Status = ascii "running") ∧
    (runningService.Start [] [] 1000 (ascii "job-2") 100).1 =
      (KeyBatchCreateJobStatus.zero, false, some .ErrBatchCreateNoKeys) := by
  constructor
  · exact ⟨_, rfl, by decide⟩
  · decide

/-- C9 (amended): whenever the current job's status is running, a call to
`Start` whose items normalise to between 1 and 5000 entries (for every label,
quota, fresh id and instant) returns a snapshot equal to the current job
together with `alreadyRunning = true` and no error, leaves the stored job
record unchanged, and launches no new background work. (A call whose items
normalise to none or to more than 5000 fails before the running job is looked
at.) -/
theorem C9_start_while_running (s : KeyBatchCreateJobService)
    (current : KeyBatchCreateJobStatus) (rawKeys : List Str) (alias_ : Str) (totalQuota : Int)
    (newID : Str) (now : Int)
    (hjob : s.job = some current) (hrun : current.Status = ascii "running")
    (hmin : 1 ≤ (normalizeBatchKeys rawKeys).length)
    (hmax : (normalizeBatchKeys rawKeys).length ≤ 5000) :
    s.Start rawKeys alias_ totalQuota newID now = ((current, true, none), s) := by
  unfold KeyBatchCreateJobService.Start
  have h0 : ¬ (normalizeBatchKeys rawKeys).length = 0 := by omega
  have h1 : ¬ (normalizeBatchKeys rawKeys).length > maxBatchCreateKeys := by
    simp only [maxBatchCreateKeys]; omega
  simp only [if_neg h0, if_neg h1, hjob, hrun, if_true, cloneKeyBatchCreateJobStatus_eq]

/-- Witness of C9: a second `Start` with one item while the first job runs. -/
theorem C9_witness :
    (runningService.Start [ascii " k "] [] 5 (ascii "job-2") 100).1.2.1 = true ∧
    (runningService.Start [ascii " k "] [] 5 (ascii "job-2") 100).2 = runningService := by
  have hjob : runningService.job = some
      { KeyBatchCreateJobStatus.zero with
        ID := ascii "job-1", Status := ascii "running", Total := 2, StartedAt := some 99 } := by
    decide
  have h := C9_start_while_running runningService _ [ascii " k "] [] 5 (ascii "job-2") 100 hjob
    rfl (by decide) (by decide)
  rw [h]
  exact ⟨rfl, rfl⟩

theorem leadingSpaceWidth_le (s : Str) : leadingSpaceWidth s ≤ s.length ∧
    (s ≠ [] → leadingSpaceWidth s ≠ 0 → 1 ≤ leadingSpaceWidth s) := by
  refine ⟨?_, fun _ h => Nat.one_le_iff_ne_zero.mpr h⟩
  cases s with
  | nil => simp [leadingSpaceWidth]
  | cons b rest =>
    unfold leadingSpaceWidth
    simp only
    split
    · simp
    · split
      · rename_i h
        have h2 : ((b :: rest).take 2).length = 2 := by
          have hall : ∀ L ∈ spaceRunes2, L.length = 2 := by decide
          exact hall _ (by simpa using h)
        rw [List.length_take] at h2
        omega
      · split
        · rename_i h
          have h3 : ((b :: rest).take 3).length = 3 := by
            have hall : ∀ L ∈ spaceRunes3, L.length = 3 := by decide
            exact hall _ (by simpa using h)
          rw [List.length_take] at h3
          omega
        · simp

theorem trailingSpaceWidth_le (r : Str) : trailingSpaceWidth r ≤ r.length := by
  cases r with
  | nil => simp [trailingSpaceWidth]
  | cons b rest =>
    unfold trailingSpaceWidth
    simp only
    split
    · simp
    · split
      · rename_i h
        have h2 : (((b :: rest).take 2).reverse).length = 2 := by
          have hall : ∀ L ∈ spaceRunes2, L.length = 2 := by decide
          exact hall _ (by simpa using h)
        rw [List.length_reverse, List.length_take] at h2
        omega
      · split
        · rename_i h
          have h3 : (((b :: rest).take 3).reverse).length = 3 := by
            have hall : ∀ L ∈ spaceRunes3, L.length = 3 := by decide
            exact hall _ (by simpa using h)
          rw [List.length_reverse, List.length_take] at h3
          omega
        · simp

theorem leadingSpaceWidth_nil : leadingSpaceWidth [] = 0 := rfl

theorem trailingSpaceWidth_nil : trailingSpaceWidth [] = 0 := rfl

theorem trimLeftLoop_of_zero (fuel : Nat) (s : Str) (h : leadingSpaceWidth s = 0) :
    trimLeftLoop fuel s = s := by
  cases fuel with
  | zero => rfl
  | succ n => simp [trimLeftLoop, h]

theorem trimRightLoop_of_zero (fuel : Nat) (r : Str) (h : trailingSpaceWidth r = 0) :
    trimRightLoop fuel r = r := by
  cases fuel with
  | zero => rfl
  | succ n => simp [trimRightLoop, h]

/-- With enough fuel the left loop stops at a string whose first rune is not
white space. -/
theorem trimLeftLoop_done : ∀ (fuel : Nat) (s : Str), s.length ≤ fuel →
    leadingSpaceWidth (trimLeftLoop fuel s) = 0 := by
  intro fuel
  induction fuel with
  | zero =>
    intro s hs
    have : s = [] := List.length_eq_zero.mp (by omega)
    subst this; rfl
  | succ n ih =>
    intro s hs
    unfold trimLeftLoop
    by_cases hw : leadingSpaceWidth s = 0
    · rw [if_pos hw]; exact hw
    · rw [if_neg hw]
      apply ih
      have h1 := (leadingSpaceWidth_le s).1
      rw [List.length_drop]
      omega

/-- With enough fuel the right loop stops at a string whose last rune is not
white space, and what is left is the reverse of a leading part of the string. -/
theorem trimRightLoop_done : ∀ (fuel : Nat) (r : Str), r.length ≤ fuel →
    trailingSpaceWidth (trimRightLoop fuel r) = 0 ∧ ∃ m, trimRightLoop fuel r = r.drop m := by
  intro fuel
  induction fuel with
  | zero =>
    intro r hr
    have : r = [] := List.length_eq_zero.mp (by omega)
    subst this
    exact ⟨rfl, 0, rfl⟩
  | succ n ih =>
    intro r hr
    unfold trimRightLoop
    by_cases hw : trailingSpaceWidth r = 0
    · rw [if_pos hw]; exact ⟨hw, 0, rfl⟩
    · rw [if_neg hw]
      have h1 := trailingSpaceWidth_le r
      obtain ⟨h2, m, hm⟩ := ih (r.drop (trailingSpaceWidth r)) (by rw [List.length_drop]; omega)
      refine ⟨h2, trailingSpaceWidth r + m, ?_⟩
      rw [hm, List.drop_drop, Nat.add_comm]

theorem leadingSpaceWidth_cons_eq_zero (b : Byte) (rest : Str) :
    leadingSpaceWidth (b :: rest) = 0 ↔
      (isASCIISpace b = false ∧ (b :: rest).take 2 ∉ spaceRunes2 ∧
        (b :: rest).take 3 ∉ spaceRunes3) := by
  unfold leadingSpaceWidth
  by_cases h1 : isASCIISpace b = true
  · simp only [h1, if_true, one_ne_zero, Bool.true_eq_false, false_and]
  · by_cases h2 : List.take 2 (b :: rest) ∈ spaceRunes2
    · simp only [h1, h2, decide_True, if_true, Bool.false_eq_true, if_false, OfNat.ofNat_ne_zero,
        not_true_eq_false, false_and, and_false]
    · by_cases h3 : List.take 3 (b :: rest) ∈ spaceRunes3
      · simp only [h1, h2, h3, decide_True, decide_False, if_true, Bool.false_eq_true, if_false,
          OfNat.ofNat_ne_zero, not_true_eq_false, and_false]
      · simp only [h1, h2, h3, decide_False, Bool.false_eq_true, if_false, not_false_eq_true,
          and_self, Bool.not_eq_true]

/-- A leading part of a string that does not start with white space does not
start with white space either. -/
theorem leadingSpaceWidth_of_append (p t : Str) (h : leadingSpaceWidth (p ++ t) = 0) :
    leadingSpaceWidth p = 0 := by
  cases p with
  | nil => rfl
  | cons b rest =>
    rw [List.cons_append, leadingSpaceWidth_cons_eq_zero] at h
    rw [leadingSpaceWidth_cons_eq_zero]
    obtain ⟨hb, h2, h3⟩ := h
    have hall2 : ∀ L ∈ spaceRunes2, L.length = 2 := by decide
    have hall3 : ∀ L ∈ spaceRunes3, L.length = 3 := by decide
    refine ⟨hb, ?_, ?_⟩
    · intro hm
      have hl := hall2 _ hm
      rw [List.length_take] at hl
      apply h2
      rw [← List.cons_append, List.take_append_of_le_length (by omega)]
      exact hm
    · intro hm
      have hl := hall3 _ hm
      rw [List.length_take] at hl
      apply h3
      rw [← List.cons_append, List.take_append_of_le_length (by omega)]
      exact hm

/-- `TrimSpace` is idempotent: a trimmed string is left alone. -/
theorem TrimSpace_idem (s : Str) : TrimSpace (TrimSpace s) = TrimSpace s := by
  have hl := trimLeftLoop_done s.length s (le_refl _)
  obtain ⟨hr, m, hm⟩ := trimRightLoop_done (trimLeftLoop s.length s).length
    (trimLeftLoop s.length s).reverse (by simp)
  have hT : TrimSpace s = (trimRightLoop (trimLeftLoop s.length s).length
      (trimLeftLoop s.length s).reverse).reverse := rfl
  set l := trimLeftLoop s.length s with hldef
  set p := (trimRightLoop l.length l.reverse).reverse with hpdef
  have hpre : ∃ t, l = p ++ t := by
    refine ⟨((l.reverse).take m).reverse, ?_⟩
    rw [hpdef, hm, ← List.reverse_append, List.take_append_drop, List.reverse_reverse]
  obtain ⟨t, ht⟩ := hpre
  have hp0 : leadingSpaceWidth p = 0 := leadingSpaceWidth_of_append p t (by rw [← ht]; exact hl)
  have hp1 : trailingSpaceWidth p.reverse = 0 := by
    rw [hpdef, List.reverse_reverse]; exact hr
  rw [hT]
  show TrimSpace p = p
  unfold TrimSpace
  simp only [trimLeftLoop_of_zero _ p hp0, trimRightLoop_of_zero _ p.reverse hp1,
    List.reverse_reverse]

theorem keepFirstOccurrences_mem (l : List Str) : ∀ x, x ∈ keepFirstOccurrences l ↔ x ∈ l := by
  induction l with
  | nil => intro x; simp [keepFirstOccurrences]
  | cons k rest ih =>
    intro x
    simp only [keepFirstOccurrences, List.mem_cons, List.mem_filter, ih, decide_eq_true_eq]
    by_cases hx : x = k <;> simp [hx]

theorem keepFirstOccurrences_nodup (l : List Str) : (keepFirstOccurrences l).Nodup := by
  induction l with
  | nil => simp [keepFirstOccurrences]
  | cons k rest ih =>
    simp only [keepFirstOccurrences, List.nodup_cons, List.mem_filter, decide_eq_true_eq]
    exact ⟨fun h => h.2 rfl, ih.filter _⟩

theorem keepFirstOccurrences_sublist (l : List Str) : (keepFirstOccurrences l).Sublist l := by
  induction l with
  | nil => simp [keepFirstOccurrences]
  | cons k rest ih =>
    simp only [keepFirstOccurrences]
    exact ((List.filter_sublist _).trans ih).cons₂ k

/-- An entry appended to a list is kept exactly when it has not occurred
before. -/
theorem keepFirstOccurrences_snoc (l : List Str) (k : Str) :
    keepFirstOccurrences (l ++ [k]) =
      if k ∈ l then keepFirstOccurrences l else keepFirstOccurrences l ++ [k] := by
  induction l with
  | nil => simp [keepFirstOccurrences]
  | cons a rest ih =>
    rw [List.cons_append, keepFirstOccurrences, ih]
    by_cases hka : k = a
    · subst hka
      by_cases hk : k ∈ rest
      · simp [hk, keepFirstOccurrences]
      · simp [hk, keepFirstOccurrences, List.filter_append]
    · by_cases hk : k ∈ rest
      · simp [hk, hka, keepFirstOccurrences]
      · simp [hk, hka, keepFirstOccurrences, List.filter_append]

theorem normalizeStep_eq (acc : List Str × List Str) (raw : Str) :
    normalizeStep acc raw =
      if TrimSpace raw = [] then acc
      else if TrimSpace raw ∈ acc.2 then acc
      else (acc.1 ++ [TrimSpace raw], TrimSpace raw :: acc.2) := rfl

theorem foldl_normalizeStep_spec (rawKeys : List Str) :
    (rawKeys.foldl normalizeStep ([], [])).1 = normalizeBatchKeysSpec rawKeys ∧
    ∀ x, x ∈ (rawKeys.foldl normalizeStep ([], [])).2 ↔
      x ∈ (rawKeys.foldl normalizeStep ([], [])).1 := by
  induction rawKeys using List.reverseRecOn with
  | nil => simp [normalizeBatchKeysSpec, keepFirstOccurrences]
  | append_singleton l r ih =>
    obtain ⟨ih1, ih2⟩ := ih
    rw [List.foldl_append]
    simp only [List.foldl_cons, List.foldl_nil]
    rw [normalizeStep_eq]
    by_cases hr : TrimSpace r = []
    · simp only [hr, if_true]
      refine ⟨?_, ih2⟩
      rw [ih1]
      simp [normalizeBatchKeysSpec, hr]
    · simp only [if_neg hr]
      by_cases hseen : TrimSpace r ∈ (l.foldl normalizeStep ([], [])).2
      · simp only [if_pos hseen]
        refine ⟨?_, ih2⟩
        have hin : TrimSpace r ∈ normalizeBatchKeysSpec l := by
          rw [← ih1]; exact (ih2 _).mp hseen
        rw [ih1]
        unfold normalizeBatchKeysSpec at hin ⊢
        rw [keepFirstOccurrences_mem] at hin
        simp only [List.map_append, List.map_cons, List.map_nil, List.filter_append,
          List.filter_cons, List.filter_nil, hr, ne_eq, not_false_eq_true, decide_True, if_true]
        rw [keepFirstOccurrences_snoc, if_pos hin]
      · simp only [if_neg hseen]
        constructor
        · have hnin : TrimSpace r ∉ normalizeBatchKeysSpec l := by
            rw [← ih1]; exact fun h => hseen ((ih2 _).mpr h)
          rw [ih1]
          unfold normalizeBatchKeysSpec at hnin ⊢
          rw [keepFirstOccurrences_mem] at hnin
          simp only [List.map_append, List.map_cons, List.map_nil, List.filter_append,
            List.filter_cons, List.filter_nil, hr, ne_eq, not_false_eq_true, decide_True, if_true]
          rw [keepFirstOccurrences_snoc, if_neg hnin]
        · intro x
          simp only [List.mem_cons, List.mem_append, List.mem_singleton, ih2]
          tauto

theorem normalizeBatchKeys_eq_spec (rawKeys : List Str) :
    normalizeBatchKeys rawKeys = normalizeBatchKeysSpec rawKeys :=
  (foldl_normalizeStep_spec rawKeys).1

/-- C11: for every input list, `normalizeBatchKeys` returns exactly the list
obtained by trimming white space from each entry, dropping the entries that are
empty after trimming and keeping only the first occurrence of each remaining
value in its original relative order. The output has no duplicates and no
blank or untrimmed element, it is a sub-sequence of the trimmed inputs, its
elements are exactly the trimmed non-blank inputs, and it is no longer than the
input. -/
theorem C11_normalizeBatchKeys (rawKeys : List Str) :
    normalizeBatchKeys rawKeys = normalizeBatchKeysSpec rawKeys ∧
    (normalizeBatchKeys rawKeys).Nodup ∧
    (∀ k ∈ normalizeBatchKeys rawKeys, k ≠ [] ∧ TrimSpace k = k) ∧
    (normalizeBatchKeys rawKeys).Sublist (rawKeys.map TrimSpace) ∧
    (∀ k, k ∈ normalizeBatchKeys rawKeys ↔ k ≠ [] ∧ ∃ r ∈ rawKeys, TrimSpace r = k) ∧
    (normalizeBatchKeys rawKeys).length ≤ rawKeys.length := by
  have hmem : ∀ k, k ∈ normalizeBatchKeys rawKeys ↔ k ≠ [] ∧ ∃ r ∈ rawKeys, TrimSpace r = k := by
    intro k
    rw [normalizeBatchKeys_eq_spec]
    unfold normalizeBatchKeysSpec
    rw [keepFirstOccurrences_mem]
    simp only [List.mem_filter, List.mem_map, ne_eq, decide_eq_true_eq]
    tauto
  have hsub : (normalizeBatchKeys rawKeys).Sublist (rawKeys.map TrimSpace) := by
    rw [normalizeBatchKeys_eq_spec]
    exact (keepFirstOccurrences_sublist _).trans (List.filter_sublist _)
  refine ⟨normalizeBatchKeys_eq_spec rawKeys, ?_, ?_, hsub, hmem, ?_⟩
  · rw [normalizeBatchKeys_eq_spec]
    exact keepFirstOccurrences_nodup _
  · intro k hk
    obtain ⟨hne, r, _, hr⟩ := (hmem k).mp hk
    exact ⟨hne, by rw [← hr]; exact TrimSpace_idem r⟩
  · have := hsub.length_le
    simpa using this

/-! ### `runJob` -/

theorem runJobLoop_own (create : Nat → PoolCreateCall → Option Str) (jobID alias_ : Str)
    (totalQuota : Int) :
    ∀ (keys : List Str) (n : Nat) (j : KeyBatchCreateJobStatus), j.ID = jobID →
      runJobLoop create jobID alias_ totalQuota keys n (some j) =
        (some { j with
            Completed := j.Completed + keys.length
            Succeeded := j.Succeeded +
              ((poolOutcomes create alias_ totalQuota keys n).filter
                (fun o => o.2.isNone)).length
            Failed := j.Failed +
              ((poolOutcomes create alias_ totalQuota keys n).filter
                (fun o => o.2.isSome)).length
            Failures := j.Failures ++ failuresOf (poolOutcomes create alias_ totalQuota keys n) },
          keys.map (fun k => { key := k, alias_ := alias_, totalQuota := totalQuota }),
          true) := by
  intro keys
  induction keys with
  | nil =>
    intro n j _
    simp [runJobLoop, poolOutcomes, failuresOf]
  | cons key rest ih =>
    intro n j hj
    have hid : ¬ j.ID ≠ jobID := by simp [hj]
    cases herr : create n { key := key, alias_ := alias_, totalQuota := totalQuota } with
    | none =>
      have h1 := ih (n + 1)
        { j with Completed := j.Completed + 1, Succeeded := j.Succeeded + 1 } hj
      simp only [runJobLoop, runJobItem, if_neg hid, herr, if_true]
      rw [h1]
      simp only [poolOutcomes, herr, failuresOf, List.filter_cons, Option.isNone_none,
        Option.isSome_none, if_true, List.length_cons, List.filterMap_cons, Option.map_none',
        List.map_cons, Bool.false_eq_true, if_false, Prod.mk.injEq, Option.some.injEq, and_true]
      congr 1 <;> push_cast <;> ring
    | some msg =>
      have h1 := ih (n + 1)
        { j with
          Completed := j.Completed + 1
          Failed := j.Failed + 1
          Failures := j.Failures ++ [{ Key := key, Error := msg }] } hj
      simp only [runJobLoop, runJobItem, if_neg hid, herr, if_true]
      rw [h1]
      simp only [poolOutcomes, herr, failuresOf, List.filter_cons, Option.isNone_some,
        Option.isSome_some, if_true, List.length_cons, List.filterMap_cons, Option.map_some',
        List.map_cons, Bool.false_eq_true, if_false, Prod.mk.injEq, Option.some.injEq, and_true,
        List.append_assoc, List.singleton_append]
      congr 1 <;> push_cast <;> ring

/-- The service after a `Start` that is accepted while no job is running. -/
theorem Start_accepted (s : KeyBatchCreateJobService) (rawKeys : List Str) (alias_ : Str)
    (totalQuota : Int) (newID : Str) (now : Int)
    (hidle : ∀ j, s.job = some j → j.Status ≠ ascii "running")
    (hne : normalizeBatchKeys rawKeys ≠ []) (hmax : (normalizeBatchKeys rawKeys).length ≤ 5000) :
    (s.Start rawKeys alias_ totalQuota newID now).2 =
      { job := some
          { ID := newID, Status := ascii "running", Error := [],
            Total := (normalizeBatchKeys rawKeys).length, Completed := 0, Succeeded := 0,
            Failed := 0, Failures := [], StartedAt := some now, EndedAt := none }
        workers := s.workers ++
          [{ jobID := newID, keys := normalizeBatchKeys rawKeys,
             alias_ := if TrimSpace alias_ = [] then ascii "Default" else alias_,
             totalQuota := totalQuota }] } := by
  unfold KeyBatchCreateJobService.Start
  have h0 : ¬ (normalizeBatchKeys rawKeys).length = 0 := by
    rw [List.length_eq_zero]; exact hne
  have h1 : ¬ (normalizeBatchKeys rawKeys).length > maxBatchCreateKeys := by
    simp only [maxBatchCreateKeys]; omega
  simp only [if_neg h0, if_neg h1]
  cases hjob : s.job with
  | none => rfl
  | some j =>
    simp only [if_neg (hidle j hjob)]
    rfl

/-- The iterations of `runJobLoop` on the goroutine's own record are
transitions of the job service. -/
theorem runJobLoop_reachable (create : Nat → PoolCreateCall → Option Str) :
    ∀ (keys : List Str) (n : Nat) (j : KeyBatchCreateJobStatus) (w : runJobWorker),
      w.keys = keys → j.ID = w.jobID →
      JobReachable { job := some j, workers := [w] } →
      JobReachable
        { job := (runJobLoop create w.jobID w.alias_ w.totalQuota keys n (some j)).1
          workers := [{ w with keys := [] }] } := by
  intro keys
  induction keys with
  | nil =>
    intro n j w hk _ hr
    have : ({ w with keys := [] } : runJobWorker) = w := by
      cases w; simp only at hk; subst hk; rfl
    rw [this]
    exact hr
  | cons key rest ih =>
    intro n j w hk hj hr
    have hid : ¬ j.ID ≠ w.jobID := by simp [hj]
    have hstep := JobStep.item (some j) [] [] w key rest
      (create n { key := key, alias_ := w.alias_, totalQuota := w.totalQuota }) hk
    have hcont : (runJobItem (some j) w.jobID key
        (create n { key := key, alias_ := w.alias_, totalQuota := w.totalQuota })).2 = true := by
      cases create n { key := key, alias_ := w.alias_, totalQuota := w.totalQuota } <;>
        simp [runJobItem, hid]
    obtain ⟨j', hj', hj'id⟩ : ∃ j', (runJobItem (some j) w.jobID key
        (create n { key := key, alias_ := w.alias_, totalQuota := w.totalQuota })).1 = some j' ∧
        j'.ID = w.jobID := by
      cases create n { key := key, alias_ := w.alias_, totalQuota := w.totalQuota } <;>
        simp [runJobItem, hid, hj]
    simp only [hcont, if_true, List.nil_append, List.append_nil, hj'] at hstep
    have hr' := JobReachable.step _ _ hr hstep
    have := ih (n + 1) j' { w with keys := rest } rfl hj'id hr'
    simp only [runJobLoop, hcont, if_true, hj']
    exact this

/-- C12: for every `Start` that is accepted while no job is running, with
normalised items k_1..k_n, and every outcome function of the pool-key
collaborator, `Start` launches one goroutine for these items, and `runJob`
invokes the collaborator exactly once per item, in the order k_1..k_n, with the
label and the quota (a failure never stops later items); when it returns the
job record has the id of the job, status completed, the start and the end
instants, completed = total = n, succeeded = the number of items whose
creation succeeded, failed = the number whose creation failed, and failures =
the failing items in item order, each with the collaborator's error text. From
a reachable state every iteration and the end are transitions of the job
service, so the final state is reachable too. -/
theorem C12_runJob_completes (s : KeyBatchCreateJobService) (rawKeys : List Str) (alias_ : Str)
    (totalQuota : Int) (newID : Str) (now endedAt : Int)
    (create : Nat → PoolCreateCall → Option Str)
    (hidle : ∀ j, s.job = some j → j.Status ≠ ascii "running")
    (hne : normalizeBatchKeys rawKeys ≠ []) (hmax : (normalizeBatchKeys rawKeys).length ≤ 5000) :
    (s.Start rawKeys alias_ totalQuota newID now).2.workers =
      s.workers ++
        [{ jobID := newID, keys := normalizeBatchKeys rawKeys,
           alias_ := if TrimSpace alias_ = [] then ascii "Default" else alias_,
           totalQuota := totalQuota }] ∧
    runJob create
        { jobID := newID, keys := normalizeBatchKeys rawKeys,
          alias_ := if TrimSpace alias_ = [] then ascii "Default" else alias_,
          totalQuota := totalQuota }
        (s.Start rawKeys alias_ totalQuota newID now).2.job endedAt =
      (some
        { ID := newID, Status := ascii "completed", Error := [],
          Total := (normalizeBatchKeys rawKeys).length,
          Completed := (normalizeBatchKeys rawKeys).length,
          Succeeded :=
            ((poolOutcomes create (if TrimSpace alias_ = [] then ascii "Default" else alias_)
              totalQuota (normalizeBatchKeys rawKeys) 0).filter (fun o => o.2.isNone)).length,
          Failed :=
            ((poolOutcomes create (if TrimSpace alias_ = [] then ascii "Default" else alias_)
              totalQuota (normalizeBatchKeys rawKeys) 0).filter (fun o => o.2.isSome)).length,
          Failures := failuresOf
            (poolOutcomes create (if TrimSpace alias_ = [] then ascii "Default" else alias_)
              totalQuota (normalizeBatchKeys rawKeys) 0),
          StartedAt := some now, EndedAt := some endedAt },
        (normalizeBatchKeys rawKeys).map (fun k =>
          { key := k, alias_ := if TrimSpace alias_ = [] then ascii "Default" else alias_,
            totalQuota := totalQuota })) ∧
    (JobReachable s →
      JobReachable
        { job := (runJob create
            { jobID := newID, keys := normalizeBatchKeys rawKeys,
              alias_ := if TrimSpace alias_ = [] then ascii "Default" else alias_,
              totalQuota := totalQuota }
            (s.Start rawKeys alias_ totalQuota newID now).2.job endedAt).1
          workers := [] }) := by
  have hstart := Start_accepted s rawKeys alias_ totalQuota newID now hidle hne hmax
  have hloop := runJobLoop_own create newID
    (if TrimSpace alias_ = [] then ascii "Default" else alias_) totalQuota
    (normalizeBatchKeys rawKeys) 0
    { ID := newID, Status := ascii "running", Error := [],
      Total := (normalizeBatchKeys rawKeys).length, Completed := 0, Succeeded := 0,
      Failed := 0, Failures := [], StartedAt := some now, EndedAt := none } rfl
  refine ⟨by rw [hstart], ?_, ?_⟩
  · rw [hstart]
    simp only [runJob, hloop, if_true, runJobEnd, zero_add, List.nil_append]
  · intro hreach
    have hnil : s.workers = [] := by
      by_contra hw
      obtain ⟨j, hj, hjr⟩ := (JobInv_of_reachable hreach).running_iff.mpr hw
      exact hidle j hj hjr
    have hr1 : JobReachable (s.Start rawKeys alias_ totalQuota newID now).2 :=
      JobReachable.step _ _ hreach (JobStep.start _ _ _ _ _ _)
    rw [hstart, hnil, List.nil_append] at hr1
    have hr2 := runJobLoop_reachable create (normalizeBatchKeys rawKeys) 0 _ _ rfl rfl hr1
    have hr3 := JobReachable.step _ _ hr2 (JobStep.finish _ [] [] _ endedAt rfl)
    rw [hstart]
    simp only [runJob, hloop, if_true]
    simpa [hloop] using hr3

/-- Witness of C12: two items, the first rejected by the collaborator (as in
the repository's test of failures). -/
theorem C12_witness :
    runJob demoCreate
        { jobID := ascii "job-1", keys := [ascii "tvly-exists", ascii "tvly-new"],
          alias_ := ascii "Default", totalQuota := 1000 }
        (NewKeyBatchCreateJobService.Start [ascii "tvly-exists", ascii "tvly-new"] [] 1000
          (ascii "job-1") 99).2.job 120 =
      (some
        { ID := ascii "job-1", Status := ascii "completed", Error := [], Total := 2,
          Completed := 2, Succeeded := 1, Failed := 1,
          Failures := [{ Key := ascii "tvly-exists", Error := ascii "key already exists" }],
          StartedAt := some 99, EndedAt := some 120 },
        [{ key := ascii "tvly-exists", alias_ := ascii "Default", totalQuota := 1000 },
         { key := ascii "tvly-new", alias_ := ascii "Default", totalQuota := 1000 }]) := by
  have hnorm : normalizeBatchKeys [ascii "tvly-exists", ascii "tvly-new"] =
      [ascii "tvly-exists", ascii "tvly-new"] := by
    set_option maxRecDepth 100000 in decide
  have h := (C12_runJob_completes NewKeyBatchCreateJobService
    [ascii "tvly-exists", ascii "tvly-new"] [] 1000 (ascii "job-1") 99 120 demoCreate
    (by intro j hj; simp [NewKeyBatchCreateJobService] at hj)
    (by rw [hnorm]; simp) (by rw [hnorm]; simp)).2.1
  rw [hnorm] at h
  rw [show (if TrimSpace ([] : Str) = [] then ascii "Default" else ([] : Str)) = ascii "Default"
    from rfl] at h
  rw [h]
  set_option maxRecDepth 100000 in decide

/-! ### The usage service -/

/-- The row of a key after an upsert. -/
theorem usageRow_Upsert (db : UsageDB) (row : DistributedKeyUsageDaily) (when_ now : Int)
    (id : Nat) (d : Int) :
    usageRow (db.Upsert row when_ now) id d =
      if row.DistributedKeyID = id ∧ row.Date = d then
        match usageRow db id d with
        | some r =>
          some { r with
            TotalCount := r.TotalCount + row.TotalCount
            Status2xx := r.Status2xx + row.Status2xx
            Status4xx := r.Status4xx + row.Status4xx
            Status5xx := r.Status5xx + row.Status5xx
            UpdatedAt := when_ }
        | none => some { row with ID := db.nextID, UpdatedAt := now }
      else usageRow db id d := by
  unfold UsageDB.Upsert usageRow
  by_cases hany : db.rows.any (fun r => sameUsageKey r row) = true
  · rw [if_pos hany]
    simp only [List.find?_map]
    have hcomp : ((fun r : DistributedKeyUsageDaily => decide (r.DistributedKeyID = id ∧ r.Date = d)) ∘
        fun r =>
          if sameUsageKey r row = true then
            { r with
              TotalCount := r.TotalCount + row.TotalCount
              Status2xx := r.Status2xx + row.Status2xx
              Status4xx := r.Status4xx + row.Status4xx
              Status5xx := r.Status5xx + row.Status5xx
              UpdatedAt := when_ }
          else r) =
        fun r => decide (r.DistributedKeyID = id ∧ r.Date = d) := by
      funext r
      simp only [Function.comp]
      split <;> rfl
    rw [hcomp]
    by_cases hkey : row.DistributedKeyID = id ∧ row.Date = d
    · rw [if_pos hkey]
      cases hf : db.rows.find? (fun r => decide (r.DistributedKeyID = id ∧ r.Date = d)) with
      | none =>
        exfalso
        rw [List.any_eq_true] at hany
        obtain ⟨r, hr, hs⟩ := hany
        have := List.find?_eq_none.mp hf r hr
        simp only [sameUsageKey, decide_eq_true_eq] at hs this
        exact this ⟨hs.1.trans hkey.1, hs.2.trans hkey.2⟩
      | some r =>
        have hp := List.find?_some hf
        simp only [decide_eq_true_eq] at hp
        have hs : sameUsageKey r row = true := by
          simp only [sameUsageKey, decide_eq_true_eq]
          exact ⟨hp.1.trans hkey.1.symm, hp.2.trans hkey.2.symm⟩
        simp only [Option.map_some', hs, if_true]
    · rw [if_neg hkey]
      cases hf : db.rows.find? (fun r => decide (r.DistributedKeyID = id ∧ r.Date = d)) with
      | none => rfl
      | some r =>
        have hp := List.find?_some hf
        simp only [decide_eq_true_eq] at hp
        have hs : ¬ sameUsageKey r row = true := by
          simp only [sameUsageKey, decide_eq_true_eq]
          intro h
          exact hkey ⟨h.1.symm.trans hp.1, h.2.symm.trans hp.2⟩
        simp [hs]
  · rw [if_neg hany]
    simp only [List.find?_append]
    by_cases hkey : row.DistributedKeyID = id ∧ row.Date = d
    · rw [if_pos hkey]
      have hnone : db.rows.find? (fun r => decide (r.DistributedKeyID = id ∧ r.Date = d)) = none := by
        rw [List.find?_eq_none]
        intro r hr hp
        apply hany
        rw [List.any_eq_true]
        refine ⟨r, hr, ?_⟩
        simp only [decide_eq_true_eq] at hp
        simp only [sameUsageKey, decide_eq_true_eq]
        exact ⟨hp.1.trans hkey.1.symm, hp.2.trans hkey.2.symm⟩
      rw [hnone]
      simp [List.find?, hkey.1, hkey.2]
    · rw [if_neg hkey]
      have : ¬ (row.DistributedKeyID = id ∧ row.Date = d) := hkey
      simp [List.find?, this]

/-- The unique index survives an upsert. -/
theorem Unique_Upsert (db : UsageDB) (row : DistributedKeyUsageDaily) (when_ now : Int)
    (h : db.Unique) : (db.Upsert row when_ now).Unique := by
  unfold UsageDB.Upsert UsageDB.Unique at *
  by_cases hany : db.rows.any (fun r => sameUsageKey r row) = true
  · rw [if_pos hany]
    simp only [List.map_map]
    have hcomp : ((fun r : DistributedKeyUsageDaily => (r.DistributedKeyID, r.Date)) ∘
        fun r =>
          if sameUsageKey r row = true then
            { r with
              TotalCount := r.TotalCount + row.TotalCount
              Status2xx := r.Status2xx + row.Status2xx
              Status4xx := r.Status4xx + row.Status4xx
              Status5xx := r.Status5xx + row.Status5xx
              UpdatedAt := when_ }
          else r) =
        fun r => (r.DistributedKeyID, r.Date) := by
      funext r
      simp only [Function.comp]
      split <;> rfl
    rw [hcomp]
    exact h
  · rw [if_neg hany]
    simp only [List.map_append, List.map_cons, List.map_nil]
    rw [List.nodup_append]
    refine ⟨h, List.nodup_singleton _, ?_⟩
    intro k hk hk'
    rw [List.mem_singleton] at hk'
    subst hk'
    rw [List.mem_map] at hk
    obtain ⟨r, hr, hrk⟩ := hk
    apply hany
    rw [List.any_eq_true]
    refine ⟨r, hr, ?_⟩
    simp only [Prod.mk.injEq] at hrk
    simp only [sameUsageKey, decide_eq_true_eq]
    exact hrk

/-- The counters of the row that `Record` proposes. -/
theorem recordRow_fields (id : Nat) (statusCode when_ : Int) :
    (recordRow id statusCode when_).DistributedKeyID = id ∧
    (recordRow id statusCode when_).Date = utcDate when_ ∧
    (recordRow id statusCode when_).TotalCount = 1 ∧
    (recordRow id statusCode when_).Status2xx =
      (if 200 ≤ statusCode ∧ statusCode < 300 then 1 else 0) ∧
    (recordRow id statusCode when_).Status4xx =
      (if 400 ≤ statusCode ∧ statusCode < 500 then 1 else 0) ∧
    (recordRow id statusCode when_).Status5xx = (if 500 ≤ statusCode then 1 else 0) := by
  unfold recordRow
  by_cases h2 : statusCode ≥ 200 ∧ statusCode < 300
  · have h4 : ¬ (400 ≤ statusCode ∧ statusCode < 500) := by omega
    have h5 : ¬ 500 ≤ statusCode := by omega
    have h2' : 200 ≤ statusCode ∧ statusCode < 300 := h2
    simp only [if_pos h2, if_pos h2', if_neg h4, if_neg h5, and_self]
  · have h2' : ¬ (200 ≤ statusCode ∧ statusCode < 300) := h2
    by_cases h4 : statusCode ≥ 400 ∧ statusCode < 500
    · have h5 : ¬ 500 ≤ statusCode := by omega
      have h4' : 400 ≤ statusCode ∧ statusCode < 500 := h4
      simp only [if_neg h2, if_pos h4, if_neg h2', if_pos h4', if_neg h5, and_self]
    · have h4' : ¬ (400 ≤ statusCode ∧ statusCode < 500) := h4
      by_cases h5 : statusCode ≥ 500
      · have h5' : 500 ≤ statusCode := h5
        simp only [if_neg h2, if_neg h4, if_pos h5, if_neg h2', if_neg h4', if_pos h5', and_self]
      · have h5' : ¬ 500 ≤ statusCode := h5
        simp only [if_neg h2, if_neg h4, if_neg h5, if_neg h2', if_neg h4', if_neg h5', and_self]

/-- The row of a key with an identity after one call of `Record`. -/
theorem usageRow_Record (db : UsageDB) (cid : Nat) (statusCode when_ now : Int)
    (fault : Option Str) (id : Nat) (d : Int) (hid : id ≠ 0) :
    usageRow (Record db cid statusCode when_ now fault).2 id d =
      if fault = none ∧ cid = id ∧ utcDate when_ = d then
        match usageRow db id d with
        | some r =>
          some { r with
            TotalCount := r.TotalCount + 1
            Status2xx := r.Status2xx + (if 200 ≤ statusCode ∧ statusCode < 300 then 1 else 0)
            Status4xx := r.Status4xx + (if 400 ≤ statusCode ∧ statusCode < 500 then 1 else 0)
            Status5xx := r.Status5xx + (if 500 ≤ statusCode then 1 else 0)
            UpdatedAt := when_ }
        | none => some { recordRow cid statusCode when_ with ID := db.nextID, UpdatedAt := now }
      else usageRow db id d := by
  obtain ⟨f1, f2, f3, f4, f5, f6⟩ := recordRow_fields cid statusCode when_
  unfold Record
  by_cases h0 : cid = 0
  · have : ¬ (fault = none ∧ cid = id ∧ utcDate when_ = d) := by
      rintro ⟨_, h, _⟩; exact hid (h.symm.trans h0)
    rw [if_pos h0, if_neg this]
  · rw [if_neg h0]
    cases fault with
    | some e => simp
    | none =>
      simp only [usageRow_Upsert, f1, f2, f3, f4, f5, f6, true_and]

/-- Counting the calls of a sequence with one more call at its end. -/
theorem callsOn_snoc (calls : List RecordCall) (c : RecordCall) (id : Nat) (d : Int)
    (p : Int → Bool) :
    callsOn (calls ++ [c]) id d p =
      callsOn calls id d p +
        (if (c.fault = none ∧ c.distributedKeyID = id ∧ utcDate c.when_ = d) ∧
            p c.statusCode = true then 1 else 0) := by
  unfold callsOn
  rw [List.filter_append, List.length_append]
  congr 1
  by_cases h : (c.fault = none ∧ c.distributedKeyID = id ∧ utcDate c.when_ = d) ∧
      p c.statusCode = true
  · rw [if_pos h]
    simp [List.filter, h.1, h.2]
  · rw [if_neg h]
    have : (decide (c.fault = none ∧ c.distributedKeyID = id ∧ utcDate c.when_ = d) &&
        p c.statusCode) = false := by
      rw [Bool.and_eq_false_iff]
      by_cases h1 : c.fault = none ∧ c.distributedKeyID = id ∧ utcDate c.when_ = d
      · right
        simpa using fun hp => h ⟨h1, hp⟩
      · left
        simpa using h1
    simp only [List.filter, this, List.length_nil]

/-- The table after a sequence of calls with one more call at its end. -/
theorem runRecord_snoc (db : UsageDB) (calls : List RecordCall) (c : RecordCall) :
    runRecord db (calls ++ [c]) =
      (Record (runRecord db calls) c.distributedKeyID c.statusCode c.when_ c.now c.fault).2 := by
  simp [runRecord, List.foldl_append]

theorem UsageCounted_runRecord (calls : List RecordCall) (id : Nat) (d : Int) (hid : id ≠ 0) :
    UsageCounted calls id d (usageRow (runRecord UsageDB.empty calls) id d) := by
  induction calls using List.reverseRecOn with
  | nil => simp [UsageCounted, runRecord, usageRow, UsageDB.empty, callsOn]
  | append_singleton calls c ih =>
    rw [runRecord_snoc, usageRow_Record _ _ _ _ _ _ _ _ hid]
    obtain ⟨f1, f2, f3, f4, f5, f6⟩ := recordRow_fields c.distributedKeyID c.statusCode c.when_
    by_cases happ : c.fault = none ∧ c.distributedKeyID = id ∧ utcDate c.when_ = d
    · rw [if_pos happ]
      have hs : ∀ p : Int → Bool, callsOn (calls ++ [c]) id d p =
          callsOn calls id d p + (if p c.statusCode = true then 1 else 0) := by
        intro p
        rw [callsOn_snoc]
        simp only [happ, and_self, true_and]
      cases hrow : usageRow (runRecord UsageDB.empty calls) id d with
      | none =>
        rw [hrow] at ih
        simp only [UsageCounted] at ih ⊢
        have hz : ∀ p : Int → Bool, callsOn calls id d p = 0 := by
          intro p
          unfold callsOn at ih ⊢
          rw [List.length_eq_zero, List.filter_eq_nil_iff] at ih ⊢
          intro a ha
          have := ih a ha
          simp only [Bool.and_true] at this
          simp only [Bool.and_eq_true, not_and]
          intro h
          exact absurd h this
        simp only [hs, hz, zero_add, f3, f4, f5, f6, decide_eq_true_eq, if_true]
        refine ⟨by omega, by simp, ?_, ?_, ?_, ?_⟩ <;> split_ifs <;> simp <;> omega
      | some r =>
        rw [hrow] at ih
        simp only [UsageCounted] at ih ⊢
        obtain ⟨i0, i1, i2, i4, i5, i6⟩ := ih
        simp only [hs, decide_eq_true_eq, if_true]
        rw [i1, i2, i4, i5] at *
        refine ⟨by omega, by push_cast; ring, ?_, ?_, ?_, ?_⟩ <;> split_ifs <;>
          push_cast <;> omega
    · rw [if_neg happ]
      have hsame : ∀ p, callsOn (calls ++ [c]) id d p = callsOn calls id d p := by
        intro p
        rw [callsOn_snoc]
        simp [happ]
      unfold UsageCounted at ih ⊢
      simp only [hsame]
      exact ih

/-- Every call of `Record` keeps the unique index. -/
theorem Unique_runRecord (calls : List RecordCall) : (runRecord UsageDB.empty calls).Unique := by
  induction calls using List.reverseRecOn with
  | nil => simp [runRecord, UsageDB.Unique, UsageDB.empty]
  | append_singleton calls c ih =>
    rw [runRecord_snoc]
    unfold Record
    split
    · exact ih
    · cases c.fault with
      | some e => exact ih
      | none => exact Unique_Upsert _ _ _ _ ih

/-- No row of the table belongs to the identity 0. -/
theorem runRecord_no_zero (calls : List RecordCall) :
    ∀ r ∈ (runRecord UsageDB.empty calls).rows, r.DistributedKeyID ≠ 0 := by
  induction calls using List.reverseRecOn with
  | nil => simp [runRecord, UsageDB.empty]
  | append_singleton calls c ih =>
    rw [runRecord_snoc]
    unfold Record
    split
    · exact ih
    · rename_i h0
      cases c.fault with
      | some e => exact ih
      | none =>
        simp only [UsageDB.Upsert]
        split
        · intro r hr
          simp only [List.mem_map] at hr
          obtain ⟨r0, hr0, rfl⟩ := hr
          have := ih r0 hr0
          split <;> exact this
        · intro r hr
          simp only [List.mem_append, List.mem_singleton] at hr
          rcases hr with hr | rfl
          · exact ih r hr
          · simpa [(recordRow_fields c.distributedKeyID c.statusCode c.when_).1] using h0

/-- C13 as worded fails for the 5xx class 500..599: after two calls of
identity 7 on day 0 with the status codes 600 and 999 the row of (7, day 0)
holds the total 2 and the 5xx counter 2, while none of the calls has a status
code in 500..599. -/
theorem C13_counterexample :
    usageRow (runRecord UsageDB.empty beyond5xxCalls) 7 0 =
      some { ID := 1, DistributedKeyID := 7, Date := 0, TotalCount := 2, Status2xx := 0,
             Status4xx := 0, Status5xx := 2, UpdatedAt := 2 } ∧
    callsOn beyond5xxCalls 7 0 (fun _ => true) = 2 ∧
    callsOn beyond5xxCalls 7 0 (fun sc => decide (500 ≤ sc ∧ sc ≤ 599)) = 0 := by
  decide

/-- C13, amended: starting from the empty table, after any sequence of `Record`
calls, for every identity other than 0 and every UTC date, the table has a row
for the pair exactly when the store accepted at least one call of that identity
on that date, and then the row's total is the number of these calls and its
2xx, 4xx and 5xx counters are the numbers of these calls with a status code in
200..299, in 400..499 and from 500 on, 600 and above included, so that
2xx + 4xx + 5xx is at most the total. The table keeps one row per (identity,
date) and holds no row of the identity 0: a `Record` call with identity 0
returns no error and leaves the table as it was. -/
theorem C13_record_counts (calls : List RecordCall) (id : Nat) (d : Int) (hid : id ≠ 0) :
    (match usageRow (runRecord UsageDB.empty calls) id d with
      | some r =>
        0 < callsOn calls id d (fun _ => true) ∧
        r.TotalCount = callsOn calls id d (fun _ => true) ∧
        r.Status2xx = callsOn calls id d (fun sc => decide (200 ≤ sc ∧ sc < 300)) ∧
        r.Status4xx = callsOn calls id d (fun sc => decide (400 ≤ sc ∧ sc < 500)) ∧
        r.Status5xx = callsOn calls id d (fun sc => decide (500 ≤ sc)) ∧
        r.Status2xx + r.Status4xx + r.Status5xx ≤ r.TotalCount
      | none => callsOn calls id d (fun _ => true) = 0) ∧
    (runRecord UsageDB.empty calls).Unique ∧
    (∀ r ∈ (runRecord UsageDB.empty calls).rows, r.DistributedKeyID ≠ 0) ∧
    (∀ (db : UsageDB) (statusCode when_ now : Int) (fault : Option Str),
      Record db 0 statusCode when_ now fault = (none, db)) :=
  ⟨UsageCounted_runRecord calls id d hid, Unique_runRecord calls, runRecord_no_zero calls,
    fun _ _ _ _ _ => rfl⟩

/-- Witness of C13: four calls of identity 7 on day 0 with the codes 200, 404,
503 and 302, and one call without identity. -/
theorem C13_witness :
    usageRow (runRecord UsageDB.empty demoCalls) 7 0 =
      some { ID := 1, DistributedKeyID := 7, Date := 0, TotalCount := 4, Status2xx := 1,
             Status4xx := 1, Status5xx := 1, UpdatedAt := 9 } ∧
    callsOn demoCalls 7 0 (fun _ => true) = 4 ∧
    (runRecord UsageDB.empty demoCalls).rows.length = 1 ∧
    (runRecord UsageDB.empty demoCalls).Unique :=
  ⟨by decide, by decide, by decide, (C13_record_counts demoCalls 7 0 (by decide)).2.1⟩

/-- C14 as worded fails: the status code 600 is counted in the 5xx class. -/
theorem C14_counterexample :
    Record UsageDB.empty 7 600 0 0 none =
      (none,
        { rows := [{ ID := 1, DistributedKeyID := 7, Date := 0, TotalCount := 1, Status2xx := 0,
                     Status4xx := 0, Status5xx := 1, UpdatedAt := 0 }]
          nextID := 2 }) := by
  decide

/-- C14, amended: for every table, identity other than 0 and integer status
code, a `Record` call that the store accepts returns no error and leaves the
row of (identity, UTC date of `when`) with the total one higher than before (a
missing row counting as zeros) and with one higher 2xx counter exactly for the
codes 200..299, 4xx counter exactly for 400..499, and 5xx counter exactly for
the codes from 500 on, 600 and above included; for the remaining codes (below
200, or 300..399) no class counter changes. At most one class counter changes,
and every row of another identity or date is as before. -/
theorem C14_record_classes (db : UsageDB) (id : Nat) (statusCode when_ now : Int)
    (hid : id ≠ 0) :
    (Record db id statusCode when_ now none).1 = none ∧
    (∃ r, usageRow (Record db id statusCode when_ now none).2 id (utcDate when_) = some r ∧
      r.TotalCount = ((usageRow db id (utcDate when_)).map (fun x => x.TotalCount)).getD 0 + 1 ∧
      r.Status2xx = ((usageRow db id (utcDate when_)).map (fun x => x.Status2xx)).getD 0 +
        (if 200 ≤ statusCode ∧ statusCode ≤ 299 then 1 else 0) ∧
      r.Status4xx = ((usageRow db id (utcDate when_)).map (fun x => x.Status4xx)).getD 0 +
        (if 400 ≤ statusCode ∧ statusCode ≤ 499 then 1 else 0) ∧
      r.Status5xx = ((usageRow db id (utcDate when_)).map (fun x => x.Status5xx)).getD 0 +
        (if 500 ≤ statusCode then 1 else 0) ∧
      ((statusCode < 200 ∨ (300 ≤ statusCode ∧ statusCode ≤ 399)) →
        r.Status2xx = ((usageRow db id (utcDate when_)).map (fun x => x.Status2xx)).getD 0 ∧
        r.Status4xx = ((usageRow db id (utcDate when_)).map (fun x => x.Status4xx)).getD 0 ∧
        r.Status5xx = ((usageRow db id (utcDate when_)).map (fun x => x.Status5xx)).getD 0)) ∧
    ((if 200 ≤ statusCode ∧ statusCode ≤ 299 then 1 else 0) +
      (if 400 ≤ statusCode ∧ statusCode ≤ 499 then 1 else 0) +
      (if 500 ≤ statusCode then 1 else 0) ≤ 1) ∧
    (∀ (id' : Nat) (d' : Int), id' ≠ 0 → ¬ (id = id' ∧ utcDate when_ = d') →
      usageRow (Record db id statusCode when_ now none).2 id' d' = usageRow db id' d') := by
  obtain ⟨f1, f2, f3, f4, f5, f6⟩ := recordRow_fields id statusCode when_
  refine ⟨?_, ?_, ?_, ?_⟩
  · simp [Record, hid]
  · rw [usageRow_Record _ _ _ _ _ _ _ _ hid]
    simp only [and_self, if_true]
    cases usageRow db id (utcDate when_) with
    | none =>
      refine ⟨_, rfl, ?_⟩
      simp only [Option.map_none', Option.getD_none, zero_add, f3, f4, f5, f6]
      refine ⟨trivial, ?_, ?_, trivial, ?_⟩
      · split_ifs <;> first | rfl | omega
      · split_ifs <;> first | rfl | omega
      · intro h
        refine ⟨?_, ?_, ?_⟩ <;> split_ifs <;> first | rfl | omega
    | some r0 =>
      refine ⟨_, rfl, ?_⟩
      simp only [Option.map_some', Option.getD_some]
      refine ⟨trivial, ?_, ?_, trivial, ?_⟩
      · split_ifs <;> first | rfl | omega
      · split_ifs <;> first | rfl | omega
      · intro h
        refine ⟨?_, ?_, ?_⟩ <;> split_ifs <;> first | rfl | omega
  · split_ifs <;> omega
  · intro id' d' hid' hne
    rw [usageRow_Record _ _ _ _ _ _ _ _ hid']
    have : ¬ ((none : Option Str) = none ∧ id = id' ∧ utcDate when_ = d') := fun h => hne h.2
    rw [if_neg this]

/-- Witness of C14: the status code 600 on the empty table. -/
theorem C14_witness :
    ∃ r, usageRow (Record UsageDB.empty 7 600 0 0 none).2 7 (utcDate 0) = some r ∧
      r.TotalCount = 1 ∧ r.Status2xx = 0 ∧ r.Status4xx = 0 ∧ r.Status5xx = 1 := by
  obtain ⟨r, h, ht, h2, h4, h5, _⟩ := (C14_record_classes UsageDB.empty 7 600 0 0 (by decide)).2.1
  refine ⟨r, h, ?_, ?_, ?_, ?_⟩
  · rw [ht]; decide
  · rw [h2]; decide
  · rw [h4]; decide
  · rw [h5]; decide

/-- The rows that `Series` reads, sorted by date: a permutation of the rows
that satisfy the condition, in ascending order of date. -/
theorem insertionSort_usage (l : List DistributedKeyUsageDaily) :
    (l.insertionSort (fun a b => a.Date ≤ b.Date)).Perm l ∧
    (l.insertionSort (fun a b => a.Date ≤ b.Date)).Pairwise (fun a b => a.Date ≤ b.Date) := by
  haveI : IsTotal DistributedKeyUsageDaily (fun a b => a.Date ≤ b.Date) :=
    ⟨fun a b => le_total a.Date b.Date⟩
  haveI : IsTrans DistributedKeyUsageDaily (fun a b => a.Date ≤ b.Date) :=
    ⟨fun _ _ _ h1 h2 => le_trans h1 h2⟩
  exact ⟨List.perm_insertionSort _ l, List.sorted_insertionSort _ l⟩

/-- Under the unique index the rows of one identity have pairwise different
dates. -/
theorem Unique_dates (db : UsageDB) (h : db.Unique) (id : Nat) (start : Int) :
    (db.rows.filter (seriesWhere id start)).Pairwise (fun a b => a.Date ≠ b.Date) := by
  unfold UsageDB.Unique at h
  rw [List.Nodup, List.pairwise_map] at h
  have h2 := h.sublist (List.filter_sublist (p := seriesWhere id start) db.rows)
  refine List.Pairwise.imp_of_mem ?_ h2
  intro a b ha hb hne hd
  have ha2 := (List.mem_filter.mp ha).2
  have hb2 := (List.mem_filter.mp hb).2
  simp only [seriesWhere, decide_eq_true_eq] at ha2 hb2
  apply hne
  rw [Prod.mk.injEq]
  exact ⟨ha2.1.trans hb2.1.symm, hd⟩

/-- Within the covered range the model of `Series` answers. -/
theorem seriesCovered_of_bounds (db : UsageDB) (id : Nat) (n now : Int) (hn : 1 ≤ n)
    (hstart : 0 ≤ utcDate now - (n - 1)) (htoday : utcDate now ≤ lastFourDigitDay)
    (hrows : ∀ r ∈ db.rows, r.DistributedKeyID = id → 0 ≤ r.Date ∧ r.Date ≤ lastFourDigitDay) :
    seriesCovered db id n now = true := by
  unfold seriesCovered fourDigitYear
  simp only [Bool.and_eq_true, decide_eq_true_eq, List.all_eq_true, Bool.or_eq_true]
  refine ⟨⟨⟨by omega, by omega⟩, ⟨by omega, htoday⟩⟩, ?_⟩
  intro r hr
  by_cases hid : r.DistributedKeyID = id
  · exact Or.inr (hrows r hr hid)
  · exact Or.inl hid

/-- C15 as worded fails: with the clock on day 10 and `days` = 1, `Series`
returns the stored row dated day 11, one day after today. -/
theorem C15_counterexample :
    utcDate (10 * nanosPerDay) = 10 ∧
    Series futureDB 7 1 (10 * nanosPerDay) none =
      some (.ok
        [ { Date := 10, TotalCount := 2, Status2xx := 2, Status4xx := 0, Status5xx := 0 },
          { Date := 11, TotalCount := 1, Status2xx := 1, Status4xx := 0, Status5xx := 0 } ]) := by
  decide

/-- C15, amended: with n = `days` if `days` > 0 and n = 30 otherwise and today
the UTC date of the clock, for every table that satisfies its unique index and
whose rows of the identity are dated in the years 0001 to 9999, and every
identity, `days` value and instant of the clock such that today is not after
9999-12-31 and today-(n-1) is not before 0001-01-01, a `Series` query that the
store answers returns exactly the stored rows of the identity dated today-(n-1)
or later, each once, as points in strictly ascending order of date. No row
dated before today-(n-1) is returned; a row dated after today is returned as
well; when the table holds no row dated after today, the result is exactly the
rows dated from today-(n-1) to today. -/
theorem C15_series_lower_bound (db : UsageDB) (id : Nat) (days now : Int) (hu : db.Unique)
    (hstart : 0 ≤ utcDate now - ((if days ≤ 0 then 30 else days) - 1))
    (htoday : utcDate now ≤ lastFourDigitDay)
    (hrows : ∀ r ∈ db.rows, r.DistributedKeyID = id → 0 ≤ r.Date ∧ r.Date ≤ lastFourDigitDay) :
    ∃ pts, Series db id days now none = some (.ok pts) ∧
      (pts.map (fun p => p.Date)).Pairwise (fun a b => a < b) ∧
      pts.Perm
        ((db.rows.filter (fun r =>
            decide (r.DistributedKeyID = id ∧
              utcDate now - ((if days ≤ 0 then 30 else days) - 1) ≤ r.Date))).map usagePoint) ∧
      (∀ p, p ∈ pts ↔
        ∃ r ∈ db.rows, r.DistributedKeyID = id ∧
          utcDate now - ((if days ≤ 0 then 30 else days) - 1) ≤ r.Date ∧ usagePoint r = p) ∧
      ((∀ r ∈ db.rows, r.Date ≤ utcDate now) →
        ∀ p, p ∈ pts ↔
          ∃ r ∈ db.rows, r.DistributedKeyID = id ∧
            utcDate now - ((if days ≤ 0 then 30 else days) - 1) ≤ r.Date ∧
            r.Date ≤ utcDate now ∧ usagePoint r = p) := by
  have hn : 1 ≤ (if days ≤ 0 then 30 else days) := by
    split_ifs <;> omega
  have hcov := seriesCovered_of_bounds db id (if days ≤ 0 then 30 else days) now hn hstart htoday
    hrows
  have hstart2 : utcDate now + (-(if days ≤ 0 then 30 else days) + 1) =
      utcDate now - ((if days ≤ 0 then 30 else days) - 1) := by ring
  have hfil : (fun r : DistributedKeyUsageDaily =>
      decide (r.DistributedKeyID = id ∧
        utcDate now - ((if days ≤ 0 then 30 else days) - 1) ≤ r.Date)) =
      seriesWhere id (utcDate now - ((if days ≤ 0 then 30 else days) - 1)) := by
    funext r
    simp only [seriesWhere, ge_iff_le]
  obtain ⟨hperm, hsorted⟩ := insertionSort_usage
    (db.rows.filter (seriesWhere id (utcDate now - ((if days ≤ 0 then 30 else days) - 1))))
  have hne := Unique_dates db hu id (utcDate now - ((if days ≤ 0 then 30 else days) - 1))
  have hne2 := (hperm.pairwise_iff (fun {a b} (h : a.Date ≠ b.Date) => Ne.symm h)).mpr hne
  have hmem : ∀ p, p ∈ ((db.rows.filter
      (seriesWhere id (utcDate now - ((if days ≤ 0 then 30 else days) - 1)))).insertionSort
        (fun a b => a.Date ≤ b.Date)).map usagePoint ↔
      ∃ r ∈ db.rows, r.DistributedKeyID = id ∧
        utcDate now - ((if days ≤ 0 then 30 else days) - 1) ≤ r.Date ∧ usagePoint r = p := by
    intro p
    rw [List.mem_map]
    constructor
    · rintro ⟨r, hr, rfl⟩
      have hr2 := List.mem_filter.mp (hperm.mem_iff.mp hr)
      have hr3 := hr2.2
      simp only [seriesWhere, decide_eq_true_eq, ge_iff_le] at hr3
      exact ⟨r, hr2.1, hr3.1, hr3.2, rfl⟩
    · rintro ⟨r, hr, h1, h2, rfl⟩
      refine ⟨r, hperm.mem_iff.mpr (List.mem_filter.mpr ⟨hr, ?_⟩), rfl⟩
      simp only [seriesWhere, decide_eq_true_eq, ge_iff_le]
      exact ⟨h1, h2⟩
  refine ⟨_, ?_, ?_, ?_, hmem, ?_⟩
  · simp only [Series, hcov, if_true, hstart2]
  · rw [List.map_map, List.pairwise_map]
    refine (hsorted.and hne2).imp ?_
    intro a b h
    exact lt_of_le_of_ne h.1 h.2
  · rw [hfil]
    exact hperm.map usagePoint
  · intro hfut p
    rw [hmem p]
    constructor
    · rintro ⟨r, hr, h1, h2, h3⟩
      exact ⟨r, hr, h1, h2, hfut r hr, h3⟩
    · rintro ⟨r, hr, h1, h2, _, h3⟩
      exact ⟨r, hr, h1, h2, h3⟩

/-- Witness of C15: the table with a row dated after today satisfies the
unique index and lies in the covered range, with the clock on day 10 and
`days` = 1. -/
theorem C15_witness :
    futureDB.Unique ∧
    ∃ pts, Series futureDB 7 1 (10 * nanosPerDay) none = some (.ok pts) ∧
      (pts.map (fun p => p.Date)).Pairwise (fun a b => a < b) := by
  have hu : futureDB.Unique := by
    unfold UsageDB.Unique
    decide
  obtain ⟨pts, h1, h2, _⟩ := C15_series_lower_bound futureDB 7 1 (10 * nanosPerDay) hu
    (by decide) (by decide) (by decide)
  exact ⟨hu, pts, h1, h2⟩

/-! ### The master key -/

/-- The length of the unpadded encoding. -/
theorem encodeGroups_length (src : Str) :
    (encodeGroups src).length = (src.length * 4 + 2) / 3 := by
  induction src using encodeGroups.induct with
  | case1 => simp [encodeGroups]
  | case2 x => simp [encodeGroups]
  | case3 x y => simp [encodeGroups]
  | case4 x y z rest ih =>
    simp only [encodeGroups, List.length_cons, ih]
    omega

theorem EncodeToString_length (src : Str) :
    (EncodeToString src).length = (src.length * 4 + 2) / 3 := by
  simp [EncodeToString, encodeGroups_length]

/-- A look-up after a row of a key that was absent has been appended. -/
theorem SettingsDB_First_append (rows : List Setting) (x : Setting)
    (h : (SettingsDB.mk rows).First x.Key = none) :
    (SettingsDB.mk (rows ++ [x])).First x.Key = some x := by
  unfold SettingsDB.First at *
  simp only at h ⊢
  rw [List.find?_append, h]
  simp [List.find?]

/-- The write of `LoadOrCreateWithDefault` is accepted when the look-up found
no row. -/
theorem SettingsDB_Create_absent (db : SettingsDB) (x : Setting) (now : Int)
    (h : db.First x.Key = none) :
    db.Create x now none =
      .ok ({ x with UpdatedAt := now }, { rows := db.rows ++ [{ x with UpdatedAt := now }] }) := by
  unfold SettingsDB.First at h
  have hany : ¬ (db.rows.any (fun r => decide (r.Key = x.Key)) = true) := by
    rw [List.any_eq_true]
    rintro ⟨r, hr, hk⟩
    exact List.find?_eq_none.mp h r hr hk
  simp only [SettingsDB.Create, if_neg hany]

/-- C16: `LoadOrCreateWithDefault` as a function of the settings table, when
the look-up reaches the store. If a master key is stored, the call returns no
error, leaves the table unchanged and `Get` returns the stored value, whatever
the preferred value is. If none is stored and the trimmed preferred value is
not empty, a store that accepts the write holds this value under the master-key
setting afterwards and `Get` returns it. If none is stored and the preferred
value is blank, then with 32 random bytes read and the write accepted, the
unpadded URL-safe base64 text of these bytes, 43 characters long, is stored
and `Get` returns it. -/
theorem C16_LoadOrCreateWithDefault (s : MasterKeyService) (db : SettingsDB) (preferred : Str)
    (env : MasterKeyEnv) (hread : env.readFault = none) :
    (∀ v, db.First masterKeySettingKey = some v →
      s.LoadOrCreateWithDefault db preferred env = (none, { key := v.Value }, db) ∧
      (s.LoadOrCreateWithDefault db preferred env).2.1.Get = v.Value) ∧
    (db.First masterKeySettingKey = none → env.writeFault = none →
      TrimSpace preferred ≠ [] →
      s.LoadOrCreateWithDefault db preferred env =
        (none, { key := TrimSpace preferred },
          { rows := db.rows ++
              [{ Key := masterKeySettingKey, Value := TrimSpace preferred,
                 UpdatedAt := env.now }] }) ∧
      (s.LoadOrCreateWithDefault db preferred env).2.1.Get = TrimSpace preferred ∧
      (s.LoadOrCreateWithDefault db preferred env).2.2.First masterKeySettingKey =
        some { Key := masterKeySettingKey, Value := TrimSpace preferred,
               UpdatedAt := env.now }) ∧
    (db.First masterKeySettingKey = none → env.writeFault = none →
      TrimSpace preferred = [] →
      ∀ buf, env.buf = some buf → buf.length = 32 →
      s.LoadOrCreateWithDefault db preferred env =
        (none, { key := EncodeToString buf },
          { rows := db.rows ++
              [{ Key := masterKeySettingKey, Value := EncodeToString buf,
                 UpdatedAt := env.now }] }) ∧
      (s.LoadOrCreateWithDefault db preferred env).2.1.Get = EncodeToString buf ∧
      (s.LoadOrCreateWithDefault db preferred env).2.2.First masterKeySettingKey =
        some { Key := masterKeySettingKey, Value := EncodeToString buf,
               UpdatedAt := env.now } ∧
      (EncodeToString buf).length = 43 ∧
      DecodeString (EncodeToString buf) = some buf) := by
  refine ⟨?_, ?_, ?_⟩
  · intro v hv
    have : s.LoadOrCreateWithDefault db preferred env = (none, { key := v.Value }, db) := by
      simp only [MasterKeyService.LoadOrCreateWithDefault, hread, hv]
    rw [this]
    exact ⟨rfl, rfl⟩
  · intro hnone hw hp
    have hc := SettingsDB_Create_absent db
      { Key := masterKeySettingKey, Value := TrimSpace preferred, UpdatedAt := 0 } env.now hnone
    have : s.LoadOrCreateWithDefault db preferred env =
        (none, { key := TrimSpace preferred },
          { rows := db.rows ++
              [{ Key := masterKeySettingKey, Value := TrimSpace preferred,
                 UpdatedAt := env.now }] }) := by
      simp only [MasterKeyService.LoadOrCreateWithDefault, hread, hnone, if_neg hp, hw, hc]
    rw [this]
    refine ⟨rfl, rfl, ?_⟩
    exact SettingsDB_First_append db.rows
      { Key := masterKeySettingKey, Value := TrimSpace preferred, UpdatedAt := env.now } hnone
  · intro hnone hw hp buf hbuf hlen
    have hc := SettingsDB_Create_absent db
      { Key := masterKeySettingKey, Value := EncodeToString buf, UpdatedAt := 0 } env.now hnone
    have hgen : generateSecret 32 (some buf) = .ok (EncodeToString buf) := by
      simp [generateSecret]
    have : s.LoadOrCreateWithDefault db preferred env =
        (none, { key := EncodeToString buf },
          { rows := db.rows ++
              [{ Key := masterKeySettingKey, Value := EncodeToString buf,
                 UpdatedAt := env.now }] }) := by
      simp only [MasterKeyService.LoadOrCreateWithDefault, hread, hnone, if_pos hp, hbuf, hgen,
        hw, hc]
    rw [this]
    refine ⟨rfl, rfl, ?_, ?_, DecodeString_EncodeToString buf⟩
    · exact SettingsDB_First_append db.rows
        { Key := masterKeySettingKey, Value := EncodeToString buf, UpdatedAt := env.now } hnone
    · rw [EncodeToString_length, hlen]

/-- Witness of C16: the first start on an empty table with no preferred value
stores and caches the 43 characters that encode the bytes 0..31. -/
theorem C16_witness :
    (NewMasterKeyService.LoadOrCreateWithDefault { rows := [] } [] demoMasterEnv).2.1.Get =
      ascii "AAECAwQFBgcICQoLDA0ODxAREhMUFRYXGBkaGxwdHh8" ∧
    (NewMasterKeyService.LoadOrCreateWithDefault { rows := [] } [] demoMasterEnv).1 = none := by
  obtain ⟨h1, h2, _⟩ := (C16_LoadOrCreateWithDefault NewMasterKeyService { rows := [] } []
    demoMasterEnv rfl).2.2 rfl rfl rfl ((List.range 32).map byte) rfl rfl
  refine ⟨?_, ?_⟩
  · rw [h2]
    set_option maxRecDepth 100000 in decide
  · rw [h1]

/-- C17: for every cached secret and every candidate, `Authenticate` returns
true exactly when the cached secret is not empty, the candidate is not empty
and the candidate equals the cached secret byte for byte; the candidate is not
trimmed. Before any key has been loaded it returns false for every
candidate. -/
theorem C17_master_authenticate (k c : Str) :
    ((MasterKeyService.mk k).Authenticate c = true ↔ k ≠ [] ∧ c ≠ [] ∧ c = k) ∧
    NewMasterKeyService.Authenticate c = false ∧
    (k ≠ [] → (MasterKeyService.mk k).Authenticate (k ++ ascii " ") = false) ∧
    (k ≠ [] → (MasterKeyService.mk k).Authenticate (ascii " " ++ k) = false) := by
  refine ⟨?_, ?_, ?_, ?_⟩
  · unfold MasterKeyService.Authenticate MasterKeyService.Get ConstantTimeCompare
    by_cases hk : k = []
    · simp [hk]
    · by_cases hc : c = []
      · simp [hc]
      · by_cases h : k = c
        · simp [hk, hc, h]
        · have h' : ¬ c = k := fun e => h e.symm
          simp [hk, hc, h, h']
  · simp [MasterKeyService.Authenticate, MasterKeyService.Get, NewMasterKeyService]
  · intro hk
    have hne : ¬ k = k ++ ascii " " := by
      intro h
      have := congrArg List.length h
      simp [ascii] at this
    simp [MasterKeyService.Authenticate, MasterKeyService.Get, ConstantTimeCompare, hk, hne]
  · intro hk
    have hne : ¬ k = ascii " " ++ k := by
      intro h
      have := congrArg List.length h
      simp [ascii] at this
    simp [MasterKeyService.Authenticate, MasterKeyService.Get, ConstantTimeCompare, hk, hne]

/-! ### `Update` -/

theorem FirstByID_some (db : DB) (id : Nat) (key : DistributedKey)
    (h : db.FirstByID id = some key) : key.ID = id ∧ key ∈ db.rows := by
  unfold DB.FirstByID at h
  have h1 := List.find?_some h
  simp only [decide_eq_true_eq] at h1
  exact ⟨h1, List.mem_of_find?_eq_some h⟩

/-- A look-up by primary key in a table where the rows of one key have been
replaced by a record of that key. -/
theorem FirstByID_replace (rows : List DistributedKey) (id : Nat) (stored : DistributedKey)
    (hs : stored.ID = id) (id' : Nat) :
    (rows.map (fun r => if r.ID = id then stored else r)).find?
        (fun r => decide (r.ID = id')) =
      if id' = id then (rows.find? (fun r => decide (r.ID = id))).map (fun _ => stored)
      else rows.find? (fun r => decide (r.ID = id')) := by
  induction rows with
  | nil => simp
  | cons r rows ih =>
    simp only [List.map_cons, List.find?_cons]
    by_cases hr : r.ID = id
    · simp only [if_pos hr]
      by_cases hid : id' = id
      · simp [hid, hs, hr]
      · have h1 : ¬ stored.ID = id' := fun h => hid (h.symm.trans hs)
        have h2 : ¬ r.ID = id' := fun h => hid (h.symm.trans hr)
        simp only [h1, h2, decide_False, if_neg hid]
        rw [ih, if_neg hid]
    · simp only [if_neg hr]
      by_cases hid : id' = id
      · subst hid
        simp only [hr, decide_False, if_true]
        rw [ih, if_pos rfl]
      · simp only [if_neg hid]
        by_cases h3 : r.ID = id'
        · simp [h3]
        · simp only [h3, decide_False]
          rw [ih, if_neg hid]

/-- The outcome of `Save` for a record whose primary key is in the table and
whose digest no other row holds. -/
theorem Save_existing (db : DB) (key : DistributedKey) (now : Int)
    (hmem : ∃ r ∈ db.rows, r.ID = key.ID)
    (huniq : ∀ r ∈ db.rows, r.ID ≠ key.ID → r.TokenHash ≠ key.TokenHash) :
    db.Save key now none =
      .ok ({ key with UpdatedAt := now },
        { db with
          rows := db.rows.map (fun r => if r.ID = key.ID then { key with UpdatedAt := now } else r) }) := by
  have h1 : ¬ (db.rows.any (fun r => decide (r.ID ≠ key.ID ∧ r.TokenHash = key.TokenHash)) = true) := by
    rw [List.any_eq_true]
    rintro ⟨r, hr, h⟩
    simp only [decide_eq_true_eq] at h
    exact huniq r hr h.1 h.2
  have h2 : db.rows.any (fun r => decide (r.ID = key.ID)) = true := by
    rw [List.any_eq_true]
    obtain ⟨r, hr, h⟩ := hmem
    exact ⟨r, hr, by simpa using h⟩
  simp only [DB.Save, if_neg h1, if_pos h2]

/-- The record that `Update` builds from the record it has read. -/
theorem updateFields_ok (key : DistributedKey) (input : DistributedKeyUpdateInput)
    (hrate : ∀ v, input.RateLimitPerMinute = some v → 0 ≤ v) :
    updateFields key input =
      .ok
        { ID := key.ID
          Name :=
            match input.Name with
            | some n => if TrimSpace n = [] then distributedKeyNameDefault else TrimSpace n
            | none => key.Name
          Note :=
            match input.Note with
            | some n => TrimSpace n
            | none => key.Note
          TokenHash := key.TokenHash
          Ciphertext := key.Ciphertext
          KeyPrefix := key.KeyPrefix
          IsActive := input.IsActive.getD key.IsActive
          ExpiresAt :=
            if input.ClearExpiresAt = true then none
            else
              match input.ExpiresAt with
              | some e => some e
              | none => key.ExpiresAt
          RateLimitPerMinute := input.RateLimitPerMinute.getD key.RateLimitPerMinute
          LastUsedAt := key.LastUsedAt
          CreatedAt := key.CreatedAt
          UpdatedAt := key.UpdatedAt } := by
  unfold updateFields
  cases hr : input.RateLimitPerMinute with
  | some v =>
    have hv : ¬ v < 0 := not_lt.mpr (hrate v hr)
    cases input.Name <;> cases input.Note <;> cases input.IsActive <;>
      cases input.ClearExpiresAt <;> cases input.ExpiresAt <;> simp [hv]
  | none =>
    cases input.Name <;> cases input.Note <;> cases input.IsActive <;>
      cases input.ClearExpiresAt <;> cases input.ExpiresAt <;> simp

theorem updateFields_negative (key : DistributedKey) (input : DistributedKeyUpdateInput) (v : Int)
    (hr : input.RateLimitPerMinute = some v) (hv : v < 0) :
    updateFields key input = .error .ErrInvalidRateLimit := by
  unfold updateFields
  simp [hr, hv]

/-- C18: `Update` of the token with the id `id`. When the token exists, no
other row holds its digest (the unique index), the supplied rate limit is
absent or not negative and the store accepts the write, `Update` returns and
persists, in place of the row, the record with: the name trimmed, or `User Key`
if that is blank, when a name is supplied; the note trimmed when a note is
supplied; the active flag when supplied; the rate limit when supplied; the
expiry absent when `ClearExpiresAt` is set, even if an expiry is supplied too,
and else the supplied expiry if any; every field not supplied, and the id,
digest, ciphertext, prefix, last-used and creation instants, as before; the
update instant set by the store. The other rows are untouched. When the token
exists, a negative rate limit gives invalid-rate-limit. In every table, the
empty one included, an id that the table does not hold gives not-found. In
both cases the table is left as it was, whatever else is supplied. -/
theorem C18_update_fields (s : DistributedKeyService) (db : DB) (id : Nat)
    (input : DistributedKeyUpdateInput) (now : Int) :
    (∀ key, db.FirstByID id = some key →
      (∀ r ∈ db.rows, r.ID ≠ key.ID → r.TokenHash ≠ key.TokenHash) →
      (∀ v, input.RateLimitPerMinute = some v → 0 ≤ v) →
      ∃ stored db', s.Update db id input none none now = (.ok stored, db') ∧
        stored =
          { ID := id
            Name :=
              match input.Name with
              | some n => if TrimSpace n = [] then ascii "User Key" else TrimSpace n
              | none => key.Name
            Note :=
              match input.Note with
              | some n => TrimSpace n
              | none => key.Note
            TokenHash := key.TokenHash
            Ciphertext := key.Ciphertext
            KeyPrefix := key.KeyPrefix
            IsActive := input.IsActive.getD key.IsActive
            ExpiresAt :=
              if input.ClearExpiresAt = true then none
              else
                match input.ExpiresAt with
                | some e => some e
                | none => key.ExpiresAt
            RateLimitPerMinute := input.RateLimitPerMinute.getD key.RateLimitPerMinute
            LastUsedAt := key.LastUsedAt
            CreatedAt := key.CreatedAt
            UpdatedAt := now } ∧
        db'.rows = db.rows.map (fun r => if r.ID = id then stored else r) ∧
        db'.nextID = db.nextID ∧
        db'.FirstByID id = some stored ∧
        (∀ id', id' ≠ id → db'.FirstByID id' = db.FirstByID id')) ∧
    (∀ key, db.FirstByID id = some key →
      ∀ v, input.RateLimitPerMinute = some v → v < 0 →
      ∀ writeFault, s.Update db id input none writeFault now = (.error .ErrInvalidRateLimit, db)) ∧
    (∀ id' writeFault, db.FirstByID id' = none →
      s.Update db id' input none writeFault now = (.error .ErrDistributedKeyNotFound, db)) := by
  refine ⟨?_, ?_, ?_⟩
  · intro key hfind huniq hrate
    obtain ⟨hid, hmem⟩ := FirstByID_some db id key hfind
    obtain ⟨k2, hf, hk2⟩ : ∃ k2, updateFields key input = .ok k2 ∧ k2 = _ :=
      ⟨_, updateFields_ok key input hrate, rfl⟩
    have hk2id : k2.ID = key.ID := by rw [hk2]
    have hk2hash : k2.TokenHash = key.TokenHash := by rw [hk2]
    have hsave := Save_existing db k2 now ⟨key, hmem, hk2id.symm⟩
      (by rw [hk2id, hk2hash]; exact huniq)
    refine ⟨{ k2 with UpdatedAt := now },
      { db with
        rows := db.rows.map (fun r => if r.ID = k2.ID then { k2 with UpdatedAt := now } else r) },
      ?_, ?_, ?_, rfl, ?_, ?_⟩
    · simp only [DistributedKeyService.Update, DistributedKeyService.FindByID, hfind, hf, hsave]
    · rw [hk2]
      simp only [hid, distributedKeyNameDefault]
    · simp only [hk2id, hid]
    · simp only [DB.FirstByID, hk2id, hid]
      rw [FirstByID_replace db.rows id _ (by simp only [hk2id, hid]) id, if_pos rfl]
      unfold DB.FirstByID at hfind
      rw [hfind]
      rfl
    · intro id' hne
      simp only [DB.FirstByID, hk2id, hid]
      rw [FirstByID_replace db.rows id _ (by simp only [hk2id, hid]) id', if_neg hne]
  · intro key hfind v hr hv writeFault
    simp only [DistributedKeyService.Update, DistributedKeyService.FindByID, hfind,
      updateFields_negative key input v hr hv]
  · intro id' writeFault hnone
    simp only [DistributedKeyService.Update, DistributedKeyService.FindByID, hnone]

/-- Witness of C18: the first row of `demoTable` is disabled, renamed with
blanks, and asked both to clear and to set its expiry; on the table with no
row the same update finds no token. -/
theorem C18_witness :
    (demoService.Update demoTable 1 demoUpdate none none 2000).1 =
      .ok { demoRow none false with
            Name := ascii "User Key", Note := ascii "moved", RateLimitPerMinute := 0,
            UpdatedAt := 2000 } ∧
    demoService.Update { rows := [], nextID := 1 } 1 demoUpdate none none 2000 =
      (.error .ErrDistributedKeyNotFound, { rows := [], nextID := 1 }) := by
  have hfind : demoTable.FirstByID 1 = some (demoRow (some 5000) true) := by
    set_option maxRecDepth 100000 in decide
  have huniq : ∀ r ∈ demoTable.rows, r.ID ≠ (demoRow (some 5000) true).ID →
      r.TokenHash ≠ (demoRow (some 5000) true).TokenHash := by
    set_option maxRecDepth 100000 in decide
  obtain ⟨stored, db', h1, h2, _⟩ :=
    (C18_update_fields demoService demoTable 1 demoUpdate 2000).1 _ hfind huniq
      (by intro v hv; simp only [demoUpdate, Option.some.injEq] at hv; omega)
  refine ⟨?_, (C18_update_fields demoService { rows := [], nextID := 1 } 1 demoUpdate 2000).2.2
    1 none rfl⟩
  rw [h1]
  show Except.ok stored = _
  rw [h2]
  set_option maxRecDepth 100000 in decide

/-! ### `Rotate` -/

/-- What a successful run of the loop of `Rotate` did: some iteration generated
the secret, sealed it and wrote the record over the row of its primary key, in
a table that held no other row with the new digest. -/
theorem rotateLoop_ok (s : DistributedKeyService) (env : Nat → Attempt) (key' : DistributedKey)
    (pt : Str) (db db' : DB) :
    ∀ fuel i (key : DistributedKey), (∃ r ∈ db.rows, r.ID = key.ID) →
      rotateLoop s env fuel i key db = (.ok (key', pt), db') →
      ∃ j raw nonce ct,
        (env j).raw = some raw ∧ (env j).nonce = some nonce ∧ (env j).fault = none ∧
        pt = distributedKeyPrefixDefault ++ EncodeToString raw ∧
        s.cipher.Encrypt (some nonce) pt = .ok ct ∧
        key' =
          { ID := key.ID
            Name := key.Name
            Note := key.Note
            TokenHash := hashToken s.sha256Hex pt
            Ciphertext := ct
            KeyPrefix := tokenPrefix pt
            IsActive := true
            ExpiresAt := key.ExpiresAt
            RateLimitPerMinute := key.RateLimitPerMinute
            LastUsedAt := none
            CreatedAt := key.CreatedAt
            UpdatedAt := (env j).now } ∧
        db' = { db with rows := db.rows.map (fun r => if r.ID = key.ID then key' else r) } ∧
        (∀ r ∈ db.rows, r.ID ≠ key.ID → r.TokenHash ≠ key'.TokenHash) := by
  intro fuel
  induction fuel with
  | zero =>
    intro i key _ h
    simp [rotateLoop] at h
  | succ n ih =>
    intro i key hmem h
    unfold rotateLoop at h
    cases hraw : (env i).raw with
    | none => simp [hraw, generateDistributedKeyToken] at h
    | some raw =>
      simp only [hraw, generateDistributedKeyToken] at h
      cases hnonce : (env i).nonce with
      | none =>
        have hfail : ∃ e, s.cipher.Encrypt none
            (distributedKeyPrefixDefault ++ EncodeToString raw) = .error e := by
          unfold TokenCipher.Encrypt
          split <;> exact ⟨_, rfl⟩
        obtain ⟨e, he⟩ := hfail
        simp [hnonce, he] at h
      | some nonce =>
        cases henc : s.cipher.Encrypt (some nonce)
            (distributedKeyPrefixDefault ++ EncodeToString raw) with
        | error e => simp [hnonce, henc] at h
        | ok ct =>
          simp only [hnonce, henc] at h
          cases hsave : db.Save
              { key with
                TokenHash := hashToken s.sha256Hex (distributedKeyPrefixDefault ++ EncodeToString raw)
                Ciphertext := ct
                KeyPrefix := tokenPrefix (distributedKeyPrefixDefault ++ EncodeToString raw)
                IsActive := true
                LastUsedAt := none } (env i).now (env i).fault with
          | error msg =>
            simp only [hsave] at h
            split at h
            · have hrec := fun hm => ih _ _ hm h
              exact hrec hmem
            · simp at h
          | ok r =>
            obtain ⟨stored, dbs⟩ := r
            simp only [hsave, Prod.mk.injEq, Except.ok.injEq] at h
            obtain ⟨⟨hk, hpt⟩, hdb⟩ := h
            subst hk hpt hdb
            unfold DB.Save at hsave
            cases hfault : (env i).fault with
            | some msg => simp [hfault] at hsave
            | none =>
              simp only [hfault] at hsave
              split at hsave
              · simp at hsave
              · rename_i hno
                have hany : db.rows.any (fun r => decide (r.ID = key.ID)) = true := by
                  rw [List.any_eq_true]
                  obtain ⟨r, hr, hrid⟩ := hmem
                  exact ⟨r, hr, by simpa using hrid⟩
                simp only [hany, if_true, Except.ok.injEq, Prod.mk.injEq] at hsave
                obtain ⟨hst, hdbs⟩ := hsave
                subst hst hdbs
                refine ⟨i, raw, nonce, ct, hraw, hnonce, hfault, rfl, henc, rfl, rfl, ?_⟩
                intro r hr hne hcon
                apply hno
                rw [List.any_eq_true]
                exact ⟨r, hr, by simpa using ⟨hne, hcon⟩⟩

/-- The loop of `Rotate` succeeds in its first iteration when the reads
succeed, the store has no fault and no other row holds the new digest. -/
theorem rotateLoop_first (s : DistributedKeyService) (env : Nat → Attempt) (db : DB)
    (key : DistributedKey) (raw nonce : Str) (n : Nat)
    (hmem : ∃ r ∈ db.rows, r.ID = key.ID)
    (hraw : (env 0).raw = some raw) (hnonce : (env 0).nonce = some nonce)
    (hfault : (env 0).fault = none)
    (hfresh : ∀ r ∈ db.rows, r.ID ≠ key.ID →
      r.TokenHash ≠ hashToken s.sha256Hex (distributedKeyPrefixDefault ++ EncodeToString raw)) :
    ∃ key' db', rotateLoop s env (n + 1) 0 key db =
      (.ok (key', distributedKeyPrefixDefault ++ EncodeToString raw), db') := by
  have hpt : distributedKeyPrefixDefault ++ EncodeToString raw ≠ [] := by
    simp [distributedKeyPrefixDefault, ascii]
  have henc : s.cipher.Encrypt (some nonce) (distributedKeyPrefixDefault ++ EncodeToString raw) =
      .ok (EncodeToString (nonce ++ s.cipher.aead.Seal nonce
        (distributedKeyPrefixDefault ++ EncodeToString raw))) := by
    simp [TokenCipher.Encrypt, hpt]
  have hsave := Save_existing db
    { key with
      TokenHash := hashToken s.sha256Hex (distributedKeyPrefixDefault ++ EncodeToString raw)
      Ciphertext := EncodeToString (nonce ++ s.cipher.aead.Seal nonce
        (distributedKeyPrefixDefault ++ EncodeToString raw))
      KeyPrefix := tokenPrefix (distributedKeyPrefixDefault ++ EncodeToString raw)
      IsActive := true
      LastUsedAt := none } (env 0).now hmem hfresh
  unfold rotateLoop
  simp only [hraw, generateDistributedKeyToken, hnonce, henc, hfault, hsave]
  exact ⟨_, _, rfl⟩

/-- C19: `Rotate` of the token with the id `id`. When the token exists, the
cipher is lawful and the nonces have the cipher's size: whenever `Rotate`
returns (token, plaintext), the returned token is persisted in place of the row
of that id, its digest is `hashToken` of the plaintext, its ciphertext decrypts
to the plaintext, its prefix is `tokenPrefix` of the plaintext, it is active
and has no last-used instant, and its id, name, note, expiry, rate limit and
creation instant are those of the row before; every other row is untouched and
no other row holds the new digest. When the token exists, `Rotate` does return
(token, plaintext) if the reads of the first attempt succeed, the store has no
fault and no other row holds the digest of the generated secret. In every
table, the empty one included, and for every cipher, `Rotate` of an id that the
table does not hold fails with not-found and leaves the table as it was. -/
theorem C19_rotate_in_place (s : DistributedKeyService) (db : DB) (id : Nat)
    (env : Nat → Attempt) :
    (∀ key0, db.FirstByID id = some key0 → s.cipher.aead.Lawful →
      (∀ i n, (env i).nonce = some n → n.length = s.cipher.aead.NonceSize) →
      ∀ key pt db', s.Rotate db id none env = (.ok (key, pt), db') →
      key.TokenHash = hashToken s.sha256Hex pt ∧
      s.cipher.Decrypt key.Ciphertext = .ok pt ∧
      key.KeyPrefix = tokenPrefix pt ∧
      key.IsActive = true ∧ key.LastUsedAt = none ∧
      key.ID = id ∧ key.Name = key0.Name ∧ key.Note = key0.Note ∧
      key.ExpiresAt = key0.ExpiresAt ∧ key.RateLimitPerMinute = key0.RateLimitPerMinute ∧
      key.CreatedAt = key0.CreatedAt ∧
      db'.rows = db.rows.map (fun r => if r.ID = id then key else r) ∧
      db'.nextID = db.nextID ∧
      db'.FirstByID id = some key ∧
      (∀ id', id' ≠ id → db'.FirstByID id' = db.FirstByID id') ∧
      (∀ r ∈ db.rows, r.ID ≠ id → r.TokenHash ≠ key.TokenHash)) ∧
    (∀ key0, db.FirstByID id = some key0 →
      ∀ raw nonce, (env 0).raw = some raw → (env 0).nonce = some nonce → (env 0).fault = none →
      (∀ r ∈ db.rows, r.ID ≠ id →
        r.TokenHash ≠ hashToken s.sha256Hex (distributedKeyPrefixDefault ++ EncodeToString raw)) →
      ∃ key db', s.Rotate db id none env =
        (.ok (key, distributedKeyPrefixDefault ++ EncodeToString raw), db')) ∧
    (∀ id', db.FirstByID id' = none →
      s.Rotate db id' none env = (.error .ErrDistributedKeyNotFound, db)) := by
  refine ⟨?_, ?_, ?_⟩
  · intro key0 hfind hc hnonce key pt db' h
    obtain ⟨hid, hmem⟩ := FirstByID_some db id key0 hfind
    simp only [DistributedKeyService.Rotate, DistributedKeyService.FindByID, hfind] at h
    obtain ⟨j, raw, nonce, ct, _, hn, _, hpt, henc, hk, hdb, hfresh⟩ :=
      rotateLoop_ok s env key pt db db' 3 0 key0 ⟨key0, hmem, rfl⟩ h
    have hkid : key.ID = id := by rw [hk]; exact hid
    obtain ⟨hne, _⟩ := Encrypt_ok_eq s.cipher nonce pt ct henc
    obtain ⟨ct', henc', hdec⟩ := Decrypt_Encrypt_ok s.cipher hc nonce pt (hnonce j nonce hn) hne
    have hct : ct' = ct := by
      rw [henc] at henc'
      injection henc' with h'
      exact h'.symm
    rw [hct] at hdec
    have hrows : db'.rows = db.rows.map (fun r => if r.ID = id then key else r) := by
      rw [hdb, hid]
    refine ⟨by rw [hk], by rw [hk]; exact hdec, by rw [hk], by rw [hk], by rw [hk], hkid,
      by rw [hk], by rw [hk], by rw [hk], by rw [hk], by rw [hk], hrows, by rw [hdb], ?_, ?_, ?_⟩
    · simp only [DB.FirstByID, hrows]
      rw [FirstByID_replace db.rows id key hkid id, if_pos rfl]
      unfold DB.FirstByID at hfind
      rw [hfind]
      rfl
    · intro id' hne'
      simp only [DB.FirstByID, hrows]
      rw [FirstByID_replace db.rows id key hkid id', if_neg hne']
    · intro r hr hrid
      exact hfresh r hr (by rw [hid]; exact hrid)
  · intro key0 hfind raw nonce hraw hn hfault hfresh
    obtain ⟨hid, hmem⟩ := FirstByID_some db id key0 hfind
    simp only [DistributedKeyService.Rotate, DistributedKeyService.FindByID, hfind]
    exact rotateLoop_first s env db key0 raw nonce 2 ⟨key0, hmem, rfl⟩ hraw hn hfault
      (by intro r hr hrid; exact hfresh r hr (by rw [← hid]; exact hrid))
  · intro id' hnone
    simp only [DistributedKeyService.Rotate, DistributedKeyService.FindByID, hnone]

/-- Witness of C19: the disabled second row of `demoTable` is rotated; the
first attempt generates the secret of the first row and is refused by the
unique index, the second attempt is persisted. On the table with no row the
rotation finds no token. -/
theorem C19_witness :
    ∃ key db',
      demoService.Rotate demoTable 2 none demoEnv =
        (.ok (key, distributedKeyPrefixDefault ++ EncodeToString (List.replicate 24 1)), db') ∧
      key.IsActive = true ∧ key.ID = 2 ∧ key.Name = ascii "client-b" ∧
      demoService.cipher.Decrypt key.Ciphertext =
        .ok (distributedKeyPrefixDefault ++ EncodeToString (List.replicate 24 1)) ∧
      db'.FirstByID 2 = some key ∧
    demoService.Rotate { rows := [], nextID := 1 } 2 none demoEnv =
      (.error .ErrDistributedKeyNotFound, { rows := [], nextID := 1 }) := by
  have hrot : demoService.Rotate demoTable 2 none demoEnv =
      (.ok
        ({ demoRow none true with
            ID := 2
            Name := ascii "client-b"
            TokenHash := distributedKeyPrefixDefault ++ EncodeToString (List.replicate 24 1)
            Ciphertext := EncodeToString
              (List.replicate 12 2 ++ sampleAEAD.Seal (List.replicate 12 2)
                (distributedKeyPrefixDefault ++ EncodeToString (List.replicate 24 1)))
            KeyPrefix :=
              tokenPrefix (distributedKeyPrefixDefault ++ EncodeToString (List.replicate 24 1)) },
          distributedKeyPrefixDefault ++ EncodeToString (List.replicate 24 1)),
        { rows :=
            [ demoRow (some 5000) true,
              { demoRow none true with
                ID := 2
                Name := ascii "client-b"
                TokenHash := distributedKeyPrefixDefault ++ EncodeToString (List.replicate 24 1)
                Ciphertext := EncodeToString
                  (List.replicate 12 2 ++ sampleAEAD.Seal (List.replicate 12 2)
                    (distributedKeyPrefixDefault ++ EncodeToString (List.replicate 24 1)))
                KeyPrefix :=
                  tokenPrefix
                    (distributedKeyPrefixDefault ++ EncodeToString (List.replicate 24 1)) } ]
          nextID := 3 }) := by
    set_option maxRecDepth 100000 in decide
  have hnonce : ∀ i n, (demoEnv i).nonce = some n →
      n.length = demoService.cipher.aead.NonceSize := by
    intro i n h
    simp only [demoEnv, Option.some.injEq] at h
    rw [← h]
    rfl
  have hfind : demoTable.FirstByID 2 =
      some { demoRow none false with
             ID := 2, TokenHash := ascii "other", Name := ascii "client-b" } := by
    set_option maxRecDepth 100000 in decide
  have h := (C19_rotate_in_place demoService demoTable 2 demoEnv).1 _ hfind sampleAEAD_lawful
    hnonce _ _ _ hrot
  exact ⟨_, _, hrot, h.2.2.2.1, h.2.2.2.2.2.1, h.2.2.2.2.2.2.1, h.2.1,
    h.2.2.2.2.2.2.2.2.2.2.2.2.2.1,
    (C19_rotate_in_place demoService { rows := [], nextID := 1 } 2 demoEnv).2.2 2 rfl⟩

/-! ### The fields that `Create` stores -/

/-- Method `Create` with the effective rate limit written with `getD`. -/
theorem Create_eq (s : DistributedKeyService) (db : DB) (input : DistributedKeyCreateInput)
    (env : Nat → Attempt) :
    s.Create db input env =
      if input.RateLimitPerMinute.getD s.defaultRateLimit < 0 then (.error .ErrInvalidRateLimit, db)
      else
        createLoop s input
          (if TrimSpace input.Name = [] then distributedKeyNameDefault else TrimSpace input.Name)
          (input.RateLimitPerMinute.getD s.defaultRateLimit) env 3 0 db := by
  unfold DistributedKeyService.Create
  cases input.RateLimitPerMinute <;> rfl

/-- Every field of the record that a successful `Create` returns and
persists, for 24 random bytes per attempt: all fields are as supplied, except
that the rate limit 0 is stored as the column default 60. -/
theorem Create_fields (s : DistributedKeyService) (db : DB) (input : DistributedKeyCreateInput)
    (env : Nat → Attempt) (key : DistributedKey) (pt : Str) (db' : DB)
    (hraw : ∀ i raw, (env i).raw = some raw → raw.length = 24)
    (h : s.Create db input env = (.ok (key, pt), db')) :
    key.Name =
      (if TrimSpace input.Name = [] then ascii "User Key" else TrimSpace input.Name) ∧
    key.Note = TrimSpace input.Note ∧
    key.IsActive = true ∧
    key.ExpiresAt = input.ExpiresAt ∧
    key.LastUsedAt = none ∧
    key.RateLimitPerMinute =
      (if input.RateLimitPerMinute.getD s.defaultRateLimit = 0 then 60
       else input.RateLimitPerMinute.getD s.defaultRateLimit) ∧
    0 ≤ input.RateLimitPerMinute.getD s.defaultRateLimit ∧
    key.TokenHash = hashToken s.sha256Hex pt ∧
    key.KeyPrefix = pt.take 14 ∧ key.KeyPrefix.length = 14 ∧
    pt.length = 40 ∧
    (∃ raw, raw.length = 24 ∧ pt = ascii "uk_live_" ++ EncodeToString raw) ∧
    db'.rows = db.rows ++ [key] := by
  rw [Create_eq] at h
  split at h
  · simp at h
  · rename_i hneg
    obtain ⟨j, raw, nonce, ct, h1, _, h3, _, h5, h6, _, _⟩ :=
      createLoop_ok s input _ _ env key pt db' 3 0 db h
    have hlen : pt.length = 40 := by
      rw [h3, List.length_append, EncodeToString_length, hraw j raw h1]
      rfl
    have hpre : tokenPrefix pt = pt.take 14 := by
      unfold tokenPrefix
      rw [if_neg (by omega)]
    refine ⟨?_, ?_, ?_, ?_, ?_, ?_, not_lt.mp hneg, ?_, ?_, ?_, hlen,
      ⟨raw, hraw j raw h1, h3⟩, h6⟩
    · rw [h5]; rfl
    · rw [h5]
    · rw [h5]
    · rw [h5]
    · rw [h5]
    · rw [h5]
    · rw [h5]
    · rw [h5]; exact hpre
    · rw [h5]
      simp only [hpre, List.length_take, hlen]
      rfl

/-- A negative effective rate limit is refused before anything is written. -/
theorem Create_negative (s : DistributedKeyService) (db : DB) (input : DistributedKeyCreateInput)
    (env : Nat → Attempt) (hneg : input.RateLimitPerMinute.getD s.defaultRateLimit < 0) :
    s.Create db input env = (.error .ErrInvalidRateLimit, db) := by
  rw [Create_eq, if_pos hneg]

/-- C20 fails on the code for the rate limit 0: `Create` with the supplied
rate limit 0 succeeds and returns and persists a record whose rate limit is 60,
the default of the column, the same record as with no rate limit supplied and
the configured default 60. -/
theorem C20_zero_rate_limit_stored_as_60 :
    demoService.Create demoDB
        { Name := ascii "client-a", Note := [], ExpiresAt := none, RateLimitPerMinute := some 0 }
        demoEnv =
      (.ok (demoRow none true, demoSecret), { rows := [demoRow none true], nextID := 2 }) ∧
    (demoRow none true).RateLimitPerMinute = 60 ∧
    (NewDistributedKeyService id id ⟨sampleAEAD⟩ 0).Create demoDB
        { Name := ascii "client-a", Note := [], ExpiresAt := none, RateLimitPerMinute := none }
        demoEnv =
      (.ok (demoRow none true, demoSecret), { rows := [demoRow none true], nextID := 2 }) := by
  refine ⟨?_, rfl, ?_⟩
  · set_option maxRecDepth 100000 in decide
  · set_option maxRecDepth 100000 in decide

/-! ### The limiter: calls that are not counted -/

/-- C21: for every limiter state and instant, `Allow` returns true whenever the
identity is 0 or the limit is 0; otherwise, when the limit is negative, it
returns false; in all of these cases the limiter, its bucket map included, is
left exactly as it was. -/
theorem C21_allow_uncounted (l : DistributedRateLimiter) (keyID : Nat) (limit now : Int) :
    ((keyID = 0 ∨ limit = 0) → l.Allow keyID limit now = (true, l)) ∧
    (keyID ≠ 0 → limit < 0 → l.Allow keyID limit now = (false, l)) ∧
    ((keyID = 0 ∨ limit ≤ 0) → ∀ k, (l.Allow keyID limit now).2.buckets k = l.buckets k) := by
  refine ⟨?_, ?_, ?_⟩
  · intro h
    simp only [DistributedRateLimiter.Allow, if_pos h]
  · intro hk hl
    have h : ¬ (keyID = 0 ∨ limit = 0) := by
      rintro (h | h)
      · exact hk h
      · omega
    simp only [DistributedRateLimiter.Allow, if_neg h, if_pos hl]
  · intro h k
    by_cases h0 : keyID = 0 ∨ limit = 0
    · simp only [DistributedRateLimiter.Allow, if_pos h0]
    · have hl : limit < 0 := by
        rcases h with h | h
        · exact absurd (Or.inl h) h0
        · have : limit ≠ 0 := fun e => h0 (Or.inr e)
          omega
      simp only [DistributedRateLimiter.Allow, if_neg h0, if_pos hl]

/-! ### The limiter: the age of the buckets -/

/-- The wrapped product `-2 * window` is never below the exact one. -/
theorem wrapInt64_neg_two_mul_ge (w : Int) (hw : 0 < w) (hw2 : w < 2 ^ 63) :
    -2 * w ≤ wrapInt64 (-2 * w) := by
  unfold wrapInt64
  have h63 : (2 : Int) ^ 63 = 9223372036854775808 := by norm_num
  have h64 : (2 : Int) ^ 64 = 18446744073709551616 := by norm_num
  rw [h63] at hw2
  rw [h63, h64]
  omega

/-- After `gcLocked` no bucket is older than two windows. -/
theorem gcLocked_recent (l : DistributedRateLimiter) (now : Int) (hw : 0 < l.window)
    (hw2 : l.window < 2 ^ 63) (k : Nat) (b : rateBucket)
    (hb : (l.gcLocked now).buckets k = some b) : now - 2 * l.window ≤ b.windowStart := by
  have hge := wrapInt64_neg_two_mul_ge l.window hw hw2
  simp only [DistributedRateLimiter.gcLocked] at hb
  cases hq : l.buckets k with
  | none => simp [hq] at hb
  | some b0 =>
    simp only [hq] at hb
    split at hb
    · simp at hb
    · rename_i hnot
      simp only [Option.some.injEq] at hb
      subst hb
      omega

/-- C24: for every limiter whose window is positive (and a `time.Duration`),
after every `Allow` call with identity other than 0 and limit above 0 made at
the instant `now`, every bucket the limiter holds has `windowStart` at least
`now - 2*window`, and the bucket of the calling identity exists and starts at
the aligned window of `now`, which lies within the last window:
`now - window < windowStart <= now`. -/
theorem C24_buckets_recent (l : DistributedRateLimiter) (keyID : Nat) (limit now : Int)
    (hw : 0 < l.window) (hw2 : l.window < 2 ^ 63) (hk : keyID ≠ 0) (hl : 0 < limit) :
    (l.Allow keyID limit now).2.window = l.window ∧
    (∀ k b, (l.Allow keyID limit now).2.buckets k = some b →
      now - 2 * l.window ≤ b.windowStart) ∧
    (∃ b, (l.Allow keyID limit now).2.buckets keyID = some b ∧
      b.windowStart = Truncate now l.window ∧
      now - l.window < b.windowStart ∧ b.windowStart ≤ now) := by
  have h0 : ¬ (keyID = 0 ∨ limit = 0) := by
    rintro (h | h)
    · exact hk h
    · omega
  have hneg : ¬ limit < 0 := by omega
  have hgc := gcLocked_recent l now hw hw2
  have hgw : (l.gcLocked now).window = l.window := rfl
  have ht1 := Truncate_gt now l.window hw
  have ht2 := Truncate_le now l.window hw
  have hset : ∀ (c : rateBucket), c.windowStart = Truncate now l.window →
      (∀ k b, ((l.gcLocked now).setBucket keyID c).buckets k = some b →
        now - 2 * l.window ≤ b.windowStart) ∧
      (∃ b, ((l.gcLocked now).setBucket keyID c).buckets keyID = some b ∧
        b.windowStart = Truncate now l.window ∧
        now - l.window < b.windowStart ∧ b.windowStart ≤ now) := by
    intro c hc
    refine ⟨?_, c, setBucket_self _ _ _, hc, by omega, by omega⟩
    intro k b hb
    simp only [DistributedRateLimiter.setBucket] at hb
    split at hb
    · simp only [Option.some.injEq] at hb
      subst hb
      omega
    · exact hgc k b hb
  simp only [DistributedRateLimiter.Allow, if_neg h0, if_neg hneg, hgw]
  cases hcur : (l.gcLocked now).buckets keyID with
  | none =>
    simp only
    exact ⟨rfl, hset ⟨Truncate now l.window, 1⟩ rfl⟩
  | some current =>
    simp only
    by_cases hsame : current.windowStart = Truncate now l.window
    · simp only [hsame, not_true_eq_false, if_false]
      by_cases hfull : current.count ≥ limit
      · simp only [if_pos hfull]
        exact ⟨rfl, hgc, current, hcur, hsame, by omega, by omega⟩
      · simp only [if_neg hfull]
        exact ⟨rfl, hset ⟨Truncate now l.window, current.count + 1⟩ rfl⟩
    · simp only [hsame, not_false_eq_true, if_true]
      exact ⟨rfl, hset ⟨Truncate now l.window, 1⟩ rfl⟩

/-- Witness of C24: a fresh one-minute limiter after one call. -/
theorem C24_witness :
    ∃ b, ((NewDistributedRateLimiter Minute).Allow 7 1 60000000005).2.buckets 7 = some b ∧
      b.windowStart = 60000000000 := by
  obtain ⟨b, hb, hs, _⟩ := (C24_buckets_recent (NewDistributedRateLimiter Minute) 7 1 60000000005
    (by decide) (by decide) (by decide) (by decide)).2.2
  refine ⟨b, hb, ?_⟩
  rw [hs]
  decide

/-! ### The limiter: garbage collection and the decisions -/

theorem GcSim_later {w T : Int} {g n : DistributedRateLimiter} (h : GcSim w T g n) (T' : Int)
    (hT : T ≤ T') : GcSim w T' g n where
  window_g := h.window_g
  window_n := h.window_n
  rel := by
    intro k
    rcases h.rel k with e | ⟨e, b, hb, hs⟩
    · exact Or.inl e
    · exact Or.inr ⟨e, b, hb, by omega⟩

/-- The buckets after `gcLocked`, for a window whose double is a
`time.Duration`. -/
theorem gcLocked_buckets (l : DistributedRateLimiter) (hw : 0 < l.window)
    (hw2 : l.window ≤ 2 ^ 62) (now : Int) (k : Nat) :
    (l.gcLocked now).buckets k =
      (l.buckets k).bind
        (fun b => if b.windowStart < now - 2 * l.window then none else some b) := by
  have hcut : now + wrapInt64 (-2 * l.window) = now - 2 * l.window := by
    rw [wrapInt64_neg_two_mul l.window hw hw2]; ring
  simp only [DistributedRateLimiter.gcLocked, hcut]
  cases l.buckets k <;> rfl

/-- One call keeps the relation, and the two limiters decide alike. -/
theorem GcSim_step {w T : Int} {g n : DistributedRateLimiter} (hw : 0 < w) (hw2 : w ≤ 2 ^ 62)
    (h : GcSim w T g n) (c : AllowCall) (hT : T ≤ c.now) :
    (g.Allow c.keyID c.limit c.now).1 = (n.AllowWithoutGC c.keyID c.limit c.now).1 ∧
    GcSim w c.now (g.Allow c.keyID c.limit c.now).2
      (n.AllowWithoutGC c.keyID c.limit c.now).2 := by
  have hlater := GcSim_later h c.now hT
  have hwg := h.window_g
  subst hwg
  have hnw : n.window = g.window := h.window_n
  by_cases h0 : c.keyID = 0 ∨ c.limit = 0
  · simp only [DistributedRateLimiter.Allow, DistributedRateLimiter.AllowWithoutGC, if_pos h0]
    exact ⟨trivial, hlater⟩
  · by_cases hneg : c.limit < 0
    · simp only [DistributedRateLimiter.Allow, DistributedRateLimiter.AllowWithoutGC, if_neg h0,
        if_pos hneg]
      exact ⟨trivial, hlater⟩
    · have hgc := gcLocked_buckets g hw hw2 c.now
      have ht := Truncate_gt c.now g.window hw
      -- the relation after the collection
      have hrel : ∀ k, (g.gcLocked c.now).buckets k = n.buckets k ∨
          ((g.gcLocked c.now).buckets k = none ∧
            ∃ b, n.buckets k = some b ∧ b.windowStart < c.now - 2 * g.window) := by
        intro k
        rw [hgc k]
        rcases h.rel k with e | ⟨e, b, hb, hs⟩
        · rw [e]
          cases hn : n.buckets k with
          | none => exact Or.inl rfl
          | some b =>
            simp only [Option.some_bind]
            by_cases hold : b.windowStart < c.now - 2 * g.window
            · rw [if_pos hold]
              exact Or.inr ⟨rfl, b, rfl, hold⟩
            · rw [if_neg hold]
              exact Or.inl rfl
        · rw [e]
          exact Or.inr ⟨rfl, b, hb, by omega⟩
      -- writing the same bucket in both keeps the relation
      have hset : ∀ b : rateBucket,
          GcSim g.window c.now ((g.gcLocked c.now).setBucket c.keyID b)
            (n.setBucket c.keyID b) := by
        intro b
        refine ⟨rfl, hnw, ?_⟩
        intro k
        simp only [DistributedRateLimiter.setBucket]
        by_cases hk : k = c.keyID
        · simp only [if_pos hk]
          exact Or.inl trivial
        · simp only [if_neg hk]
          exact hrel k
      have hkeep : GcSim g.window c.now (g.gcLocked c.now) n := ⟨rfl, hnw, hrel⟩
      have hgw : (g.gcLocked c.now).window = g.window := rfl
      rcases hrel c.keyID with e | ⟨e, b, hb, hs⟩
      · cases hn : n.buckets c.keyID with
        | none =>
          have hg : (g.gcLocked c.now).buckets c.keyID = none := e.trans hn
          simp only [DistributedRateLimiter.Allow, DistributedRateLimiter.AllowWithoutGC,
            if_neg h0, if_neg hneg, hg, hn, hnw, hgw]
          exact ⟨trivial, hset _⟩
        | some b =>
          have hg : (g.gcLocked c.now).buckets c.keyID = some b := e.trans hn
          by_cases hsame : b.windowStart = Truncate c.now g.window
          · by_cases hfull : b.count ≥ c.limit
            · simp only [DistributedRateLimiter.Allow, DistributedRateLimiter.AllowWithoutGC,
                if_neg h0, if_neg hneg, hg, hn, hnw, hgw, hsame, not_true_eq_false, if_false,
                if_pos hfull]
              exact ⟨trivial, hkeep⟩
            · simp only [DistributedRateLimiter.Allow, DistributedRateLimiter.AllowWithoutGC,
                if_neg h0, if_neg hneg, hg, hn, hnw, hgw, hsame, not_true_eq_false, if_false,
                if_neg hfull]
              exact ⟨trivial, hset _⟩
          · simp only [DistributedRateLimiter.Allow, DistributedRateLimiter.AllowWithoutGC,
              if_neg h0, if_neg hneg, hg, hn, hnw, hgw, hsame, not_false_eq_true, if_true]
            exact ⟨trivial, hset _⟩
      · have hdiff : ¬ b.windowStart = Truncate c.now g.window := by omega
        simp only [DistributedRateLimiter.Allow, DistributedRateLimiter.AllowWithoutGC,
          if_neg h0, if_neg hneg, e, hb, hnw, hgw, hdiff, not_false_eq_true, if_true]
        exact ⟨trivial, hset _⟩

theorem GcSim_run {w : Int} (hw : 0 < w) (hw2 : w ≤ 2 ^ 62) :
    ∀ (calls : List AllowCall) (T : Int) (g n : DistributedRateLimiter), GcSim w T g n →
      calls.Pairwise (fun a b => a.now ≤ b.now) → (∀ c ∈ calls, T ≤ c.now) →
      (runAllow g calls).1 = (runAllowWithoutGC n calls).1 := by
  intro calls
  induction calls with
  | nil => intro T g n _ _ _; rfl
  | cons c rest ih =>
    intro T g n h hsorted hT
    have hs := List.pairwise_cons.mp hsorted
    obtain ⟨hd, hsim⟩ := GcSim_step hw hw2 h c (hT c (List.mem_cons_self _ _))
    have := ih c.now _ _ hsim hs.2 (fun c' hc' => hs.1 c' hc')
    simp only [runAllow, runAllowWithoutGC, hd, this]

/-- For a limiter in any state whose window is positive and at most 2^62 ns,
and every sequence of `Allow` calls (any identities and limits) with
non-decreasing instants, the decisions are those of the same limiter with
`gcLocked` removed. -/
theorem gc_transparent (l : DistributedRateLimiter) (hw : 0 < l.window)
    (hw2 : l.window ≤ 2 ^ 62) (calls : List AllowCall)
    (hsorted : calls.Pairwise (fun a b => a.now ≤ b.now)) :
    (runAllow l calls).1 = (runAllowWithoutGC l calls).1 := by
  cases calls with
  | nil => rfl
  | cons c rest =>
    have hs := List.pairwise_cons.mp hsorted
    refine GcSim_run hw hw2 (c :: rest) c.now l l ⟨rfl, rfl, fun _ => Or.inl rfl⟩ hsorted ?_
    intro c' hc'
    rcases List.mem_cons.mp hc' with e | e
    · rw [e]
    · exact hs.1 c' e

/-- C25 fails on the code for a window above 2^62 ns: with a window of
2^62 + 1 ns the cutoff of `gcLocked` lies after `now`, the bucket of the
caller is collected before each decision, and of two calls for one identity
with limit 1 at the same instant the limiter allows both, while the same
limiter with `gcLocked` removed allows the first and denies the second. -/
theorem C25_gc_changes_decisions :
    (runAllow (NewDistributedRateLimiter (2 ^ 62 + 1))
      [⟨1, 1, 63900000000000000000⟩, ⟨1, 1, 63900000000000000000⟩]).1 = [true, true] ∧
    (runAllowWithoutGC (NewDistributedRateLimiter (2 ^ 62 + 1))
      [⟨1, 1, 63900000000000000000⟩, ⟨1, 1, 63900000000000000000⟩]).1 = [true, false] := by
  refine ⟨by decide, by decide⟩

/-! ### The limiter: allowed calls per window -/

theorem allowedInWindow_cons (w W : Int) (c : AllowCall) (rest : List AllowCall) (d : Bool)
    (ds : List Bool) :
    allowedInWindow w W (c :: rest) (d :: ds) =
      (if d = true ∧ Truncate c.now w = W then 1 else 0) + allowedInWindow w W rest ds := by
  unfold allowedInWindow
  simp only [List.zip_cons_cons, List.filter_cons]
  by_cases h : d = true ∧ Truncate c.now w = W
  · simp [h.1, h.2]
    omega
  · rw [if_neg h]
    have : (d && decide (Truncate c.now w = W)) = false := by
      rw [Bool.and_eq_false_iff]
      by_cases hd : d = true
      · right
        simpa using fun e => h ⟨hd, e⟩
      · left
        simpa using hd
    simp [this]

/-- From a state that has counted the calls `H`, the calls allowed in a window
fill it up to the limit. -/
theorem allowed_fills_window {w L : Int} {id : Nat} (hw : 0 < w) (hw2 : w ≤ 2 ^ 62)
    (hid : id ≠ 0) (hL : 0 < L) (W : Int) :
    ∀ (calls : List AllowCall) (H : List AllowCall) (T : Int) (l : DistributedRateLimiter),
      LimiterInv w L id H T l →
      calls.Pairwise (fun a b => a.now ≤ b.now) →
      (∀ c ∈ calls, T ≤ c.now) →
      (∀ c ∈ calls, c.keyID = id ∧ c.limit = L) →
      (allowedInWindow w W calls (runAllow l calls).1 : Int) +
          min L (countInWindow w id W H) =
        min L (countInWindow w id W (H ++ calls)) := by
  intro calls
  induction calls with
  | nil =>
    intro H T l _ _ _ _
    simp [runAllow, allowedInWindow]
  | cons c rest ih =>
    intro H T l hinv hsorted hT hcalls
    have hs := List.pairwise_cons.mp hsorted
    have hc := hcalls c (List.mem_cons_self _ _)
    obtain ⟨hinv', hdec⟩ := LimiterInv_step hw hw2 hid hL hinv c (hT c (List.mem_cons_self _ _))
      (fun _ => hc.2)
    have hrec := ih (H ++ [c]) c.now (l.Allow c.keyID c.limit c.now).2 hinv' hs.2
      (fun c' hc' => hs.1 c' hc') (fun c' hc' => hcalls c' (List.mem_cons_of_mem _ hc'))
    have happ : H ++ c :: rest = (H ++ [c]) ++ rest := by simp
    rw [happ, ← hrec]
    simp only [runAllow, allowedInWindow_cons]
    rw [hdec hc.1]
    have hcnt := countInWindow_append w id W H c
    have hcnt2 := countInWindow_append w id (Truncate c.now w) H c
    simp only [hc.1, true_and] at hcnt hcnt2
    by_cases hin : Truncate c.now w = W
    · subst hin
      simp only [if_true] at hcnt hcnt2
      rw [hcnt]
      simp only [decide_eq_true_eq, and_true]
      push_cast
      by_cases hle : (countInWindow w id (Truncate c.now w) H : Int) + 1 ≤ L
      · rw [if_pos hle]
        omega
      · rw [if_neg hle]
        omega
    · simp only [if_neg hin] at hcnt
      rw [hcnt]
      simp only [hin, and_false, if_false]
      push_cast
      omega

/-- C26 as worded fails: with a one-minute window and limit 1, a call in one
window, a call in the next window and then a call with an instant back in the
first window are all allowed, so two allowed calls lie in the first window. -/
theorem C26_counterexample :
    (runAllow (NewDistributedRateLimiter Minute)
      [⟨7, 1, 60000000005⟩, ⟨7, 1, 120000000000⟩, ⟨7, 1, 60000000006⟩]).1 =
        [true, true, true] ∧
    Truncate 60000000005 Minute = 60000000000 ∧ Truncate 60000000006 Minute = 60000000000 ∧
    allowedInWindow Minute 60000000000
      [⟨7, 1, 60000000005⟩, ⟨7, 1, 120000000000⟩, ⟨7, 1, 60000000006⟩]
      (runAllow (NewDistributedRateLimiter Minute)
        [⟨7, 1, 60000000005⟩, ⟨7, 1, 120000000000⟩, ⟨7, 1, 60000000006⟩]).1 = 2 := by
  refine ⟨by decide, by decide, by decide, by decide⟩

/-- C26, amended: on a fresh limiter whose window is positive and at most
2^62 ns, for every sequence of `Allow` calls with one identity other than 0 and
one limit L above 0, made at non-decreasing instants, the number of calls that
return true and whose instant lies in any one aligned window is the smaller of
L and the number of calls in that window, hence at most L. -/
theorem C26_allowed_per_window (w : Int) (hw : 0 < w) (hw2 : w ≤ 2 ^ 62) (id : Nat)
    (hid : id ≠ 0) (L : Int) (hL : 0 < L) (calls : List AllowCall)
    (hsorted : calls.Pairwise (fun a b => a.now ≤ b.now))
    (hcalls : ∀ c ∈ calls, c.keyID = id ∧ c.limit = L) (W : Int) :
    (allowedInWindow w W calls (runAllow (NewDistributedRateLimiter w) calls).1 : Int) =
      min L (countInWindow w id W calls) ∧
    (allowedInWindow w W calls (runAllow (NewDistributedRateLimiter w) calls).1 : Int) ≤ L := by
  have key : (allowedInWindow w W calls (runAllow (NewDistributedRateLimiter w) calls).1 : Int) =
      min L (countInWindow w id W calls) := by
    cases calls with
    | nil => simp [allowedInWindow, runAllow, countInWindow]; omega
    | cons c rest =>
      have hs := List.pairwise_cons.mp hsorted
      have h := allowed_fills_window hw hw2 hid hL W (c :: rest) [] c.now
        (NewDistributedRateLimiter w) (LimiterInv_fresh w L id c.now hw) hsorted
        (by
          intro c' hc'
          rcases List.mem_cons.mp hc' with e | e
          · rw [e]
          · exact hs.1 c' e)
        hcalls
      have h0 : countInWindow w id W [] = 0 := rfl
      rw [h0, List.nil_append] at h
      have hmin : min L ((0 : Nat) : Int) = 0 := by
        simp only [Nat.cast_zero]
        omega
      rw [hmin, add_zero] at h
      exact h
  exact ⟨key, by rw [key]; exact min_le_left _ _⟩

/-- Witness of C26: three calls in time order with limit 2, two of them in the
first window. -/
theorem C26_witness :
    (allowedInWindow Minute 60000000000
      [⟨7, 2, 60000000005⟩, ⟨7, 2, 60000000006⟩, ⟨7, 2, 120000000000⟩]
      (runAllow (NewDistributedRateLimiter Minute)
        [⟨7, 2, 60000000005⟩, ⟨7, 2, 60000000006⟩, ⟨7, 2, 120000000000⟩]).1 : Int) ≤ 2 :=
  (C26_allowed_per_window Minute (by decide) (by decide) 7 (by decide) 2 (by decide)
    [⟨7, 2, 60000000005⟩, ⟨7, 2, 60000000006⟩, ⟨7, 2, 120000000000⟩] (by decide)
    (by decide) 60000000000).2

/-! ### The counters of the job record -/

/-- A call of `Start` either leaves the service as it was or is accepted while
no job is running. -/
theorem Start_cases (s : KeyBatchCreateJobService) (rawKeys : List Str) (alias_ : Str)
    (totalQuota : Int) (newID : Str) (now : Int) :
    (s.Start rawKeys alias_ totalQuota newID now).2 = s ∨
    ((∀ j, s.job = some j → j.Status ≠ ascii "running") ∧ normalizeBatchKeys rawKeys ≠ [] ∧
      (normalizeBatchKeys rawKeys).length ≤ 5000) := by
  by_cases h0 : (normalizeBatchKeys rawKeys).length = 0
  · left
    simp only [KeyBatchCreateJobService.Start, if_pos h0]
  · by_cases h1 : (normalizeBatchKeys rawKeys).length > maxBatchCreateKeys
    · left
      simp only [KeyBatchCreateJobService.Start, if_neg h0, if_pos h1]
    · by_cases hrun : ∃ j, s.job = some j ∧ j.Status = ascii "running"
      · left
        obtain ⟨j, hj, hr⟩ := hrun
        exact Start_running_state s j hj hr rawKeys alias_ totalQuota newID now
      · right
        refine ⟨fun j hj hr => hrun ⟨j, hj, hr⟩, ?_, ?_⟩
        · intro h
          exact h0 (by rw [h]; rfl)
        · simp only [maxBatchCreateKeys] at h1
          omega

theorem JobCounts_init : JobCounts NewKeyBatchCreateJobService where
  record := by intro j hj; simp [NewKeyBatchCreateJobService] at hj
  progress := by intro j w hj; simp [NewKeyBatchCreateJobService] at hj
  finished := by intro j hj; simp [NewKeyBatchCreateJobService] at hj

/-- Every transition keeps the invariant of the counters. -/
theorem JobCounts_step {s t : KeyBatchCreateJobService} (hinv : JobInv s) (h : JobCounts s)
    (hst : JobStep s t) : JobCounts t := by
  cases hst with
  | start _ rawKeys alias_ totalQuota newID now =>
    rcases Start_cases s rawKeys alias_ totalQuota newID now with heq | ⟨hidle, hne, hmax⟩
    · rw [heq]; exact h
    · rw [Start_accepted s rawKeys alias_ totalQuota newID now hidle hne hmax]
      have hnil : s.workers = [] := by
        by_contra hw
        obtain ⟨j, hj, hjr⟩ := hinv.running_iff.mpr hw
        exact hidle j hj hjr
      have hpos : 1 ≤ (normalizeBatchKeys rawKeys).length := by
        cases hk : normalizeBatchKeys rawKeys with
        | nil => exact absurd hk hne
        | cons a l => simp
      constructor
      · intro j hj
        simp only [Option.some.injEq] at hj
        subst hj
        refine ⟨by simp, by simp, by simp, by simp only; omega, by simp only; omega,
          Or.inl rfl, rfl, ?_⟩
        simp only [Option.isSome_none, Bool.false_eq_true, false_iff]
        exact fun e => running_ne_completed e.symm
      · intro j w hj hw
        simp only [Option.some.injEq] at hj
        subst hj
        rw [hnil] at hw
        simp only [List.nil_append, List.mem_singleton] at hw
        subst hw
        simp
      · intro j _ hw
        rw [hnil] at hw
        simp at hw
  | item job pre post w key rest err hkeys =>
    have hlen := hinv.at_most_one
    simp only [List.length_append, List.length_cons] at hlen
    have hpre : pre = [] := List.length_eq_zero.mp (by omega)
    have hpost : post = [] := List.length_eq_zero.mp (by omega)
    subst hpre hpost
    obtain ⟨j, hj, hjid⟩ := hinv.current w (by simp)
    simp only at hj
    subst hj
    have hid : ¬ j.ID ≠ w.jobID := by simp [hjid]
    obtain ⟨r1, r2, r3, r4, r5, r6, r7, r8⟩ := h.record j rfl
    have hprog := h.progress j w rfl (by simp)
    rw [hkeys, List.length_cons] at hprog
    cases err with
    | none =>
      simp only [runJobItem, if_neg hid, if_true, List.nil_append, List.append_nil]
      constructor
      · intro j' hj'
        simp only [Option.some.injEq] at hj'
        subst hj'
        exact ⟨by simp only; omega, r2, by simp only; omega, r4, r5, r6, r7, r8⟩
      · intro j' w' hj' hw'
        simp only [Option.some.injEq] at hj'
        simp only [List.mem_singleton] at hw'
        subst hj' hw'
        simp only
        push_cast at hprog ⊢
        omega
      · intro j' _ hw'
        simp at hw'
    | some msg =>
      simp only [runJobItem, if_neg hid, if_true, List.nil_append, List.append_nil]
      constructor
      · intro j' hj'
        simp only [Option.some.injEq] at hj'
        subst hj'
        refine ⟨by simp only; omega, ?_, r3, r4, r5, r6, r7, r8⟩
        simp only [List.length_append, List.length_singleton]
        push_cast
        omega
      · intro j' w' hj' hw'
        simp only [Option.some.injEq] at hj'
        simp only [List.mem_singleton] at hw'
        subst hj' hw'
        simp only
        push_cast at hprog ⊢
        omega
      · intro j' _ hw'
        simp at hw'
  | finish job pre post w endedAt hkeys =>
    have hlen := hinv.at_most_one
    simp only [List.length_append, List.length_cons] at hlen
    have hpre : pre = [] := List.length_eq_zero.mp (by omega)
    have hpost : post = [] := List.length_eq_zero.mp (by omega)
    subst hpre hpost
    obtain ⟨j, hj, hjid⟩ := hinv.current w (by simp)
    simp only at hj
    subst hj
    obtain ⟨r1, r2, r3, r4, r5, r6, r7, r8⟩ := h.record j rfl
    have hprog := h.progress j w rfl (by simp)
    rw [hkeys] at hprog
    simp only [List.length_nil, Nat.cast_zero, add_zero] at hprog
    simp only [runJobEnd, if_pos hjid, List.nil_append]
    constructor
    · intro j' hj'
      simp only [Option.some.injEq] at hj'
      subst hj'
      exact ⟨r1, r2, r3, r4, r5, Or.inr rfl, r7, by simp⟩
    · intro j' w' _ hw'
      simp at hw'
    · intro j' hj' _
      simp only [Option.some.injEq] at hj'
      subst hj'
      exact hprog

theorem JobCounts_of_reachable {s : KeyBatchCreateJobService} (h : JobReachable s) :
    JobCounts s := by
  induction h with
  | init => exact JobCounts_init
  | step s t hs hst ih => exact JobCounts_step (JobInv_of_reachable hs) ih hst

/-- C27: in every state reachable from a fresh job service by `Start` calls,
loop iterations and ends of the background work, the job record, when there is
one, has completed = succeeded + failed, failed = the length of the failures
list, 0 <= succeeded, 0 <= failed, 0 <= completed <= total, 1 <= total <= 5000,
the status running or completed (so neither idle nor error), the start instant
set, and the end instant set exactly when the status is completed; and
completed = total when the status is completed. -/
theorem C27_job_counters (s : KeyBatchCreateJobService) (h : JobReachable s) :
    ∀ j, s.job = some j →
      j.Completed = j.Succeeded + j.Failed ∧ j.Failed = j.Failures.length ∧
      0 ≤ j.Succeeded ∧ 0 ≤ j.Failed ∧
      0 ≤ j.Completed ∧ j.Completed ≤ j.Total ∧
      1 ≤ j.Total ∧ j.Total ≤ 5000 ∧
      (j.Status = ascii "running" ∨ j.Status = ascii "completed") ∧
      j.Status ≠ ascii "idle" ∧ j.Status ≠ ascii "error" ∧
      j.StartedAt.isSome = true ∧
      (j.EndedAt.isSome = true ↔ j.Status = ascii "completed") ∧
      (j.Status = ascii "completed" → j.Completed = j.Total) := by
  intro j hj
  have hc := JobCounts_of_reachable h
  have hi := JobInv_of_reachable h
  obtain ⟨r1, r2, r3, r4, r5, r6, r7, r8⟩ := hc.record j hj
  have hF : 0 ≤ j.Failed := by rw [r2]; exact Int.natCast_nonneg _
  have hle : j.Completed ≤ j.Total := by
    cases hw : s.workers with
    | nil => exact le_of_eq (hc.finished j hj hw)
    | cons w ws =>
      have := hc.progress j w hj (by rw [hw]; simp)
      have hn : (0 : Int) ≤ w.keys.length := Int.natCast_nonneg _
      omega
  have hidle : j.Status ≠ ascii "idle" := by
    rcases r6 with e | e <;> rw [e] <;> decide
  have herr : j.Status ≠ ascii "error" := by
    rcases r6 with e | e <;> rw [e] <;> decide
  refine ⟨r1, r2, r3, hF, by omega, hle, r4, r5, r6, hidle, herr, r7, r8, ?_⟩
  intro hdone
  apply hc.finished j hj
  by_contra hw
  obtain ⟨j', hj', hrun⟩ := hi.running_iff.mpr hw
  rw [hj] at hj'
  injection hj' with e
  subst e
  rw [hdone] at hrun
  exact running_ne_completed hrun

/-- Witness of C27: the state after the first `Start`. -/
theorem C27_witness :
    JobReachable runningService ∧
    ∃ j, runningService.job = some j ∧ j.Total = 2 ∧ j.Completed = 0 ∧ j.Completed ≤ j.Total := by
  refine ⟨runningService_reachable, _, rfl, by decide, by decide, ?_⟩
  exact (C27_job_counters runningService runningService_reachable _ rfl).2.2.2.2.2.1

/-! ### `Start` that fails -/

/-- C29: whenever `Start` returns an error, the error is no-items or
too-large, the service is left exactly as it was, job record and live
goroutines alike, whatever its state (no job yet, a job running, a job
completed), the returned snapshot is the zero value and `alreadyRunning` is
false. It returns an error exactly when the normalised items are none or more
than 5000. -/
theorem C29_start_error (s : KeyBatchCreateJobService) (rawKeys : List Str) (alias_ : Str)
    (totalQuota : Int) (newID : Str) (now : Int) :
    (∀ e, (s.Start rawKeys alias_ totalQuota newID now).1.2.2 = some e →
      (e = .ErrBatchCreateNoKeys ∨ e = .ErrBatchCreateTooLarge) ∧
      (s.Start rawKeys alias_ totalQuota newID now).2 = s ∧
      (s.Start rawKeys alias_ totalQuota newID now).2.job = s.job ∧
      (s.Start rawKeys alias_ totalQuota newID now).2.workers = s.workers ∧
      (s.Start rawKeys alias_ totalQuota newID now).1.1 = KeyBatchCreateJobStatus.zero ∧
      (s.Start rawKeys alias_ totalQuota newID now).1.2.1 = false) ∧
    ((∃ e, (s.Start rawKeys alias_ totalQuota newID now).1.2.2 = some e) ↔
      (normalizeBatchKeys rawKeys = [] ∨ (normalizeBatchKeys rawKeys).length > 5000)) := by
  by_cases h0 : (normalizeBatchKeys rawKeys).length = 0
  · have hs : s.Start rawKeys alias_ totalQuota newID now =
        ((KeyBatchCreateJobStatus.zero, false, some .ErrBatchCreateNoKeys), s) := by
      simp only [KeyBatchCreateJobService.Start, if_pos h0]
    rw [hs]
    refine ⟨?_, ?_⟩
    · intro e he
      simp only [Option.some.injEq] at he
      exact ⟨Or.inl he.symm, rfl, rfl, rfl, rfl, rfl⟩
    · exact ⟨fun _ => Or.inl (List.length_eq_zero.mp h0), fun _ => ⟨_, rfl⟩⟩
  · by_cases h1 : (normalizeBatchKeys rawKeys).length > maxBatchCreateKeys
    · have hs : s.Start rawKeys alias_ totalQuota newID now =
          ((KeyBatchCreateJobStatus.zero, false, some .ErrBatchCreateTooLarge), s) := by
        simp only [KeyBatchCreateJobService.Start, if_neg h0, if_pos h1]
      rw [hs]
      refine ⟨?_, ?_⟩
      · intro e he
        simp only [Option.some.injEq] at he
        exact ⟨Or.inr he.symm, rfl, rfl, rfl, rfl, rfl⟩
      · exact ⟨fun _ => Or.inr h1, fun _ => ⟨_, rfl⟩⟩
    · have hnone : (s.Start rawKeys alias_ totalQuota newID now).1.2.2 = none := by
        simp only [KeyBatchCreateJobService.Start, if_neg h0, if_neg h1]
        split
        · split <;> rfl
        · rfl
      rw [hnone]
      refine ⟨?_, ?_⟩
      · intro e he
        cases he
      · constructor
        · rintro ⟨e, he⟩
          cases he
        · rintro (h | h)
          · exact absurd (by rw [h]; rfl) h0
          · exact absurd h h1

/-! ### The retry policy of `Create` and `Rotate` -/

theorem isUniqueConstraintError_uniqueConstraintFailed (mapToLower : Str → Str) :
    isUniqueConstraintError mapToLower uniqueConstraintFailed = true := by
  have hascii : uniqueConstraintFailed.all (fun b => decide (b.val < 128)) = true := by
    set_option maxRecDepth 100000 in decide
  unfold isUniqueConstraintError ToLower
  rw [if_pos hascii]
  set_option maxRecDepth 100000 in decide

/-- The classification of a message with a byte outside ASCII rests on the
text that the lowering of the library returns for it. -/
theorem isUniqueConstraintError_mapped (mapToLower : Str → Str) (msg : Str)
    (h : msg.all (fun b => decide (b.val < 128)) = false) :
    isUniqueConstraintError mapToLower msg =
      (Contains (mapToLower msg) (ascii "unique constraint") ||
        Contains (mapToLower msg) (ascii "duplicate key")) := by
  unfold isUniqueConstraintError ToLower
  rw [if_neg (by rw [h]; exact Bool.false_ne_true)]

/-- The message `duplicate Key` with its `K` written as the Kelvin sign U+212A,
the bytes E2 84 AA: with a lowering that turns the sign into `k`, as that of
the library does, the message is that of a uniqueness violation. -/
theorem isUniqueConstraintError_kelvin (mapToLower : Str → Str)
    (h : mapToLower (ascii "duplicate " ++ [0xE2, 0x84, 0xAA] ++ ascii "ey") =
      ascii "duplicate key") :
    isUniqueConstraintError mapToLower (ascii "duplicate " ++ [0xE2, 0x84, 0xAA] ++ ascii "ey") =
      true := by
  rw [isUniqueConstraintError_mapped _ _ (by set_option maxRecDepth 100000 in decide), h]
  set_option maxRecDepth 100000 in decide

theorem generated_ne_nil (raw : Str) : distributedKeyPrefixDefault ++ EncodeToString raw ≠ [] := by
  simp [distributedKeyPrefixDefault, ascii]

/-- An iteration of the loop of `Create` that ends in a collision goes on with
the next one, on the same table. -/
theorem createLoop_collision (s : DistributedKeyService) (input : DistributedKeyCreateInput)
    (name : Str) (rateLimit : Int) (env : Nat → Attempt) (fuel i : Nat) (db : DB)
    (h : attemptEnd s (takenByAny db) (env i) = .collision) :
    createLoop s input name rateLimit env (fuel + 1) i db =
      createLoop s input name rateLimit env fuel (i + 1) db := by
  unfold attemptEnd at h
  cases hraw : (env i).raw with
  | none => simp [hraw] at h
  | some raw =>
    cases hnonce : (env i).nonce with
    | none => simp [hraw, hnonce] at h
    | some nonce =>
      simp only [hraw, hnonce] at h
      have hpt := generated_ne_nil raw
      rw [createLoop]
      simp only [hraw, generateDistributedKeyToken, hnonce, TokenCipher.Encrypt, if_neg hpt]
      cases hfault : (env i).fault with
      | some msg =>
        simp only [hfault] at h
        by_cases hu : isUniqueConstraintError s.mapToLower msg = true
        · simp only [DB.Create, hu, if_true]
        · simp [hu] at h
      | none =>
        simp only [hfault] at h
        by_cases ht : takenByAny db
            (hashToken s.sha256Hex (distributedKeyPrefixDefault ++ EncodeToString raw)) = true
        · unfold takenByAny at ht
          simp only [DB.Create, columnDefaults, ht, if_true,
            isUniqueConstraintError_uniqueConstraintFailed]
        · simp [ht] at h

/-- An iteration of the loop of `Create` that ends in an error returns it and
leaves the table as it was. -/
theorem createLoop_failed (s : DistributedKeyService) (input : DistributedKeyCreateInput)
    (name : Str) (rateLimit : Int) (env : Nat → Attempt) (fuel i : Nat) (db : DB) (e : Err)
    (h : attemptEnd s (takenByAny db) (env i) = .failed e) :
    createLoop s input name rateLimit env (fuel + 1) i db = (.error e, db) := by
  unfold attemptEnd at h
  rw [createLoop]
  cases hraw : (env i).raw with
  | none =>
    simp only [hraw, AttemptEnd.failed.injEq] at h
    simp only [generateDistributedKeyToken, h]
  | some raw =>
    have hpt := generated_ne_nil raw
    cases hnonce : (env i).nonce with
    | none =>
      simp only [hraw, hnonce, AttemptEnd.failed.injEq] at h
      simp only [generateDistributedKeyToken, TokenCipher.Encrypt, if_neg hpt, h]
    | some nonce =>
      simp only [hraw, hnonce] at h
      simp only [generateDistributedKeyToken, TokenCipher.Encrypt, if_neg hpt]
      cases hfault : (env i).fault with
      | some msg =>
        simp only [hfault] at h
        by_cases hu : isUniqueConstraintError s.mapToLower msg = true
        · simp [hu] at h
        · simp only [hu, Bool.false_eq_true, if_false, AttemptEnd.failed.injEq] at h
          simp only [DB.Create, hu, Bool.false_eq_true, if_false, h]
      | none =>
        simp only [hfault] at h
        split at h <;> simp at h

/-- An iteration of the loop of `Create` whose write is accepted returns the
stored record with the secret generated in this iteration. -/
theorem createLoop_accepted (s : DistributedKeyService) (input : DistributedKeyCreateInput)
    (name : Str) (rateLimit : Int) (env : Nat → Attempt) (fuel i : Nat) (db : DB)
    (h : attemptEnd s (takenByAny db) (env i) = .accepted) :
    ∃ key raw, (env i).raw = some raw ∧
      createLoop s input name rateLimit env (fuel + 1) i db =
        (.ok (key, distributedKeyPrefixDefault ++ EncodeToString raw),
          { rows := db.rows ++ [key], nextID := db.nextID + 1 }) := by
  unfold attemptEnd at h
  cases hraw : (env i).raw with
  | none => simp [hraw] at h
  | some raw =>
    cases hnonce : (env i).nonce with
    | none => simp [hraw, hnonce] at h
    | some nonce =>
      simp only [hraw, hnonce] at h
      have hpt := generated_ne_nil raw
      cases hfault : (env i).fault with
      | some msg =>
        simp only [hfault] at h
        split at h <;> simp at h
      | none =>
        simp only [hfault] at h
        by_cases ht : takenByAny db
            (hashToken s.sha256Hex (distributedKeyPrefixDefault ++ EncodeToString raw)) = true
        · simp [ht] at h
        · unfold takenByAny at ht
          rw [createLoop]
          simp only [hraw, generateDistributedKeyToken, hnonce, TokenCipher.Encrypt, if_neg hpt,
            DB.Create, hfault, ht, Bool.false_eq_true, if_false]
          exact ⟨_, raw, rfl, rfl⟩

/-- The loop of `Create` reads the environment of its own iterations only. -/
theorem createLoop_congr (s : DistributedKeyService) (input : DistributedKeyCreateInput)
    (name : Str) (rateLimit : Int) (env env' : Nat → Attempt) :
    ∀ fuel i db, (∀ j, i ≤ j → j < i + fuel → env' j = env j) →
      createLoop s input name rateLimit env' fuel i db =
        createLoop s input name rateLimit env fuel i db := by
  intro fuel
  induction fuel with
  | zero => intro i db _; simp only [createLoop]
  | succ n ih =>
    intro i db h
    have hi := h i (le_refl _) (by omega)
    have hrec := fun db' => ih (i + 1) db' (fun j h1 h2 => h j (by omega) (by omega))
    rw [createLoop, createLoop, hi]
    simp only [hrec]

/-- A run of the loop of `Create` that returns an error has written nothing. -/
theorem createLoop_error (s : DistributedKeyService) (input : DistributedKeyCreateInput)
    (name : Str) (rateLimit : Int) (env : Nat → Attempt) (e : Err) (db' : DB) :
    ∀ fuel i db, createLoop s input name rateLimit env fuel i db = (.error e, db') →
      db' = db := by
  intro fuel
  induction fuel with
  | zero =>
    intro i db h
    simp only [createLoop, Prod.mk.injEq] at h
    exact h.2.symm
  | succ n ih =>
    intro i db h
    cases hend : attemptEnd s (takenByAny db) (env i) with
    | collision =>
      rw [createLoop_collision s input name rateLimit env n i db hend] at h
      exact ih _ _ h
    | failed e' =>
      rw [createLoop_failed s input name rateLimit env n i db e' hend] at h
      simp only [Prod.mk.injEq] at h
      exact h.2.symm
    | accepted =>
      obtain ⟨key, raw, _, hok⟩ := createLoop_accepted s input name rateLimit env n i db hend
      rw [hok] at h
      simp at h

/-- The record that an iteration of the loop of `Rotate` saves. -/
theorem rotateLoop_collision (s : DistributedKeyService) (env : Nat → Attempt) (fuel i : Nat)
    (key : DistributedKey) (db : DB)
    (h : attemptEnd s (takenByOther db key.ID) (env i) = .collision) :
    ∃ key', key'.ID = key.ID ∧
      rotateLoop s env (fuel + 1) i key db = rotateLoop s env fuel (i + 1) key' db := by
  unfold attemptEnd at h
  cases hraw : (env i).raw with
  | none => simp [hraw] at h
  | some raw =>
    cases hnonce : (env i).nonce with
    | none => simp [hraw, hnonce] at h
    | some nonce =>
      simp only [hraw, hnonce] at h
      have hpt := generated_ne_nil raw
      rw [rotateLoop]
      simp only [hraw, generateDistributedKeyToken, hnonce, TokenCipher.Encrypt, if_neg hpt]
      cases hfault : (env i).fault with
      | some msg =>
        simp only [hfault] at h
        by_cases hu : isUniqueConstraintError s.mapToLower msg = true
        · simp only [DB.Save, hu, if_true]
          refine ⟨_, ?_, rfl⟩
          rfl
        · simp [hu] at h
      | none =>
        simp only [hfault] at h
        by_cases ht : takenByOther db key.ID
            (hashToken s.sha256Hex (distributedKeyPrefixDefault ++ EncodeToString raw)) = true
        · unfold takenByOther at ht
          simp only [DB.Save, ht, if_true, isUniqueConstraintError_uniqueConstraintFailed]
          refine ⟨_, ?_, rfl⟩
          rfl
        · simp [ht] at h

theorem rotateLoop_failed (s : DistributedKeyService) (env : Nat → Attempt) (fuel i : Nat)
    (key : DistributedKey) (db : DB) (e : Err)
    (h : attemptEnd s (takenByOther db key.ID) (env i) = .failed e) :
    rotateLoop s env (fuel + 1) i key db = (.error e, db) := by
  unfold attemptEnd at h
  rw [rotateLoop]
  cases hraw : (env i).raw with
  | none =>
    simp only [hraw, AttemptEnd.failed.injEq] at h
    simp only [generateDistributedKeyToken, h]
  | some raw =>
    have hpt := generated_ne_nil raw
    cases hnonce : (env i).nonce with
    | none =>
      simp only [hraw, hnonce, AttemptEnd.failed.injEq] at h
      simp only [generateDistributedKeyToken, TokenCipher.Encrypt, if_neg hpt, h]
    | some nonce =>
      simp only [hraw, hnonce] at h
      simp only [generateDistributedKeyToken, TokenCipher.Encrypt, if_neg hpt]
      cases hfault : (env i).fault with
      | some msg =>
        simp only [hfault] at h
        by_cases hu : isUniqueConstraintError s.mapToLower msg = true
        · simp [hu] at h
        · simp only [hu, Bool.false_eq_true, if_false, AttemptEnd.failed.injEq] at h
          simp only [DB.Save, hu, Bool.false_eq_true, if_false, h]
      | none =>
        simp only [hfault] at h
        split at h <;> simp at h

theorem rotateLoop_accepted (s : DistributedKeyService) (env : Nat → Attempt) (fuel i : Nat)
    (key : DistributedKey) (db : DB) (hmem : ∃ r ∈ db.rows, r.ID = key.ID)
    (h : attemptEnd s (takenByOther db key.ID) (env i) = .accepted) :
    ∃ key' raw, (env i).raw = some raw ∧ key'.ID = key.ID ∧
      rotateLoop s env (fuel + 1) i key db =
        (.ok (key', distributedKeyPrefixDefault ++ EncodeToString raw),
          { db with rows := db.rows.map (fun r => if r.ID = key.ID then key' else r) }) := by
  unfold attemptEnd at h
  cases hraw : (env i).raw with
  | none => simp [hraw] at h
  | some raw =>
    cases hnonce : (env i).nonce with
    | none => simp [hraw, hnonce] at h
    | some nonce =>
      simp only [hraw, hnonce] at h
      have hpt := generated_ne_nil raw
      cases hfault : (env i).fault with
      | some msg =>
        simp only [hfault] at h
        split at h <;> simp at h
      | none =>
        simp only [hfault] at h
        by_cases ht : takenByOther db key.ID
            (hashToken s.sha256Hex (distributedKeyPrefixDefault ++ EncodeToString raw)) = true
        · simp [ht] at h
        · unfold takenByOther at ht
          have hany : db.rows.any (fun r => decide (r.ID = key.ID)) = true := by
            rw [List.any_eq_true]
            obtain ⟨r, hr, hrid⟩ := hmem
            exact ⟨r, hr, by simpa using hrid⟩
          rw [rotateLoop]
          simp only [hraw, generateDistributedKeyToken, hnonce, TokenCipher.Encrypt, if_neg hpt,
            DB.Save, hfault, ht, Bool.false_eq_true, if_false, hany, if_true]
          refine ⟨_, raw, rfl, ?_, rfl⟩
          rfl

/-- The loop of `Rotate` reads the environment of its own iterations only. -/
theorem rotateLoop_congr (s : DistributedKeyService) (env env' : Nat → Attempt) :
    ∀ fuel i key db, (∀ j, i ≤ j → j < i + fuel → env' j = env j) →
      rotateLoop s env' fuel i key db = rotateLoop s env fuel i key db := by
  intro fuel
  induction fuel with
  | zero => intro i key db _; simp only [rotateLoop]
  | succ n ih =>
    intro i key db h
    have hi := h i (le_refl _) (by omega)
    have hrec := fun key' db' => ih (i + 1) key' db' (fun j h1 h2 => h j (by omega) (by omega))
    rw [rotateLoop, rotateLoop, hi]
    simp only [hrec]

/-- A run of the loop of `Rotate` that returns an error has written nothing. -/
theorem rotateLoop_error (s : DistributedKeyService) (env : Nat → Attempt) (e : Err) (db db' : DB) :
    ∀ fuel i key, rotateLoop s env fuel i key db = (.error e, db') → db' = db := by
  intro fuel
  induction fuel with
  | zero =>
    intro i key h
    simp only [rotateLoop, Prod.mk.injEq] at h
    exact h.2.symm
  | succ n ih =>
    intro i key h
    rw [rotateLoop] at h
    split at h
    · simp only [Prod.mk.injEq] at h
      exact h.2.symm
    · split at h
      · simp only [Prod.mk.injEq] at h
        exact h.2.symm
      · dsimp only at h
        split at h
        · split at h
          · exact ih _ _ h
          · simp only [Prod.mk.injEq] at h
            exact h.2.symm
        · simp at h

/-- The policy of the loop of `Create`: after collisions only, the first
attempt that does not collide decides. -/
theorem createLoop_policy (s : DistributedKeyService) (input : DistributedKeyCreateInput)
    (name : Str) (rateLimit : Int) (env : Nat → Attempt) (db : DB) :
    ∀ (k fuel i : Nat), k ≤ fuel →
      (∀ j, j < k → attemptEnd s (takenByAny db) (env (i + j)) = .collision) →
      (k < fuel → attemptEnd s (takenByAny db) (env (i + k)) = .accepted →
        ∃ key raw, (env (i + k)).raw = some raw ∧
          createLoop s input name rateLimit env fuel i db =
            (.ok (key, distributedKeyPrefixDefault ++ EncodeToString raw),
              { rows := db.rows ++ [key], nextID := db.nextID + 1 })) ∧
      (k < fuel → ∀ e, attemptEnd s (takenByAny db) (env (i + k)) = .failed e →
        createLoop s input name rateLimit env fuel i db = (.error e, db)) ∧
      (k = fuel →
        createLoop s input name rateLimit env fuel i db = (.error .failedToCreateUniqueKey, db)) := by
  intro k
  induction k with
  | zero =>
    intro fuel i _ _
    refine ⟨?_, ?_, ?_⟩
    · intro hlt hacc
      obtain ⟨f, rfl⟩ : ∃ f, fuel = f + 1 := ⟨fuel - 1, by omega⟩
      exact createLoop_accepted s input name rateLimit env f i db hacc
    · intro hlt e hfail
      obtain ⟨f, rfl⟩ : ∃ f, fuel = f + 1 := ⟨fuel - 1, by omega⟩
      exact createLoop_failed s input name rateLimit env f i db e hfail
    · intro h0
      rw [← h0]
      simp only [createLoop]
  | succ k ih =>
    intro fuel i hle hcol
    obtain ⟨f, rfl⟩ : ∃ f, fuel = f + 1 := ⟨fuel - 1, by omega⟩
    have h0 := hcol 0 (by omega)
    rw [Nat.add_zero] at h0
    have hstep := createLoop_collision s input name rateLimit env f i db h0
    have hidx : ∀ j, i + 1 + j = i + (j + 1) := fun j => by omega
    obtain ⟨a, b, c⟩ := ih f (i + 1) (by omega)
      (fun j hj => by rw [hidx]; exact hcol (j + 1) (by omega))
    rw [hidx] at a b
    rw [hstep]
    exact ⟨fun hlt => a (by omega), fun hlt => b (by omega), fun he => c (by omega)⟩

/-- The policy of the loop of `Rotate`. -/
theorem rotateLoop_policy (s : DistributedKeyService) (env : Nat → Attempt) (db : DB) (id : Nat)
    (hmem : ∃ r ∈ db.rows, r.ID = id) :
    ∀ (k fuel i : Nat) (key : DistributedKey), key.ID = id → k ≤ fuel →
      (∀ j, j < k → attemptEnd s (takenByOther db id) (env (i + j)) = .collision) →
      (k < fuel → attemptEnd s (takenByOther db id) (env (i + k)) = .accepted →
        ∃ key' raw, (env (i + k)).raw = some raw ∧ key'.ID = id ∧
          rotateLoop s env fuel i key db =
            (.ok (key', distributedKeyPrefixDefault ++ EncodeToString raw),
              { db with rows := db.rows.map (fun r => if r.ID = id then key' else r) })) ∧
      (k < fuel → ∀ e, attemptEnd s (takenByOther db id) (env (i + k)) = .failed e →
        rotateLoop s env fuel i key db = (.error e, db)) ∧
      (k = fuel → rotateLoop s env fuel i key db = (.error .failedToRotateKey, db)) := by
  intro k
  induction k with
  | zero =>
    intro fuel i key hid _ _
    subst hid
    refine ⟨?_, ?_, ?_⟩
    · intro hlt hacc
      obtain ⟨f, rfl⟩ : ∃ f, fuel = f + 1 := ⟨fuel - 1, by omega⟩
      exact rotateLoop_accepted s env f i key db hmem hacc
    · intro hlt e hfail
      obtain ⟨f, rfl⟩ : ∃ f, fuel = f + 1 := ⟨fuel - 1, by omega⟩
      exact rotateLoop_failed s env f i key db e hfail
    · intro h0
      rw [← h0]
      simp only [rotateLoop]
  | succ k ih =>
    intro fuel i key hid hle hcol
    obtain ⟨f, rfl⟩ : ∃ f, fuel = f + 1 := ⟨fuel - 1, by omega⟩
    have h0 := hcol 0 (by omega)
    rw [Nat.add_zero, ← hid] at h0
    obtain ⟨key', hid', hstep⟩ := rotateLoop_collision s env f i key db h0
    have hidx : ∀ j, i + 1 + j = i + (j + 1) := fun j => by omega
    obtain ⟨a, b, c⟩ := ih f (i + 1) key' (hid'.trans hid) (by omega)
      (fun j hj => by rw [hidx]; exact hcol (j + 1) (by omega))
    rw [hidx] at a b
    rw [hstep]
    exact ⟨fun hlt => a (by omega), fun hlt => b (by omega), fun he => c (by omega)⟩

/-- C22: `Create` and `Rotate` make at most 3 generate-encrypt-persist
attempts: in every table, the empty one included, the result depends on the
environment of the attempts 0, 1 and 2 only. For `Create` with an admissible
rate limit, and for `Rotate` of a token that exists: while the earlier attempts
ended in a uniqueness violation, the first attempt whose write the store
accepts returns success with the secret generated in that attempt and one
written row, and the first attempt that ends in any other error, of the random
source, of the cipher or of the store, returns that error at once with the
table unchanged; after 3 uniqueness violations in a row `Create` fails with
`failed to create unique key` and `Rotate` with `failed to rotate key`, and the
table is unchanged. Whenever either returns an error, with any rate limit and
any id, nothing has been written. A fault of the store is a uniqueness
violation exactly when `isUniqueConstraintError` says so of its message. -/
theorem C22_three_attempts (s : DistributedKeyService) (db : DB)
    (input : DistributedKeyCreateInput) (env : Nat → Attempt) (id : Nat) :
    ((∀ env' : Nat → Attempt, (∀ i, i < 3 → env' i = env i) →
        s.Create db input env' = s.Create db input env) ∧
      (0 ≤ input.RateLimitPerMinute.getD s.defaultRateLimit →
        ∀ k, k < 3 → (∀ j, j < k → attemptEnd s (takenByAny db) (env j) = .collision) →
        (attemptEnd s (takenByAny db) (env k) = .accepted →
          ∃ key raw, (env k).raw = some raw ∧
            s.Create db input env =
              (.ok (key, distributedKeyPrefixDefault ++ EncodeToString raw),
                { rows := db.rows ++ [key], nextID := db.nextID + 1 })) ∧
        (∀ e, attemptEnd s (takenByAny db) (env k) = .failed e →
          s.Create db input env = (.error e, db))) ∧
      (0 ≤ input.RateLimitPerMinute.getD s.defaultRateLimit →
        (∀ j, j < 3 → attemptEnd s (takenByAny db) (env j) = .collision) →
        s.Create db input env = (.error .failedToCreateUniqueKey, db)) ∧
      (∀ e db', s.Create db input env = (.error e, db') → db' = db)) ∧
    ((∀ env' : Nat → Attempt, (∀ i, i < 3 → env' i = env i) →
        s.Rotate db id none env' = s.Rotate db id none env) ∧
      (∀ key0, db.FirstByID id = some key0 →
        ∀ k, k < 3 → (∀ j, j < k → attemptEnd s (takenByOther db id) (env j) = .collision) →
        (attemptEnd s (takenByOther db id) (env k) = .accepted →
          ∃ key raw, (env k).raw = some raw ∧ key.ID = id ∧
            s.Rotate db id none env =
              (.ok (key, distributedKeyPrefixDefault ++ EncodeToString raw),
                { db with rows := db.rows.map (fun r => if r.ID = id then key else r) })) ∧
        (∀ e, attemptEnd s (takenByOther db id) (env k) = .failed e →
          s.Rotate db id none env = (.error e, db))) ∧
      (∀ key0, db.FirstByID id = some key0 →
        (∀ j, j < 3 → attemptEnd s (takenByOther db id) (env j) = .collision) →
        s.Rotate db id none env = (.error .failedToRotateKey, db)) ∧
      (∀ e db', s.Rotate db id none env = (.error e, db') → db' = db)) := by
  have hC : ¬ input.RateLimitPerMinute.getD s.defaultRateLimit < 0 →
      ∀ env0 : Nat → Attempt, s.Create db input env0 =
      createLoop s input
        (if TrimSpace input.Name = [] then distributedKeyNameDefault else TrimSpace input.Name)
        (input.RateLimitPerMinute.getD s.defaultRateLimit) env0 3 0 db := by
    intro hneg env0
    rw [Create_eq, if_neg hneg]
  have hCneg : input.RateLimitPerMinute.getD s.defaultRateLimit < 0 →
      ∀ env0 : Nat → Attempt, s.Create db input env0 = (.error .ErrInvalidRateLimit, db) := by
    intro hneg env0
    rw [Create_eq, if_pos hneg]
  have hR : ∀ key0, db.FirstByID id = some key0 →
      ∀ env0 : Nat → Attempt, s.Rotate db id none env0 = rotateLoop s env0 3 0 key0 db := by
    intro key0 hfind env0
    simp only [DistributedKeyService.Rotate, DistributedKeyService.FindByID, hfind]
  have hRnone : db.FirstByID id = none →
      ∀ env0 : Nat → Attempt, s.Rotate db id none env0 = (.error .ErrDistributedKeyNotFound, db) := by
    intro hnone env0
    simp only [DistributedKeyService.Rotate, DistributedKeyService.FindByID, hnone]
  have hz : ∀ j : Nat, 0 + j = j := fun j => Nat.zero_add j
  refine ⟨⟨?_, ?_, ?_, ?_⟩, ⟨?_, ?_, ?_, ?_⟩⟩
  · intro env' henv
    by_cases hneg : input.RateLimitPerMinute.getD s.defaultRateLimit < 0
    · rw [hCneg hneg, hCneg hneg]
    · rw [hC hneg, hC hneg]
      exact createLoop_congr s input _ _ env env' 3 0 db (fun j _ hj => henv j (by omega))
  · intro hrate k hk hcol
    obtain ⟨a, b, _⟩ := createLoop_policy s input
      (if TrimSpace input.Name = [] then distributedKeyNameDefault else TrimSpace input.Name)
      (input.RateLimitPerMinute.getD s.defaultRateLimit) env db k 3 0 (by omega)
      (fun j hj => by rw [hz]; exact hcol j hj)
    rw [hz] at a b
    rw [hC (not_lt.mpr hrate)]
    exact ⟨a hk, b hk⟩
  · intro hrate hcol
    obtain ⟨_, _, c⟩ := createLoop_policy s input
      (if TrimSpace input.Name = [] then distributedKeyNameDefault else TrimSpace input.Name)
      (input.RateLimitPerMinute.getD s.defaultRateLimit) env db 3 3 0 (le_refl _)
      (fun j hj => by rw [hz]; exact hcol j hj)
    rw [hC (not_lt.mpr hrate)]
    exact c rfl
  · intro e db' h
    by_cases hneg : input.RateLimitPerMinute.getD s.defaultRateLimit < 0
    · rw [hCneg hneg] at h
      simp only [Prod.mk.injEq] at h
      exact h.2.symm
    · rw [hC hneg] at h
      exact createLoop_error s input _ _ env e db' 3 0 db h
  · intro env' henv
    cases hfind : db.FirstByID id with
    | none => rw [hRnone hfind, hRnone hfind]
    | some key0 =>
      rw [hR key0 hfind, hR key0 hfind]
      exact rotateLoop_congr s env env' 3 0 key0 db (fun j _ hj => henv j (by omega))
  · intro key0 hfind k hk hcol
    obtain ⟨hid, hmem⟩ := FirstByID_some db id key0 hfind
    obtain ⟨a, b, _⟩ := rotateLoop_policy s env db id ⟨key0, hmem, hid⟩ k 3 0 key0 hid
      (by omega) (fun j hj => by rw [hz]; exact hcol j hj)
    rw [hz] at a b
    rw [hR key0 hfind]
    exact ⟨a hk, b hk⟩
  · intro key0 hfind hcol
    obtain ⟨hid, hmem⟩ := FirstByID_some db id key0 hfind
    obtain ⟨_, _, c⟩ := rotateLoop_policy s env db id ⟨key0, hmem, hid⟩ 3 3 0 key0 hid
      (le_refl _) (fun j hj => by rw [hz]; exact hcol j hj)
    rw [hR key0 hfind]
    exact c rfl
  · intro e db' h
    cases hfind : db.FirstByID id with
    | none =>
      rw [hRnone hfind] at h
      simp only [Prod.mk.injEq] at h
      exact h.2.symm
    | some key0 =>
      rw [hR key0 hfind] at h
      exact rotateLoop_error s env e db db' 3 0 key0 h

/-- Witness of C22: on `demoTable` the first attempt of `Create` generates the
secret of the first row and collides, the second attempt is accepted; on the
table with no row the first attempt of `Create` is accepted. -/
theorem C22_witness :
    attemptEnd demoService (takenByAny demoTable) (demoEnv 0) = .collision ∧
    attemptEnd demoService (takenByAny demoTable) (demoEnv 1) = .accepted ∧
    (∃ key raw, (demoEnv 1).raw = some raw ∧
      demoService.Create demoTable
          { Name := ascii "client-c", Note := [], ExpiresAt := none, RateLimitPerMinute := none }
          demoEnv =
        (.ok (key, distributedKeyPrefixDefault ++ EncodeToString raw),
          { rows := demoTable.rows ++ [key], nextID := demoTable.nextID + 1 })) ∧
    ∃ key raw, (demoEnv 0).raw = some raw ∧
      demoService.Create { rows := [], nextID := 1 }
          { Name := ascii "client-c", Note := [], ExpiresAt := none, RateLimitPerMinute := none }
          demoEnv =
        (.ok (key, distributedKeyPrefixDefault ++ EncodeToString raw),
          { rows := [key], nextID := 2 }) := by
  have h0 : attemptEnd demoService (takenByAny demoTable) (demoEnv 0) = .collision := by
    set_option maxRecDepth 100000 in decide
  have h1 : attemptEnd demoService (takenByAny demoTable) (demoEnv 1) = .accepted := by
    set_option maxRecDepth 100000 in decide
  have h2 : attemptEnd demoService (takenByAny { rows := [], nextID := 1 }) (demoEnv 0) =
      .accepted := by
    set_option maxRecDepth 100000 in decide
  refine ⟨h0, h1, ?_, ?_⟩
  · exact ((C22_three_attempts demoService demoTable
      { Name := ascii "client-c", Note := [], ExpiresAt := none, RateLimitPerMinute := none }
      demoEnv 1).1.2.1 (by decide) 1 (by decide)
      (by
        intro j hj
        have hj0 : j = 0 := by omega
        rw [hj0]
        exact h0)).1 h1
  · exact ((C22_three_attempts demoService { rows := [], nextID := 1 }
      { Name := ascii "client-c", Note := [], ExpiresAt := none, RateLimitPerMinute := none }
      demoEnv 1).1.2.1 (by decide) 0 (by decide)
      (by
        intro j hj
        omega)).1 h2

/-! ### Rotation and authentication -/

/-- A look-up by digest after the rows of a primary key have been replaced by
a record whose digest no other row holds finds that record. -/
theorem First_replace_hit (rows : List DistributedKey) (id : Nat) (key : DistributedKey)
    (hmem : ∃ r ∈ rows, r.ID = id)
    (hfresh : ∀ r ∈ rows, r.ID ≠ id → r.TokenHash ≠ key.TokenHash) :
    (rows.map (fun r => if r.ID = id then key else r)).find?
      (fun r => decide (r.TokenHash = key.TokenHash)) = some key := by
  induction rows with
  | nil =>
    obtain ⟨r, hr, _⟩ := hmem
    simp at hr
  | cons r rows ih =>
    simp only [List.map_cons, List.find?_cons]
    by_cases hr : r.ID = id
    · simp [hr]
    · have hne := hfresh r (List.mem_cons_self _ _) hr
      simp only [if_neg hr, hne, decide_False]
      apply ih
      · obtain ⟨r', hr', hid'⟩ := hmem
        rcases List.mem_cons.mp hr' with e | e
        · exact absurd (e ▸ hid') hr
        · exact ⟨r', e, hid'⟩
      · exact fun r' hr' => hfresh r' (List.mem_cons_of_mem _ hr')

/-- A look-up by a digest that neither the new record nor any other row holds
finds nothing. -/
theorem First_replace_miss (rows : List DistributedKey) (id : Nat) (key : DistributedKey)
    (hash : Str) (hkey : key.TokenHash ≠ hash)
    (hother : ∀ r ∈ rows, r.ID ≠ id → r.TokenHash ≠ hash) :
    (rows.map (fun r => if r.ID = id then key else r)).find?
      (fun r => decide (r.TokenHash = hash)) = none := by
  rw [List.find?_eq_none]
  intro x hx
  obtain ⟨r, hr, rfl⟩ := List.mem_map.mp hx
  by_cases hid : r.ID = id
  · simp [hid, hkey]
  · simp [hid, hother r hr hid]

/-- C28: rotation revokes the old secret. For a lawful cipher with nonces of
its size and a table in which no other row holds the digest of the token,
after a successful `Rotate` of the token whose digest was that of the old
plaintext (a secret free of surrounding white space, as every generated secret
is) and that returns a new plaintext different from the old one:
`AuthenticateBearer` of the old plaintext fails with not-found at every
instant, and `AuthenticateBearer` of the new plaintext returns the rotated
token, with the same id, whenever its expiry is absent or strictly after
`now`, whether or not the token was active before the rotation; with an expiry
not after `now` it fails with expired. -/
theorem C28_rotation_revokes (s : DistributedKeyService) (db : DB) (id : Nat)
    (env : Nat → Attempt) (key0 key : DistributedKey) (old new : Str) (db' : DB) (now : Int)
    (hc : s.cipher.aead.Lawful)
    (hnonce : ∀ i n, (env i).nonce = some n → n.length = s.cipher.aead.NonceSize)
    (hfind : db.FirstByID id = some key0)
    (huniq : ∀ r ∈ db.rows, r.ID ≠ id → r.TokenHash ≠ key0.TokenHash)
    (hold : key0.TokenHash = hashToken s.sha256Hex old) (htrim : TrimSpace old = old)
    (hrot : s.Rotate db id none env = (.ok (key, new), db'))
    (hne : new ≠ old) :
    s.AuthenticateBearer db' old now = .error .ErrDistributedKeyNotFound ∧
    key.ID = id ∧ key.IsActive = true ∧ key.ExpiresAt = key0.ExpiresAt ∧
    ((∀ e, key0.ExpiresAt = some e → now < e) → s.AuthenticateBearer db' new now = .ok key) ∧
    (∀ e, key0.ExpiresAt = some e → e ≤ now →
      s.AuthenticateBearer db' new now = .error .ErrDistributedKeyExpired) := by
  obtain ⟨hid, hmem⟩ := FirstByID_some db id key0 hfind
  simp only [DistributedKeyService.Rotate, DistributedKeyService.FindByID, hfind] at hrot
  obtain ⟨j, raw, nonce, ct, _, hn, _, hpt, henc, hk, hdb, hfresh⟩ :=
    rotateLoop_ok s env key new db db' 3 0 key0 ⟨key0, hmem, rfl⟩ hrot
  rw [hid] at hfresh hdb
  have hkid : key.ID = id := by rw [hk]; exact hid
  have hkhash : key.TokenHash = hashToken s.sha256Hex new := by rw [hk]
  have hkct : key.Ciphertext = ct := by rw [hk]
  have hkact : key.IsActive = true := by rw [hk]
  have hkexp : key.ExpiresAt = key0.ExpiresAt := by rw [hk]
  obtain ⟨hnew0, _⟩ := Encrypt_ok_eq s.cipher nonce new ct henc
  obtain ⟨ct', henc', hdec⟩ := Decrypt_Encrypt_ok s.cipher hc nonce new (hnonce j nonce hn) hnew0
  have hct : ct' = ct := by
    rw [henc] at henc'
    injection henc' with h'
    exact h'.symm
  rw [hct, ← hkct] at hdec
  have hnewtrim : TrimSpace new = new := by rw [hpt]; exact TrimSpace_generated raw
  have hrows : db'.rows = db.rows.map (fun r => if r.ID = id then key else r) := by rw [hdb]
  have hhit : db'.First key.TokenHash = some key := by
    simp only [DB.First, hrows]
    exact First_replace_hit db.rows id key ⟨key0, hmem, hid⟩ hfresh
  -- the new plaintext
  have hnewauth := AuthenticateBearer_found s db' new now key (by rw [hnewtrim]; exact hnew0)
    (by rw [hnewtrim, ← hkhash]; exact hhit)
  simp only [hdec, hnewtrim, ne_eq, not_true_eq_false, if_false, hkact, Bool.true_eq_false,
    hkexp] at hnewauth
  refine ⟨?_, hkid, hkact, hkexp, ?_, ?_⟩
  · -- the old plaintext
    by_cases hold0 : old = []
    · have ht0 : TrimSpace old = [] := by rw [htrim]; exact hold0
      simp only [DistributedKeyService.AuthenticateBearer, if_pos ht0]
    · by_cases hcol : key.TokenHash = hashToken s.sha256Hex old
      · have h := AuthenticateBearer_found s db' old now key (by rw [htrim]; exact hold0)
          (by rw [htrim, ← hcol]; exact hhit)
        rw [h]
        simp only [hdec, htrim, ne_eq, hne, not_false_eq_true, if_true]
      · have hmiss : db'.First (hashToken s.sha256Hex old) = none := by
          simp only [DB.First, hrows]
          exact First_replace_miss db.rows id key _ hcol (by rw [← hold]; exact huniq)
        simp only [DistributedKeyService.AuthenticateBearer, htrim, if_neg hold0, hmiss]
  · intro hexp
    rw [hnewauth]
    cases he : key0.ExpiresAt with
    | none => rfl
    | some e =>
      have := hexp e he
      simp only [if_neg (not_le.mpr this)]
  · intro e he hle
    rw [hnewauth]
    simp only [he, if_pos hle]

/-- Witness of C28: the disabled second row of `demoTable`, whose digest is
that of the secret `other`, is rotated; the old secret is refused and the new
one returns the token. -/
theorem C28_witness :
    ∃ key db',
      demoService.Rotate demoTable 2 none demoEnv =
        (.ok (key, distributedKeyPrefixDefault ++ EncodeToString (List.replicate 24 1)), db') ∧
      demoService.AuthenticateBearer db' (ascii "other") 5 = .error .ErrDistributedKeyNotFound ∧
      demoService.AuthenticateBearer db'
        (distributedKeyPrefixDefault ++ EncodeToString (List.replicate 24 1)) 5 = .ok key := by
  have hrot : demoService.Rotate demoTable 2 none demoEnv =
      (.ok
        ({ demoRow none true with
            ID := 2
            Name := ascii "client-b"
            TokenHash := distributedKeyPrefixDefault ++ EncodeToString (List.replicate 24 1)
            Ciphertext := EncodeToString
              (List.replicate 12 2 ++ sampleAEAD.Seal (List.replicate 12 2)
                (distributedKeyPrefixDefault ++ EncodeToString (List.replicate 24 1)))
            KeyPrefix :=
              tokenPrefix (distributedKeyPrefixDefault ++ EncodeToString (List.replicate 24 1)) },
          distributedKeyPrefixDefault ++ EncodeToString (List.replicate 24 1)),
        { rows :=
            [ demoRow (some 5000) true,
              { demoRow none true with
                ID := 2
                Name := ascii "client-b"
                TokenHash := distributedKeyPrefixDefault ++ EncodeToString (List.replicate 24 1)
                Ciphertext := EncodeToString
                  (List.replicate 12 2 ++ sampleAEAD.Seal (List.replicate 12 2)
                    (distributedKeyPrefixDefault ++ EncodeToString (List.replicate 24 1)))
                KeyPrefix :=
                  tokenPrefix
                    (distributedKeyPrefixDefault ++ EncodeToString (List.replicate 24 1)) } ]
          nextID := 3 }) := by
    set_option maxRecDepth 100000 in decide
  have hnonce : ∀ i n, (demoEnv i).nonce = some n →
      n.length = demoService.cipher.aead.NonceSize := by
    intro i n h
    simp only [demoEnv, Option.some.injEq] at h
    rw [← h]
    rfl
  have hfind : demoTable.FirstByID 2 =
      some { demoRow none false with
             ID := 2, TokenHash := ascii "other", Name := ascii "client-b" } := by
    set_option maxRecDepth 100000 in decide
  have h := C28_rotation_revokes demoService demoTable 2 demoEnv _ _ (ascii "other") _ _ 5
    sampleAEAD_lawful hnonce hfind
    (by set_option maxRecDepth 100000 in decide) rfl
    (by set_option maxRecDepth 100000 in decide) hrot
    (by set_option maxRecDepth 100000 in decide)
  exact ⟨_, _, hrot, h.1, h.2.2.2.2.1 (by intro e he; simp [demoRow] at he)⟩

/-! ### `NewTokenCipher` -/

theorem decodeStdChar_encodeStdChar (v : Nat) (hv : v < 64) :
    decodeStdChar (encodeStdChar v) = some v := by
  have h : ∀ w : Fin 64, decodeStdChar (encodeStdChar w.val) = some w.val := by decide
  exact h ⟨v, hv⟩

theorem encodeStdChar_plain (v : Nat) : isPlain (encodeStdChar v) = true := by
  by_cases hv : v < 64
  · have h : ∀ w : Fin 64, isPlain (encodeStdChar w.val) = true := by decide
    exact h ⟨v, hv⟩
  · have : encodeStdChar v = byte 47 := by
      unfold encodeStdChar
      have h1 : ¬ v < 26 := by omega
      have h2 : ¬ v < 52 := by omega
      have h3 : ¬ v < 62 := by omega
      have h4 : ¬ v = 62 := by omega
      simp [h1, h2, h3, h4]
    rw [this]; decide

/-- A byte of the standard alphabet is neither a line break nor the padding
sign. -/
theorem encodeStdChar_not_special (v : Nat) (hv : v < 64) :
    ¬ ((encodeStdChar v).val = 10 ∨ (encodeStdChar v).val = 13) ∧
    ¬ (encodeStdChar v).val = 61 := by
  have h : ∀ w : Fin 64, ¬ ((encodeStdChar w.val).val = 10 ∨ (encodeStdChar w.val).val = 13) ∧
      ¬ (encodeStdChar w.val).val = 61 := by decide
  exact h ⟨v, hv⟩

/-- A byte of the URL alphabet is not the padding sign. -/
theorem encodeURLChar_not_pad (v : Nat) : ¬ (encodeURLChar v).val = 61 := by
  by_cases hv : v < 64
  · have h : ∀ w : Fin 64, ¬ (encodeURLChar w.val).val = 61 := by decide
    exact h ⟨v, hv⟩
  · have : encodeURLChar v = byte 95 := by
      unfold encodeURLChar
      have h1 : ¬ v < 26 := by omega
      have h2 : ¬ v < 52 := by omega
      have h3 : ¬ v < 62 := by omega
      have h4 : ¬ v = 62 := by omega
      simp [h1, h2, h3, h4]
    rw [this]; decide

/-- Where both alphabets know a byte, they give it the same value. -/
theorem decodeStdChar_agree (b : Byte) (v v' : Nat) (h : decodeStdChar b = some v)
    (h' : decodeURLChar b = some v') : v = v' := by
  have key : ∀ b : Byte, ∀ x ∈ decodeStdChar b, ∀ y ∈ decodeURLChar b, x = y := by
    set_option maxRecDepth 100000 in decide
  exact key b v h v' h'

theorem decodeCharsStd_map_encodeStdChar (vs : List Nat) (h : ∀ v ∈ vs, v < 64) :
    decodeCharsStd (vs.map encodeStdChar) = some vs := by
  induction vs with
  | nil => rfl
  | cons v vs ih =>
    have hv : v < 64 := h v (List.mem_cons_self _ _)
    have ih2 := ih (fun w hw => h w (List.mem_cons_of_mem _ hw))
    simp only [List.map_cons, decodeCharsStd, if_neg (encodeStdChar_not_special v hv).1,
      decodeStdChar_encodeStdChar v hv, ih2]

/-- Round trip of `RawStdEncoding`. -/
theorem RawStdDecodeString_RawStdEncodeToString (src : Str) :
    RawStdDecodeString (RawStdEncodeToString src) = some src := by
  unfold RawStdDecodeString RawStdEncodeToString
  rw [decodeCharsStd_map_encodeStdChar _ (encodeGroups_lt src)]
  exact decodeGroups_encodeGroups src

/-- The two unpadded decoders agree on the values of an input that both
accept. -/
theorem decodeCharsStd_agree (s : Str) :
    ∀ vs vs', decodeCharsStd s = some vs → decodeChars s = some vs' → vs = vs' := by
  induction s with
  | nil =>
    intro vs vs' h h'
    simp only [decodeCharsStd, Option.some.injEq] at h
    simp only [decodeChars, Option.some.injEq] at h'
    rw [← h, ← h']
  | cons b rest ih =>
    intro vs vs' h h'
    unfold decodeCharsStd at h
    unfold decodeChars at h'
    by_cases hnl : b.val = 10 ∨ b.val = 13
    · rw [if_pos hnl] at h h'
      exact ih vs vs' h h'
    · rw [if_neg hnl] at h h'
      cases hs : decodeStdChar b with
      | none => simp [hs] at h
      | some v =>
        cases hu : decodeURLChar b with
        | none => simp [hu] at h'
        | some v' =>
          cases hr : decodeCharsStd rest with
          | none => simp [hs, hr] at h
          | some ws =>
            cases hr' : decodeChars rest with
            | none => simp [hu, hr'] at h'
            | some ws' =>
              simp only [hs, hr, Option.some.injEq] at h
              simp only [hu, hr', Option.some.injEq] at h'
              rw [← h, ← h', decodeStdChar_agree b v v' hs hu, ih ws ws' hr hr']

/-- On a text of the URL alphabet the unpadded standard decoder fails or
returns what the URL decoder returns. -/
theorem RawStdDecodeString_EncodeToString (src : Str) :
    RawStdDecodeString (EncodeToString src) = none ∨
    RawStdDecodeString (EncodeToString src) = some src := by
  have hurl := DecodeString_EncodeToString src
  unfold DecodeString at hurl
  unfold RawStdDecodeString
  cases hs : decodeCharsStd (EncodeToString src) with
  | none => exact Or.inl rfl
  | some vs =>
    right
    cases hu : decodeChars (EncodeToString src) with
    | none => simp [hu] at hurl
    | some vs' =>
      simp only [hu] at hurl
      rw [decodeCharsStd_agree _ vs vs' hs hu]
      exact hurl

/-- On an input without padding signs and line breaks, the padded decoder reads
one value per byte, if it reads the input at all. -/
theorem decodeCharsPadded_plain (s : Str)
    (h : ∀ b ∈ s, ¬ (b.val = 10 ∨ b.val = 13) ∧ ¬ b.val = 61) :
    decodeCharsPadded s = none ∨
    ∃ vs, decodeCharsPadded s = some (vs, none) ∧ vs.length = s.length := by
  induction s with
  | nil => exact Or.inr ⟨[], rfl, rfl⟩
  | cons b rest ih =>
    obtain ⟨h1, h2⟩ := h b (List.mem_cons_self _ _)
    unfold decodeCharsPadded
    rw [if_neg h1, if_neg h2]
    cases hd : decodeStdChar b with
    | none => exact Or.inl rfl
    | some v =>
      rcases ih (fun b' hb' => h b' (List.mem_cons_of_mem _ hb')) with e | ⟨vs, e, hl⟩
      · left
        simp only [e]
      · right
        refine ⟨v :: vs, ?_, ?_⟩
        · simp only [e]
        · simp only [List.length_cons, hl]

/-- The padded decoder refuses an input without padding signs and line breaks
whose length is not a multiple of four. -/
theorem StdDecodeString_unpadded (s : Str)
    (h : ∀ b ∈ s, ¬ (b.val = 10 ∨ b.val = 13) ∧ ¬ b.val = 61) (hlen : s.length % 4 ≠ 0) :
    StdDecodeString s = none := by
  unfold StdDecodeString
  rcases decodeCharsPadded_plain s h with e | ⟨vs, e, hl⟩
  · simp only [e]
  · simp only [e, hl, if_neg hlen]

/-- The values of the padded decoder on an encoded text followed by more
input. -/
theorem decodeCharsPadded_append (vs : List Nat) (h : ∀ v ∈ vs, v < 64) (t : Str) :
    decodeCharsPadded (vs.map encodeStdChar ++ t) =
      (decodeCharsPadded t).map (fun r => (vs ++ r.1, r.2)) := by
  induction vs with
  | nil =>
    simp only [List.map_nil, List.nil_append]
    cases decodeCharsPadded t <;> rfl
  | cons v vs ih =>
    have hv : v < 64 := h v (List.mem_cons_self _ _)
    have ih2 := ih (fun w hw => h w (List.mem_cons_of_mem _ hw))
    obtain ⟨h1, h2⟩ := encodeStdChar_not_special v hv
    rw [List.map_cons, List.cons_append, decodeCharsPadded, if_neg h1, if_neg h2,
      decodeStdChar_encodeStdChar v hv]
    simp only [ih2]
    cases decodeCharsPadded t <;> rfl

/-- Round trip of `StdEncoding`. -/
theorem StdDecodeString_StdEncodeToString (src : Str) :
    StdDecodeString (StdEncodeToString src) = some src := by
  have hlen := encodeGroups_length src
  have hdec := decodeGroups_encodeGroups src
  unfold StdDecodeString StdEncodeToString RawStdEncodeToString
  rw [decodeCharsPadded_append _ (encodeGroups_lt src)]
  have hcases : src.length % 3 = 0 ∨ src.length % 3 = 1 ∨ src.length % 3 = 2 := by omega
  have e0 : decodeCharsPadded (List.replicate 0 (byte 61)) = some ([], none) := rfl
  have e1 : decodeCharsPadded (List.replicate 1 (byte 61)) = some ([], some []) := by decide
  have e2 : decodeCharsPadded (List.replicate 2 (byte 61)) = some ([], some [byte 61]) := by
    decide
  have hf : List.filter (fun b : Byte => !(decide (b.val = 10 ∨ b.val = 13))) [byte 61] =
      [byte 61] := by decide
  rcases hcases with h0 | h1 | h2
  · have hp : (3 - src.length % 3) % 3 = 0 := by omega
    have hm : (encodeGroups src).length % 4 = 0 := by omega
    rw [hp, e0]
    simp only [Option.map_some', List.append_nil, hm, if_true, hdec]
  · have hp : (3 - src.length % 3) % 3 = 2 := by omega
    have hm : (encodeGroups src).length % 4 = 2 := by omega
    rw [hp, e2]
    simp only [Option.map_some', List.append_nil, hm, if_true, hf, hdec]
  · have hp : (3 - src.length % 3) % 3 = 1 := by omega
    have hm : (encodeGroups src).length % 4 = 3 := by omega
    have h32 : ¬ (3 : Nat) = 2 := by decide
    rw [hp, e1]
    simp only [Option.map_some', List.append_nil, hm, h32, if_false, List.filter_nil, if_true,
      hdec]

/-- Trimming leaves a text of bytes that are not white space as it is. -/
theorem TrimSpace_all_plain (s : Str) (h : ∀ b ∈ s, isPlain b = true) : TrimSpace s = s :=
  TrimSpace_plain s (fun b hb => h b (List.mem_of_mem_head? hb))
    (fun b hb => h b (List.mem_of_mem_getLast? hb))

theorem RawStdEncodeToString_plain (src : Str) : ∀ b ∈ RawStdEncodeToString src, isPlain b = true := by
  intro b hb
  obtain ⟨v, _, rfl⟩ := List.mem_map.mp hb
  exact encodeStdChar_plain v

theorem StdEncodeToString_plain (src : Str) : ∀ b ∈ StdEncodeToString src, isPlain b = true := by
  intro b hb
  rcases List.mem_append.mp hb with h | h
  · exact RawStdEncodeToString_plain src b h
  · rw [List.eq_of_mem_replicate h]
    decide

theorem EncodeToString_plain (src : Str) : ∀ b ∈ EncodeToString src, isPlain b = true := by
  intro b hb
  obtain ⟨v, _, rfl⟩ := List.mem_map.mp hb
  exact encodeURLChar_plain v

theorem RawStdEncodeToString_length (src : Str) :
    (RawStdEncodeToString src).length = (src.length * 4 + 2) / 3 := by
  simp [RawStdEncodeToString, encodeGroups_length]

theorem StdEncodeToString_length (src : Str) :
    (StdEncodeToString src).length = (src.length * 4 + 2) / 3 + (3 - src.length % 3) % 3 := by
  simp [StdEncodeToString, RawStdEncodeToString_length]

/-- The key selected for a trimmed secret of 16, 24 or 32 bytes is the secret
itself. -/
theorem tokenCipherKey_raw (secret : Str)
    (h : (TrimSpace secret).length = 16 ∨ (TrimSpace secret).length = 24 ∨
      (TrimSpace secret).length = 32) :
    tokenCipherKey secret = .ok (TrimSpace secret) := by
  have hne : TrimSpace secret ≠ [] := by
    intro e
    rw [e] at h
    simp at h
  have hc : ¬ ((TrimSpace secret).length ≠ 16 ∧ (TrimSpace secret).length ≠ 24 ∧
      (TrimSpace secret).length ≠ 32) := by omega
  simp only [tokenCipherKey, if_neg hne, if_neg hc, if_pos h]

/-- The key selected for a trimmed secret of another length, by the decoding
that is the first to succeed. -/
theorem tokenCipherKey_decoded (secret key : Str) (hne : TrimSpace secret ≠ [])
    (hlen : (TrimSpace secret).length ≠ 16 ∧ (TrimSpace secret).length ≠ 24 ∧
      (TrimSpace secret).length ≠ 32)
    (hdec : StdDecodeString (TrimSpace secret) = some key ∨
      (StdDecodeString (TrimSpace secret) = none ∧
        RawStdDecodeString (TrimSpace secret) = some key) ∨
      (StdDecodeString (TrimSpace secret) = none ∧
        RawStdDecodeString (TrimSpace secret) = none ∧
        DecodeString (TrimSpace secret) = some key) ∨
      (StdDecodeString (TrimSpace secret) = none ∧
        RawStdDecodeString (TrimSpace secret) = none ∧
        DecodeString (TrimSpace secret) = none ∧ key = TrimSpace secret)) :
    tokenCipherKey secret =
      if key.length = 16 ∨ key.length = 24 ∨ key.length = 32 then .ok key
      else .error (.invalidEncryptionKeyLength key.length) := by
  rcases hdec with h | ⟨h1, h2⟩ | ⟨h1, h2, h3⟩ | ⟨h1, h2, h3, h4⟩
  · simp only [tokenCipherKey, if_neg hne, if_pos hlen, h]
  · simp only [tokenCipherKey, if_neg hne, if_pos hlen, h1, h2]
  · simp only [tokenCipherKey, if_neg hne, if_pos hlen, h1, h2, h3]
  · simp only [tokenCipherKey, if_neg hne, if_pos hlen, h1, h2, h3, h4]

/-- The padded decoder refuses the unpadded encodings of a key whose length is
not a multiple of three. -/
theorem StdDecodeString_raw_encodings (k : Str) (hk : k.length % 3 ≠ 0) :
    StdDecodeString (RawStdEncodeToString k) = none ∧
    StdDecodeString (EncodeToString k) = none := by
  have hlen := encodeGroups_length k
  have hm : (encodeGroups k).length % 4 ≠ 0 := by omega
  constructor
  · apply StdDecodeString_unpadded
    · intro b hb
      obtain ⟨v, hv, rfl⟩ := List.mem_map.mp hb
      exact encodeStdChar_not_special v (encodeGroups_lt k v hv)
    · simpa [RawStdEncodeToString] using hm
  · apply StdDecodeString_unpadded
    · intro b hb
      obtain ⟨v, hv, rfl⟩ := List.mem_map.mp hb
      exact ⟨encodeURLChar_not_newline v, encodeURLChar_not_pad v⟩
    · simpa [EncodeToString] using hm

/-- The keys selected for the three encodings of a key whose encodings do not
have 16, 24 or 32 characters: the key itself. -/
theorem tokenCipherKey_encodings (k : Str)
    (hk : k.length = 16 ∨ k.length = 24 ∨ k.length = 32)
    (hraw : (k.length * 4 + 2) / 3 ≠ 16 ∧ (k.length * 4 + 2) / 3 ≠ 24 ∧
      (k.length * 4 + 2) / 3 ≠ 32) (hk3 : k.length % 3 ≠ 0) :
    tokenCipherKey (RawStdEncodeToString k) = .ok k ∧
    tokenCipherKey (EncodeToString k) = .ok k := by
  have hknil : k ≠ [] := by
    intro e
    rw [e] at hk
    simp at hk
  obtain ⟨hs1, hs2⟩ := StdDecodeString_raw_encodings k hk3
  constructor
  · have ht := TrimSpace_all_plain _ (RawStdEncodeToString_plain k)
    have hl := RawStdEncodeToString_length k
    have hne : RawStdEncodeToString k ≠ [] := by
      intro e
      rw [e] at hl
      simp at hl
      omega
    have := tokenCipherKey_decoded (RawStdEncodeToString k) k (by rw [ht]; exact hne)
      (by rw [ht, hl]; exact hraw)
      (Or.inr (Or.inl ⟨by rw [ht]; exact hs1,
        by rw [ht]; exact RawStdDecodeString_RawStdEncodeToString k⟩))
    rw [this, if_pos hk]
  · have ht := TrimSpace_all_plain _ (EncodeToString_plain k)
    have hl := EncodeToString_length k
    have hne : EncodeToString k ≠ [] := EncodeToString_ne_nil k hknil
    rcases RawStdDecodeString_EncodeToString k with h2 | h2
    · have := tokenCipherKey_decoded (EncodeToString k) k (by rw [ht]; exact hne)
        (by rw [ht, hl]; exact hraw)
        (Or.inr (Or.inr (Or.inl ⟨by rw [ht]; exact hs2, by rw [ht]; exact h2,
          by rw [ht]; exact DecodeString_EncodeToString k⟩)))
      rw [this, if_pos hk]
    · have := tokenCipherKey_decoded (EncodeToString k) k (by rw [ht]; exact hne)
        (by rw [ht, hl]; exact hraw)
        (Or.inr (Or.inl ⟨by rw [ht]; exact hs2, by rw [ht]; exact h2⟩))
      rw [this, if_pos hk]

/-- The key selected for the padded encoding of a key of 32 bytes: the key
itself. -/
theorem tokenCipherKey_padded_32 (k : Str) (hk : k.length = 32) :
    tokenCipherKey (StdEncodeToString k) = .ok k := by
  have ht := TrimSpace_all_plain _ (StdEncodeToString_plain k)
  have hl := StdEncodeToString_length k
  rw [hk] at hl
  have hne : StdEncodeToString k ≠ [] := by
    intro e
    rw [e] at hl
    simp at hl
  have := tokenCipherKey_decoded (StdEncodeToString k) k (by rw [ht]; exact hne)
    (by rw [ht, hl]; decide)
    (Or.inl (by rw [ht]; exact StdDecodeString_StdEncodeToString k))
  rw [this, if_pos (Or.inr (Or.inr hk))]

/-- A key that `tokenCipherKey` returns has 16, 24 or 32 bytes. -/
theorem tokenCipherKey_ok_length (secret key : Str) (h : tokenCipherKey secret = .ok key) :
    key.length = 16 ∨ key.length = 24 ∨ key.length = 32 := by
  by_cases hne : TrimSpace secret = []
  · simp only [tokenCipherKey, if_pos hne] at h
    cases h
  · by_cases hv : (TrimSpace secret).length = 16 ∨ (TrimSpace secret).length = 24 ∨
        (TrimSpace secret).length = 32
    · rw [tokenCipherKey_raw secret hv] at h
      injection h with h'
      rw [← h']
      exact hv
    · have hlen : (TrimSpace secret).length ≠ 16 ∧ (TrimSpace secret).length ≠ 24 ∧
          (TrimSpace secret).length ≠ 32 := by omega
      have hfin : ∀ K : Str,
          (if K.length = 16 ∨ K.length = 24 ∨ K.length = 32 then (.ok K : Except Err Str)
           else .error (.invalidEncryptionKeyLength K.length)) = .ok key →
          key.length = 16 ∨ key.length = 24 ∨ key.length = 32 := by
        intro K hK
        by_cases hKv : K.length = 16 ∨ K.length = 24 ∨ K.length = 32
        · rw [if_pos hKv] at hK
          injection hK with h'
          rw [← h']
          exact hKv
        · rw [if_neg hKv] at hK
          cases hK
      cases h1 : StdDecodeString (TrimSpace secret) with
      | some d =>
        rw [tokenCipherKey_decoded secret d hne hlen (Or.inl h1)] at h
        exact hfin d h
      | none =>
        cases h2 : RawStdDecodeString (TrimSpace secret) with
        | some d =>
          rw [tokenCipherKey_decoded secret d hne hlen (Or.inr (Or.inl ⟨h1, h2⟩))] at h
          exact hfin d h
        | none =>
          cases h3 : DecodeString (TrimSpace secret) with
          | some d =>
            rw [tokenCipherKey_decoded secret d hne hlen
              (Or.inr (Or.inr (Or.inl ⟨h1, h2, h3⟩)))] at h
            exact hfin d h
          | none =>
            rw [tokenCipherKey_decoded secret (TrimSpace secret) hne hlen
              (Or.inr (Or.inr (Or.inr ⟨h1, h2, h3, rfl⟩)))] at h
            exact hfin _ h

/-- The construction fails when neither the trimmed secret nor any decoding of
it has 16, 24 or 32 bytes. -/
theorem tokenCipherKey_invalid (secret : Str) (hne : TrimSpace secret ≠ [])
    (hlen : (TrimSpace secret).length ≠ 16 ∧ (TrimSpace secret).length ≠ 24 ∧
      (TrimSpace secret).length ≠ 32)
    (hstd : ∀ d, StdDecodeString (TrimSpace secret) = some d →
      d.length ≠ 16 ∧ d.length ≠ 24 ∧ d.length ≠ 32)
    (hrawstd : ∀ d, RawStdDecodeString (TrimSpace secret) = some d →
      d.length ≠ 16 ∧ d.length ≠ 24 ∧ d.length ≠ 32)
    (hurl : ∀ d, DecodeString (TrimSpace secret) = some d →
      d.length ≠ 16 ∧ d.length ≠ 24 ∧ d.length ≠ 32) :
    ∃ n, tokenCipherKey secret = .error (.invalidEncryptionKeyLength n) := by
  have hfin : ∀ key : Str, (key.length ≠ 16 ∧ key.length ≠ 24 ∧ key.length ≠ 32) →
      (if key.length = 16 ∨ key.length = 24 ∨ key.length = 32 then
        (.ok key : Except Err Str)
       else .error (.invalidEncryptionKeyLength key.length)) =
      .error (.invalidEncryptionKeyLength key.length) := by
    intro key hk
    rw [if_neg (by omega)]
  cases h1 : StdDecodeString (TrimSpace secret) with
  | some d =>
    exact ⟨_, (tokenCipherKey_decoded secret d hne hlen (Or.inl h1)).trans (hfin d (hstd d h1))⟩
  | none =>
    cases h2 : RawStdDecodeString (TrimSpace secret) with
    | some d =>
      exact ⟨_, (tokenCipherKey_decoded secret d hne hlen (Or.inr (Or.inl ⟨h1, h2⟩))).trans
        (hfin d (hrawstd d h2))⟩
    | none =>
      cases h3 : DecodeString (TrimSpace secret) with
      | some d =>
        exact ⟨_, (tokenCipherKey_decoded secret d hne hlen
          (Or.inr (Or.inr (Or.inl ⟨h1, h2, h3⟩)))).trans (hfin d (hurl d h3))⟩
      | none =>
        exact ⟨_, (tokenCipherKey_decoded secret (TrimSpace secret) hne hlen
          (Or.inr (Or.inr (Or.inr ⟨h1, h2, h3, rfl⟩)))).trans (hfin _ hlen)⟩

/-- C23 as worded fails: the unpadded URL-safe encoding of a key of 24 bytes
has 32 characters and `NewTokenCipher` takes these 32 characters as the key;
the padded standard encoding of a key of 16 bytes has 24 characters and is
taken as the key likewise. -/
theorem C23_counterexample :
    tokenCipherKey (EncodeToString (List.replicate 24 (byte 0))) =
      .ok (ascii "AAAAAAAAAAAAAAAAAAAAAAAAAAAAAAAA") ∧
    ascii "AAAAAAAAAAAAAAAAAAAAAAAAAAAAAAAA" ≠ List.replicate 24 (byte 0) ∧
    tokenCipherKey (StdEncodeToString (List.replicate 16 (byte 0))) =
      .ok (ascii "AAAAAAAAAAAAAAAAAAAAAA==") ∧
    ascii "AAAAAAAAAAAAAAAAAAAAAA==" ≠ List.replicate 16 (byte 0) ∧
    (∀ newGCM : Str → AEAD,
      NewTokenCipher newGCM (EncodeToString (List.replicate 24 (byte 0))) =
        .ok { aead := newGCM (ascii "AAAAAAAAAAAAAAAAAAAAAAAAAAAAAAAA") }) := by
  have h1 : tokenCipherKey (EncodeToString (List.replicate 24 (byte 0))) =
      .ok (ascii "AAAAAAAAAAAAAAAAAAAAAAAAAAAAAAAA") := by
    set_option maxRecDepth 100000 in decide
  refine ⟨h1, ?_, ?_, ?_, ?_⟩
  · set_option maxRecDepth 100000 in decide
  · set_option maxRecDepth 100000 in decide
  · set_option maxRecDepth 100000 in decide
  · intro newGCM
    simp only [NewTokenCipher, h1]

/-- C23, amended: for every key k of 16, 24 or 32 bytes. A secret whose
trimmed form is k builds the AEAD over the bytes k, with no decoding. For k of
32 bytes, each of the three base64 encodings of k (standard padded, standard
unpadded, URL-safe unpadded) builds the AEAD over exactly the bytes k. For k
of 16 bytes the two unpadded encodings build the AEAD over k, while the padded
encoding has 24 characters and builds the AEAD over these characters. For k
of 24 bytes every encoding has 32 characters and builds the AEAD over these
characters. The construction fails with the missing-key error for a blank
secret, fails with the length error when neither the trimmed secret nor any
successful decoding of it has 16, 24 or 32 bytes, and a cipher it returns is
built over a key of 16, 24 or 32 bytes. -/
theorem C23_key_selection (newGCM : Str → AEAD) (k : Str)
    (hk : k.length = 16 ∨ k.length = 24 ∨ k.length = 32) :
    (∀ secret, TrimSpace secret = k → NewTokenCipher newGCM secret = .ok { aead := newGCM k }) ∧
    (k.length = 32 →
      NewTokenCipher newGCM (StdEncodeToString k) = .ok { aead := newGCM k } ∧
      NewTokenCipher newGCM (RawStdEncodeToString k) = .ok { aead := newGCM k } ∧
      NewTokenCipher newGCM (EncodeToString k) = .ok { aead := newGCM k }) ∧
    (k.length = 16 →
      NewTokenCipher newGCM (RawStdEncodeToString k) = .ok { aead := newGCM k } ∧
      NewTokenCipher newGCM (EncodeToString k) = .ok { aead := newGCM k } ∧
      (StdEncodeToString k).length = 24 ∧
      NewTokenCipher newGCM (StdEncodeToString k) =
        .ok { aead := newGCM (StdEncodeToString k) }) ∧
    (k.length = 24 →
      (StdEncodeToString k).length = 32 ∧ (RawStdEncodeToString k).length = 32 ∧
      (EncodeToString k).length = 32 ∧
      NewTokenCipher newGCM (StdEncodeToString k) =
        .ok { aead := newGCM (StdEncodeToString k) } ∧
      NewTokenCipher newGCM (RawStdEncodeToString k) =
        .ok { aead := newGCM (RawStdEncodeToString k) } ∧
      NewTokenCipher newGCM (EncodeToString k) =
        .ok { aead := newGCM (EncodeToString k) }) ∧
    (∀ secret, TrimSpace secret = [] →
      NewTokenCipher newGCM secret = .error .missingEncryptionKey) ∧
    (∀ secret, TrimSpace secret ≠ [] →
      ((TrimSpace secret).length ≠ 16 ∧ (TrimSpace secret).length ≠ 24 ∧
        (TrimSpace secret).length ≠ 32) →
      (∀ d, StdDecodeString (TrimSpace secret) = some d →
        d.length ≠ 16 ∧ d.length ≠ 24 ∧ d.length ≠ 32) →
      (∀ d, RawStdDecodeString (TrimSpace secret) = some d →
        d.length ≠ 16 ∧ d.length ≠ 24 ∧ d.length ≠ 32) →
      (∀ d, DecodeString (TrimSpace secret) = some d →
        d.length ≠ 16 ∧ d.length ≠ 24 ∧ d.length ≠ 32) →
      ∃ n, NewTokenCipher newGCM secret = .error (.invalidEncryptionKeyLength n)) ∧
    (∀ secret c, NewTokenCipher newGCM secret = .ok c →
      ∃ key, c = { aead := newGCM key } ∧
        (key.length = 16 ∨ key.length = 24 ∨ key.length = 32)) := by
  have hnew : ∀ secret key, tokenCipherKey secret = .ok key →
      NewTokenCipher newGCM secret = .ok { aead := newGCM key } := by
    intro secret key h
    simp only [NewTokenCipher, h]
  have hrawsel : ∀ s : Str, (∀ b ∈ s, isPlain b = true) →
      (s.length = 16 ∨ s.length = 24 ∨ s.length = 32) →
      NewTokenCipher newGCM s = .ok { aead := newGCM s } := by
    intro s hp hl
    have ht := TrimSpace_all_plain s hp
    have := tokenCipherKey_raw s (by rw [ht]; exact hl)
    rw [ht] at this
    exact hnew s s this
  refine ⟨?_, ?_, ?_, ?_, ?_, ?_, ?_⟩
  · intro secret ht
    have := tokenCipherKey_raw secret (by rw [ht]; exact hk)
    rw [ht] at this
    exact hnew secret k this
  · intro h32
    obtain ⟨a, b⟩ := tokenCipherKey_encodings k hk (by rw [h32]; decide) (by rw [h32]; decide)
    exact ⟨hnew _ _ (tokenCipherKey_padded_32 k h32), hnew _ _ a, hnew _ _ b⟩
  · intro h16
    obtain ⟨a, b⟩ := tokenCipherKey_encodings k hk (by rw [h16]; decide) (by rw [h16]; decide)
    have hl : (StdEncodeToString k).length = 24 := by
      rw [StdEncodeToString_length, h16]
    exact ⟨hnew _ _ a, hnew _ _ b, hl,
      hrawsel _ (StdEncodeToString_plain k) (Or.inr (Or.inl hl))⟩
  · intro h24
    have hl1 : (StdEncodeToString k).length = 32 := by
      rw [StdEncodeToString_length, h24]
    have hl2 : (RawStdEncodeToString k).length = 32 := by
      rw [RawStdEncodeToString_length, h24]
    have hl3 : (EncodeToString k).length = 32 := by
      rw [EncodeToString_length, h24]
    exact ⟨hl1, hl2, hl3,
      hrawsel _ (StdEncodeToString_plain k) (Or.inr (Or.inr hl1)),
      hrawsel _ (RawStdEncodeToString_plain k) (Or.inr (Or.inr hl2)),
      hrawsel _ (EncodeToString_plain k) (Or.inr (Or.inr hl3))⟩
  · intro secret ht
    simp only [NewTokenCipher, tokenCipherKey, if_pos ht]
  · intro secret hne hlen h1 h2 h3
    obtain ⟨n, hn⟩ := tokenCipherKey_invalid secret hne hlen h1 h2 h3
    exact ⟨n, by simp only [NewTokenCipher, hn]⟩
  · intro secret c h
    unfold NewTokenCipher at h
    cases hkey : tokenCipherKey secret with
    | error e => simp [hkey] at h
    | ok key =>
      simp only [hkey, Except.ok.injEq] at h
      exact ⟨key, h.symm, tokenCipherKey_ok_length secret key hkey⟩

/-- Witness of C23: the key of 32 bytes 7 in its padded standard encoding. -/
theorem C23_witness :
    (List.replicate 32 (byte 7)).length = 32 ∧
    ∀ newGCM : Str → AEAD,
      NewTokenCipher newGCM (StdEncodeToString (List.replicate 32 (byte 7))) =
        .ok { aead := newGCM (List.replicate 32 (byte 7)) } :=
  ⟨rfl, fun newGCM =>
    ((C23_key_selection newGCM (List.replicate 32 (byte 7)) (Or.inr (Or.inr rfl))).2.1 rfl).1⟩

end TavilyProxy
